import Mathlib

/-!
# json-parser (`src/cpp/json.hpp`): a shallow embedding and its properties

The embedding follows `json.hpp` function by function and keeps its names.

* A byte (`char`) is a natural number; the input buffer is a `List Nat`.
  Reading the buffer at or beyond its length gives `0`: `ParseFromString`
  passes `str.c_str()`, whose byte at index `size()` is the terminating NUL.
* A failed `assert`, an exception thrown by `at()` and undefined behaviour
  of the C++ code are results of their own (`Fault`), next to the returned
  value.
* `ParseValue` is recursive in the source.  Here the nesting depth is bounded
  by a fuel argument and each of the two `while (true)` loops by a counter;
  `ParseFromArray` supplies bounds that are never exhausted (proved below).
* `printf` output is kept as a list of diagnostics in the parser state.
* `double` values are binary64 numbers, represented exactly (see `Double`);
  `strtod` is the C library function, modelled for the "C" locale with
  correct rounding.
-/

namespace json

/-! ## Outcomes -/

/-- Ways in which a call of the C++ code ends without returning a value. -/
inductive Fault where
  /-- an `assert` of the source fails -/
  | assertion
  /-- `std::out_of_range`, thrown by `at()` -/
  | outOfRange
  /-- undefined behaviour: a signed index that wrapped around -/
  | undefined
  /-- the recursion bound of the embedding was used up (not a behaviour of the source) -/
  | fuel
deriving DecidableEq, Repr

deriving instance DecidableEq for Except

/-! ## Constants of the anonymous namespace -/

def VALUE_INDEX_BITS : Nat := 29

def VALUE_INDEX_MASK : Nat := (1 <<< VALUE_INDEX_BITS) - 1

/-- The constant `MAX_DATA_SIZE`, that is `(uint32_t)(-1)`. -/
def MAX_DATA_SIZE : Nat := 2 ^ 32 - 1

/-- The text `"true"`. -/
def TRUE_VALUE : List Nat := [116, 114, 117, 101]

/-- The text `"false"`. -/
def FALSE_VALUE : List Nat := [102, 97, 108, 115, 101]

/-- Bound of `int`: an `int` index holds values below `2 ^ 31`. -/
def INT_LIMIT : Nat := 2 ^ 31

/-! ## Characters -/

/-- The bytes of an ASCII text. -/
def ascii (s : String) : List Nat := s.toList.map Char.toNat

/-- C `isspace` in the "C" locale: space, `\t`, `\n`, `\v`, `\f`, `\r`. -/
def isspace (ch : Nat) : Bool := ch == 32 || (9 ≤ ch && ch ≤ 13)

/-- C `isdigit`. -/
def isdigit (ch : Nat) : Bool := 48 ≤ ch && ch ≤ 57

/-- C `isxdigit`. -/
def isxdigit (ch : Nat) : Bool :=
  isdigit ch || (97 ≤ ch && ch ≤ 102) || (65 ≤ ch && ch ≤ 70)

/-- C `isalnum` or underscore: the characters allowed between the parentheses of `nan(...)`. -/
def isnchar (ch : Nat) : Bool :=
  isdigit ch || (97 ≤ ch && ch ≤ 122) || (65 ≤ ch && ch ≤ 90) || ch == 95

/-- C `tolower` on a byte. -/
def tolower (ch : Nat) : Nat := if 65 ≤ ch ∧ ch ≤ 90 then ch + 32 else ch

/-! ## binary64 numbers -/

/-- A `double`.  A finite value is its sign and its magnitude counted in units of
`2 ^ (-1074)`, the smallest positive subnormal: every finite binary64 number is a whole
number of such units, so equal numbers have equal representations. -/
inductive Double where
  | finite (neg : Bool) (units : Nat)
  | inf (neg : Bool)
  | nan
deriving DecidableEq, Repr

namespace Double

/-- Number of units in `1.0`. -/
def one : Nat := 2 ^ 1074

/-- First magnitude (in units) that is too large for a finite binary64: `2 ^ 1024`. -/
def overflow : Nat := 2 ^ 2098

/-- The double whose value is exactly the natural number `n` (meaningful when `n` is
representable, in particular for `n ≤ 2 ^ 53`). -/
def ofNatExact (n : Nat) : Double := finite false (n * one)

/-- Nearest whole number to `a / b`, ties to even. -/
def roundHalfEven (a b : Nat) : Nat :=
  let q := a / b
  let r := a % b
  if 2 * r < b then q
  else if b < 2 * r then q + 1
  else if q % 2 = 0 then q else q + 1

/-- Number of halvings that bring `q` below `2 ^ 53`: `0` for `q < 2 ^ 53`, and
`log2 q - 52` above.  The first argument bounds the recursion; `q` itself is enough. -/
def binade : Nat → Nat → Nat
  | 0, _ => 0
  | f + 1, q => if q < 2 ^ 53 then 0 else binade f (q / 2) + 1

/-- Round-to-nearest-even conversion of the non-negative rational `num / den` (`den > 0`)
to binary64.  With `x = num / den * 2 ^ 1074`, the representable magnitudes near `x` are
the multiples of `2 ^ k`, where `k = 0` below `2 ^ 53` units and `k = log2 x - 52` above;
a result of `2 ^ 1024` or more is the infinity (`HUGE_VAL`). -/
def round (neg : Bool) (num den : Nat) : Double :=
  let a := num * one
  let q := a / den
  let k := binade q q
  let r := roundHalfEven a (den * 2 ^ k) * 2 ^ k
  if r < overflow then finite neg r else inf neg

/-- The double nearest to the natural number `n`. -/
def ofNat (n : Nat) : Double := round false n 1

end Double

/-! ## `strtod` -/

/-- Value of a run of decimal digits. -/
def decimalValue (ds : List Nat) : Nat := ds.foldl (fun acc d => 10 * acc + (d - 48)) 0

/-- Value of one hexadecimal digit. -/
def xdigitValue (ch : Nat) : Nat :=
  if isdigit ch then ch - 48 else if 97 ≤ ch then ch - 87 else ch - 55

/-- Value of a run of hexadecimal digits. -/
def hexValue (ds : List Nat) : Nat := ds.foldl (fun acc d => 16 * acc + xdigitValue d) 0

/-- A run of digits with an optional radix character inside: the digits before the
radix character, the digits after it, the number of bytes taken and the rest.  `none`
when there is no digit at all. -/
def scanMantissa (digit : Nat → Bool) (xs : List Nat) :
    Option (List Nat × List Nat × Nat × List Nat) :=
  let ip := xs.takeWhile digit
  let r1 := xs.dropWhile digit
  if r1.head? = some 46 then
    let fp := r1.tail.takeWhile digit
    if ip = [] ∧ fp = [] then none
    else some (ip, fp, ip.length + 1 + fp.length, r1.tail.dropWhile digit)
  else if ip = [] then none
  else some (ip, [], ip.length, r1)

/-- An optional sign: whether it is `-`, and the number of bytes taken. -/
def scanSign (xs : List Nat) : Bool × Nat :=
  if xs.head? = some 45 then (true, 1)
  else if xs.head? = some 43 then (false, 1)
  else (false, 0)

/-- An optional exponent part: the marker (`e` or `p`, either case), an optional sign and
at least one decimal digit.  Gives the exponent and the number of bytes taken; `(0, 0)`
when no well-formed exponent part is there. -/
def scanExponent (marker : Nat) (xs : List Nat) : Int × Nat :=
  if xs.head?.map tolower = some marker then
    let sign := scanSign xs.tail
    let ds := (xs.tail.drop sign.2).takeWhile isdigit
    if ds = [] then (0, 0)
    else if sign.1 then (- (decimalValue ds : Int), 1 + sign.2 + ds.length)
    else ((decimalValue ds : Int), 1 + sign.2 + ds.length)
  else (0, 0)

/-- The double nearest to `m * base ^ e`. -/
def scaled (neg : Bool) (m base : Nat) (e : Int) : Double :=
  if 0 ≤ e then Double.round neg (m * base ^ e.toNat) 1
  else Double.round neg m (base ^ (-e).toNat)

/-- The forms `inf`, `infinity`, `nan` and `nan(n-char-sequence)`, letter case ignored. -/
def scanSpecial (neg : Bool) (xs : List Nat) : Option (Double × Nat) :=
  let low := xs.map tolower
  if low.take 3 = [105, 110, 102] then
    if (low.drop 3).take 5 = [105, 110, 105, 116, 121] then some (Double.inf neg, 8)
    else some (Double.inf neg, 3)
  else if low.take 3 = [110, 97, 110] then
    let r := xs.drop 4
    if (xs.drop 3).head? = some 40 ∧ (r.dropWhile isnchar).head? = some 41 then
      some (Double.nan, 3 + 1 + (r.takeWhile isnchar).length + 1)
    else some (Double.nan, 3)
  else none

/-- A hexadecimal number: `0x` or `0X` and a mantissa of hexadecimal digits, with an
optional binary exponent. -/
def scanHex (neg : Bool) (xs : List Nat) : Option (Double × Nat) :=
  if xs.head? = some 48 ∧ xs.tail.head?.map tolower = some 120 then
    match scanMantissa isxdigit (xs.drop 2) with
    | some (ip, fp, n, rest) =>
      let e := scanExponent 112 rest
      some (scaled neg (hexValue (ip ++ fp)) 2 (e.1 - 4 * (fp.length : Int)), 2 + n + e.2)
    | none => none
  else none

/-- A decimal number: a mantissa of decimal digits with an optional decimal exponent. -/
def scanDecimal (neg : Bool) (xs : List Nat) : Option (Double × Nat) :=
  match scanMantissa isdigit xs with
  | some (ip, fp, n, rest) =>
    let e := scanExponent 101 rest
    some (scaled neg (decimalValue (ip ++ fp)) 10 (e.1 - (fp.length : Int)), n + e.2)
  | none => none

/-- The subject sequence after white space and sign: a hexadecimal number, else a decimal
number, else a special form.  Gives the value and the number of bytes taken. -/
def scanNumber (neg : Bool) (xs : List Nat) : Option (Double × Nat) :=
  match scanHex neg xs with
  | some r => some r
  | none =>
    match scanDecimal neg xs with
    | some r => some r
    | none => scanSpecial neg xs

/-- C `strtod(nptr, &end_ptr)` in the "C" locale on the bytes `xs` that start at `nptr`
(the end of the list is the terminating NUL).  Gives the value and `end_ptr - nptr`; when
no conversion is done these are `0.0` and `0`. -/
def strtod (xs : List Nat) : Double × Nat :=
  let ws := (xs.takeWhile isspace).length
  let ys := xs.dropWhile isspace
  let sign := scanSign ys
  match scanNumber sign.1 (ys.drop sign.2) with
  | some (v, n) => (v, ws + sign.2 + n)
  | none => (Double.finite false 0, 0)

/-! ## `StringPiece` -/

/-- The member `operator==` of `StringPiece`: equal lengths and equal bytes. -/
def StringPiece.eq (a b : List Nat) : Bool :=
  if a.length ≠ b.length then false
  else (List.zip a b).all (fun ab => ab.1 == ab.2)

/-! ## `Value` -/

/-- A `Value`: the 32-bit field `value_`. -/
structure Value where
  value_ : Nat := 0
deriving DecidableEq, Repr

namespace Value

def STRING : Nat := 1

def NUMBER : Nat := 2

def BOOL : Nat := 3

def ARRAY : Nat := 4

def OBJECT : Nat := 5

/-- The member `type()`: the bits above the index. -/
def type (v : Value) : Nat := v.value_ >>> VALUE_INDEX_BITS

/-- The member `valid()`. -/
def valid (v : Value) : Bool := decide (0 < v.type)

/-- The member `index()`. -/
def index (v : Value) : Nat := v.value_ &&& VALUE_INDEX_MASK

/-- The private constructor `Value(type, index)`, in 32-bit arithmetic. -/
def make (type index : Nat) : Except Fault Value :=
  if index = index &&& VALUE_INDEX_MASK then
    .ok ⟨((type <<< VALUE_INDEX_BITS) ||| index) % 2 ^ 32⟩
  else .error .assertion

end Value

/-! ## `Arena` -/

/-- The class template `Arena<T>`: the deque `mem_`. -/
structure Arena (α : Type) where
  mem_ : List α := []
deriving DecidableEq, Repr

namespace Arena

/-- The member `Get`: `mem_.at(i)`. -/
def Get {α : Type} (a : Arena α) (i : Nat) : Except Fault α :=
  match a.mem_.get? i with
  | some v => .ok v
  | none => .error .outOfRange

/-- The member `Add`: the new index and the arena after `push_back`. -/
def Add {α : Type} (a : Arena α) (v : α) : Except Fault (Nat × Arena α) :=
  let index := a.mem_.length
  if index ≤ VALUE_INDEX_MASK then .ok (index, ⟨a.mem_ ++ [v]⟩)
  else .error .assertion

end Arena

/-! ## `Parser` -/

/-- The type `Parser::String`: `<offset, len>`. -/
abbrev StringSpan : Type := Nat × Nat

/-- The type `Parser::Array`. -/
abbrev ValueArray : Type := List Value

/-- The type `Parser::Object`; a `StringPiece` is represented by the bytes it points to. -/
abbrev Object : Type := List (List Nat × Value)

/-- The first argument of `PrintUnexpectedCh` at its five call sites. -/
inductive Expecting where
  /-- "Expecting ',' or ']' parsing array" -/
  | arraySeparator
  /-- "Expecting '"' parsing object key" -/
  | objectKey
  /-- "Expecting ':' parsing object" -/
  | objectColon
  /-- "Expecting ',' or '\x7d' parsing object" -/
  | objectSeparator
  /-- "Expecting digit parsing number" -/
  | digit
deriving DecidableEq, Repr

/-- One line written by `printf`. -/
inductive Diagnostic where
  /-- "Unexpected EOF!" -/
  | unexpectedEOF
  /-- "..., reached EOF!" -/
  | reachedEOF (what : Expecting)
  /-- "..., found 'ch' at line l, col c." -/
  | unexpectedCh (what : Expecting) (ch line col : Nat)
  /-- "Unexpected EOF parsing string!" -/
  | eofInString
  /-- "superfluous data(n bytes) in the end." -/
  | superfluous (n : Nat)
deriving DecidableEq, Repr

/-- The data members of `Parser` (without `fd_`, `mapped_` and `mapped_size_`, which only
`ParseFromFile` uses), and the lines printed so far. -/
structure Parser where
  unique_strs_ : List (List Nat) := []
  strs_ : Arena StringSpan := {}
  nums_ : Arena Double := {}
  arrays_ : Arena ValueArray := {}
  objects_ : Arena Object := {}
  /-- `none` is `nullptr` -/
  ptr_ : Option (List Nat) := none
  size_ : Nat := 0
  offset_ : Nat := 0
  line_ : Nat := 1
  col_ : Nat := 1
  printed : List Diagnostic := []
deriving DecidableEq, Repr

namespace Parser

/-- The byte `ptr_[i]`. -/
def byteAt (p : Parser) (i : Nat) : Nat := (p.ptr_.getD []).getD i 0

/-- The bytes from `ptr_ + i` up to the terminating NUL of the buffer. -/
def bytesFrom (p : Parser) (i : Nat) : List Nat := (p.ptr_.getD []).drop i

/-- A call of `printf`. -/
def print (p : Parser) (d : Diagnostic) : Parser := { p with printed := p.printed ++ [d] }

/-- The statements `offset_++; col_++;`. -/
def advance (p : Parser) : Parser := { p with offset_ := p.offset_ + 1, col_ := p.col_ + 1 }

/-- The loop of `NextNonSpaceChar`.  The first argument counts the bytes that are left,
`size_ - offset_`: when it is `0` the loop condition `offset_ < size_` is false. -/
def NextNonSpaceCharLoop : Nat → Parser → Nat × Parser
  | 0, p => (0, p)
  | n + 1, p =>
    if p.offset_ < p.size_ then
      let ch := p.byteAt p.offset_
      if isspace ch then
        if ch = 10 then
          NextNonSpaceCharLoop n { p with offset_ := p.offset_ + 1, line_ := p.line_ + 1, col_ := 1 }
        else
          NextNonSpaceCharLoop n { p with offset_ := p.offset_ + 1, col_ := p.col_ + 1 }
      else (ch, p)
    else (0, p)

def NextNonSpaceChar (p : Parser) : Nat × Parser :=
  NextNonSpaceCharLoop (p.size_ - p.offset_) p

def PrintUnexpectedCh (p : Parser) (ch : Nat) (pfx : Expecting) : Parser :=
  if ch = 0 then p.print (.reachedEOF pfx)
  else p.print (.unexpectedCh pfx ch p.line_ p.col_)

/-- The loop of `ParseString` from index `i` on; the first argument counts the bytes that
are left, `size_ - i`.  The index is an `int` in the source: reading `ptr_[i]` with
`i ≥ 2 ^ 31` (a negative `int`) and incrementing `i` beyond `2 ^ 31 - 1` are undefined. -/
def ParseStringLoop : Nat → Bool → Nat → Parser → Except Fault (StringSpan × Parser)
  | 0, _, _, p => .ok ((p.size_, 0), p.print .eofInString)
  | n + 1, escaping, i, p =>
    if i < p.size_ then
      if escaping then
        if i + 1 < INT_LIMIT then ParseStringLoop n false (i + 1) p else .error .undefined
      else if INT_LIMIT ≤ i then .error .undefined
      else if p.byteAt i = 92 then
        if i + 1 < INT_LIMIT then ParseStringLoop n true (i + 1) p else .error .undefined
      else if p.byteAt i = 34 then
        .ok ((p.offset_, i - p.offset_), { p with offset_ := i + 1 })
      else
        if i + 1 < INT_LIMIT then ParseStringLoop n false (i + 1) p else .error .undefined
    else .ok ((p.size_, 0), p.print .eofInString)

def ParseString (p : Parser) : Except Fault (StringSpan × Parser) :=
  ParseStringLoop (p.size_ - p.offset_) false p.offset_ p

def IsValidString (p : Parser) (str : StringSpan) : Bool := decide (str.1 < p.size_)

/-- The test `strncmp(ptr_ + offset_, lit, sizeof(lit) - 1) == 0` for a text `lit` without
NUL: the comparison stops at the first byte that differs. -/
def strncmpEq (p : Parser) : List Nat → Nat → Bool
  | [], _ => true
  | c :: cs, i => p.byteAt i == c && strncmpEq p cs (i + 1)

def ParseBoolOrNumber (p : Parser) : Except Fault (Value × Parser) :=
  if strncmpEq p TRUE_VALUE p.offset_ then
    (Value.make Value.BOOL 1).map (fun v => (v, p))
  else if strncmpEq p FALSE_VALUE p.offset_ then
    (Value.make Value.BOOL 0).map (fun v => (v, p))
  else
    let r := strtod (p.bytesFrom p.offset_)
    let num := r.1
    let end_ptr := p.offset_ + r.2
    -- `end_ptr == ptr_`: the end pointer is compared with the start of the buffer
    if end_ptr = 0 then
      .ok ({}, p.PrintUnexpectedCh (p.byteAt p.offset_) .digit)
    else
      let p := { p with offset_ := end_ptr }
      match p.nums_.Add num with
      | .error e => .error e
      | .ok (index, nums) =>
        (Value.make Value.NUMBER index).map (fun v => (v, { p with nums_ := nums }))

def AddString (p : Parser) (str : StringSpan) : Except Fault (Value × Parser) :=
  if !p.IsValidString str then .ok ({}, p)
  else
    match p.strs_.Add str with
    | .error e => .error e
    | .ok (index, strs) =>
      (Value.make Value.STRING index).map (fun v => (v, { p with strs_ := strs }))

/-- The loop of `AsString(String s)` over the bytes of the span, with the text decoded
so far.  The two assertions of the source are the two `assertion` results. -/
def AsStringLoop : Bool → List Nat → List Nat → Except Fault (List Nat)
  | escaping, [], str => if escaping then .error .assertion else .ok str
  | true, c :: cs, str =>
    AsStringLoop false cs
      (str ++ [if c = 116 then 9 else if c = 114 then 13 else if c = 110 then 10 else c])
  | false, c :: cs, str =>
    if c = 92 then AsStringLoop true cs str
    else if c = 34 then .error .assertion
    else AsStringLoop false cs (str ++ [c])

/-- The bytes `ptr[0 .. s.second)` with `ptr = ptr_ + s.first`. -/
def spanBytes (p : Parser) (s : StringSpan) : List Nat :=
  (List.range s.2).map (fun i => p.byteAt (s.1 + i))

/-- The private overload `AsString(String s)`.  The loop index is an `int` that is compared
with the unsigned `s.second`: for a span of `2 ^ 31` bytes or more the increment of the
index overflows, which is undefined. -/
def AsStringSpan (p : Parser) (s : StringSpan) : Except Fault (List Nat) :=
  if INT_LIMIT ≤ s.2 then .error .undefined
  else AsStringLoop false (p.spanBytes s) []

/-- The member `AsStringPiece`: the set `unique_strs_` gains the text unless it holds it
already; the result points to the bytes of the stored text. -/
def AsStringPiece (p : Parser) (str : List Nat) : List Nat × Parser :=
  if str ∈ p.unique_strs_ then (str, p)
  else (str, { p with unique_strs_ := str :: p.unique_strs_ })

/-- The `while (true)` loop of the case `'['` of `ParseValue`.  `pv` is the recursive call
of `ParseValue`; the first argument bounds the number of iterations. -/
def ArrayLoop (pv : Parser → Except Fault (Value × Parser)) :
    Nat → Parser → ValueArray → Except Fault (Value × Parser)
  | 0, _, _ => .error .fuel
  | n + 1, p, array =>
    match pv p with
    | .error e => .error e
    | .ok (value, p) =>
      if !value.valid then .ok (value, p)
      else
        let array := array ++ [value]
        let r := p.NextNonSpaceChar
        let next_ch := r.1
        let p := r.2
        if next_ch = 44 then ArrayLoop pv n p.advance array
        else if next_ch = 93 then
          let p := p.advance
          match p.arrays_.Add array with
          | .error e => .error e
          | .ok (index, arrays) =>
            (Value.make Value.ARRAY index).map (fun v => (v, { p with arrays_ := arrays }))
        else .ok ({}, p.PrintUnexpectedCh next_ch .arraySeparator)

/-- The `while (true)` loop of the case `'\x7b'` of `ParseValue`. -/
def ObjectLoop (pv : Parser → Except Fault (Value × Parser)) :
    Nat → Parser → Object → Except Fault (Value × Parser)
  | 0, _, _ => .error .fuel
  | n + 1, p, object =>
    -- Parse key.
    let r := p.NextNonSpaceChar
    let next_ch := r.1
    let p := r.2
    if next_ch ≠ 34 then .ok ({}, p.PrintUnexpectedCh next_ch .objectKey)
    else
      match p.advance.ParseString with
      | .error e => .error e
      | .ok (key, p) =>
        if !p.IsValidString key then .ok ({}, p)
        else
          -- Parse ':'.
          let r := p.NextNonSpaceChar
          let next_ch := r.1
          let p := r.2
          if next_ch ≠ 58 then .ok ({}, p.PrintUnexpectedCh next_ch .objectColon)
          else
            -- Parse value.
            match pv p.advance with
            | .error e => .error e
            | .ok (value, p) =>
              if !value.valid then .ok (value, p)
              else
                match p.AsStringSpan key with
                | .error e => .error e
                | .ok str =>
                  let r := p.AsStringPiece str
                  let object := object ++ [(r.1, value)]
                  let p := r.2
                  -- Next or end.
                  let r := p.NextNonSpaceChar
                  let next_ch := r.1
                  let p := r.2
                  if next_ch = 44 then ObjectLoop pv n p.advance object
                  else if next_ch = 125 then
                    let p := p.advance
                    match p.objects_.Add object with
                    | .error e => .error e
                    | .ok (index, objects) =>
                      (Value.make Value.OBJECT index).map
                        (fun v => (v, { p with objects_ := objects }))
                  else .ok ({}, p.PrintUnexpectedCh next_ch .objectSeparator)

/-- The member `ParseValue`.  The first argument bounds the nesting depth of the recursive
calls; each loop may run once more than there are bytes left. -/
def ParseValue : Nat → Parser → Except Fault (Value × Parser)
  | 0, _ => .error .fuel
  | n + 1, p =>
    let r := p.NextNonSpaceChar
    let ch := r.1
    let p := r.2
    if ch = 0 then .ok ({}, p.print .unexpectedEOF)
    else if ch = 91 then
      let p := p.advance
      ArrayLoop (ParseValue n) (p.size_ - p.offset_ + 1) p []
    else if ch = 123 then
      let p := p.advance
      ObjectLoop (ParseValue n) (p.size_ - p.offset_ + 1) p []
    else if ch = 34 then
      match p.advance.ParseString with
      | .error e => .error e
      | .ok (str, p) => p.AddString str
    else p.ParseBoolOrNumber

/-- The statements `ptr_ = ptr; size_ = size; offset_ = 0;` of `ParseFromArray`. -/
def setBuffer (p : Parser) (ptr : List Nat) (size : Nat) : Parser :=
  { p with ptr_ := some ptr, size_ := size, offset_ := 0 }

/-- The last `if` of `ParseFromArray`: the message about superfluous data. -/
def reportSuperfluous (p : Parser) (value : Value) : Parser :=
  if value.valid ∧ p.size_ > p.offset_ then p.print (.superfluous (p.size_ - p.offset_))
  else p

/-- The member `ParseFromArray` on the buffer `ptr[0 .. size)`.  The nesting depth of a
value is at most the number of bytes, which bounds the recursion of `ParseValue`. -/
def ParseFromArray (p : Parser) (ptr : List Nat) (size : Nat) : Except Fault (Value × Parser) :=
  if p.ptr_ ≠ none then .error .assertion
  else
    match ParseValue (size + 1) (p.setBuffer ptr size) with
    | .error e => .error e
    | .ok (value, p) => .ok (value, p.reportSuperfluous value)

/-- The member `ParseFromString`. -/
def ParseFromString (p : Parser) (str : List Nat) : Except Fault (Value × Parser) :=
  if str.length ≤ MAX_DATA_SIZE then p.ParseFromArray str str.length
  else .error .assertion

/-- The public overload `AsString(Value value)`. -/
def AsString (p : Parser) (value : Value) : Except Fault (List Nat) :=
  if value.type ≠ Value.STRING then .error .assertion
  else
    match p.strs_.Get value.index with
    | .error e => .error e
    | .ok s => p.AsStringSpan s

def AsNumber (p : Parser) (value : Value) : Except Fault Double :=
  if value.type ≠ Value.NUMBER then .error .assertion
  else p.nums_.Get value.index

def AsBool (value : Value) : Except Fault Bool :=
  if value.type ≠ Value.BOOL then .error .assertion
  else .ok (decide (value.index ≠ 0))

def ArraySize (p : Parser) (value : Value) : Except Fault Nat :=
  if value.type ≠ Value.ARRAY then .error .assertion
  else (p.arrays_.Get value.index).map (fun a => a.length)

def ArrayElem (p : Parser) (value : Value) (index : Nat) : Except Fault Value :=
  if value.type ≠ Value.ARRAY then .error .assertion
  else
    match p.arrays_.Get value.index with
    | .error e => .error e
    | .ok a =>
      match a.get? index with
      | some v => .ok v
      | none => .error .outOfRange

def ObjectSize (p : Parser) (value : Value) : Except Fault Nat :=
  if value.type ≠ Value.OBJECT then .error .assertion
  else (p.objects_.Get value.index).map (fun o => o.length)

/-- The loop of `ObjectProp` over the properties of the object. -/
def ObjectPropLoop (name : List Nat) : Object → Value
  | [] => {}
  | prop :: rest => if StringPiece.eq prop.1 name then prop.2 else ObjectPropLoop name rest

def ObjectProp (p : Parser) (value : Value) (name : List Nat) : Except Fault Value :=
  if value.type ≠ Value.OBJECT then .error .assertion
  else (p.objects_.Get value.index).map (fun obj => ObjectPropLoop name obj)

/-- The constructor `Parser()`. -/
def init : Parser := {}

end Parser

open Parser

/-! ## Notions used in the statements -/

/-- The handle with type tag `t` and index `i`, as a number. -/
def Value.pack (t i : Nat) : Value := ⟨t * 2 ^ 29 + i⟩

/-- The bytes after a decimal integer literal do not continue it: there is none, or the
first is not a digit, not `.`, not `e` or `E`, and not `x` or `X`. -/
def EndsNumber (rest : List Nat) : Prop :=
  ∀ c ∈ rest.head?, isdigit c = false ∧ c ≠ 46 ∧ tolower c ≠ 101 ∧ tolower c ≠ 120

/-- The number a run of decimal digits denotes. -/
def literalValue (ds : List Nat) : Nat := Nat.ofDigits 10 ((ds.map (· - 48)).reverse)

/-- The text `, a_1, a_2, ... ]` that follows the first element of an array. -/
def arrayTail : List (List Nat) → List Nat
  | [] => [93]
  | ds :: rest => 44 :: 32 :: (ds ++ arrayTail rest)

/-- The text `[a_0, a_1, ... ]` of an array of literals, with `, ` between the elements. -/
def arrayText : List (List Nat) → List Nat
  | [] => [91, 93]
  | ds :: rest => 91 :: (ds ++ arrayTail rest)

/-- The parser `p` reads the buffer `buf` (as `ParseFromString` sets it up) and `rest` are
the bytes from the cursor on. -/
structure At (p : Parser) (buf rest : List Nat) : Prop where
  ptr : p.ptr_ = some buf
  size : p.size_ = buf.length
  rest : buf.drop p.offset_ = rest

/-- The parser `q` is `p` after `k` more bytes were consumed and the given entries were
appended to the four arenas; the buffer is the same. -/
structure Step (p q : Parser) (k : Nat) (strs : List StringSpan) (nums : List Double)
    (arrays : List ValueArray) (objects : List Object) : Prop where
  ptr : q.ptr_ = p.ptr_
  size : q.size_ = p.size_
  offset : q.offset_ = p.offset_ + k
  strs : q.strs_.mem_ = p.strs_.mem_ ++ strs
  nums : q.nums_.mem_ = p.nums_.mem_ ++ nums
  arrays : q.arrays_.mem_ = p.arrays_.mem_ ++ arrays
  objects : q.objects_.mem_ = p.objects_.mem_ ++ objects

/-- The character an escape sequence stands for: `\t`, `\r` and `\n` are tab, CR and LF,
any other escaped byte is itself. -/
def escaped (c : Nat) : Nat :=
  if c = 116 then 9 else if c = 114 then 13 else if c = 110 then 10 else c

/-- The bytes between the quotes of a string literal: every backslash is followed by a
byte, and a quote only ever follows a backslash. -/
def wellEscaped : List Nat → Bool
  | [] => true
  | c :: rest =>
    if c = 92 then
      match rest with
      | [] => false
      | _ :: rest2 => wellEscaped rest2
    else if c = 34 then false
    else wellEscaped rest

/-- The text a well escaped string literal denotes: a backslash and the byte after it
give one character, every other byte is copied. -/
def unescape : List Nat → List Nat
  | [] => []
  | c :: rest =>
    if c = 92 then
      match rest with
      | [] => []
      | e :: rest2 => escaped e :: unescape rest2
    else c :: unescape rest

mutual
/-- A JSON text that the parser reads, with the white space before each token. -/
inductive Json where
  /-- white space, then a decimal integer literal -/
  | num (w ds : List Nat)
  /-- white space, then `"raw"` -/
  | str (w raw : List Nat)
  /-- white space, then `[` and the elements -/
  | arr (w : List Nat) (items : Items)
  /-- white space, then `\x7b` and the members -/
  | obj (w : List Nat) (members : Members)
/-- The elements of an array, each followed by white space and by `,` or `]`. -/
inductive Items where
  | last (j : Json) (w : List Nat)
  | cons (j : Json) (w : List Nat) (rest : Items)
/-- The members of an object: white space, `"key"`, white space, `:`, the value, white
space, and `,` or `\x7d`. -/
inductive Members where
  | last (w1 key w2 : List Nat) (j : Json) (w3 : List Nat)
  | cons (w1 key w2 : List Nat) (j : Json) (w3 : List Nat) (rest : Members)
end

mutual
/-- The bytes of a JSON text. -/
def Json.text : Json → List Nat
  | .num w ds => w ++ ds
  | .str w raw => w ++ 34 :: (raw ++ [34])
  | .arr w items => w ++ 91 :: items.text
  | .obj w members => w ++ 123 :: members.text
def Items.text : Items → List Nat
  | .last j w => j.text ++ (w ++ [93])
  | .cons j w rest => j.text ++ (w ++ 44 :: rest.text)
def Members.text : Members → List Nat
  | .last w1 key w2 j w3 => w1 ++ 34 :: (key ++ 34 :: (w2 ++ 58 :: (j.text ++ (w3 ++ [125]))))
  | .cons w1 key w2 j w3 rest =>
    w1 ++ 34 :: (key ++ 34 :: (w2 ++ 58 :: (j.text ++ (w3 ++ 44 :: rest.text))))
end

/-- White space only. -/
def blank (w : List Nat) : Bool := w.all isspace

mutual
/-- Well-formedness: white space is white space, a number is a non-empty run of digits,
strings and keys are well escaped. -/
def Json.wf : Json → Bool
  | .num w ds => blank w && !ds.isEmpty && ds.all isdigit
  | .str w raw => blank w && wellEscaped raw
  | .arr w items => blank w && items.wf
  | .obj w members => blank w && members.wf
def Items.wf : Items → Bool
  | .last j w => j.wf && blank w
  | .cons j w rest => j.wf && blank w && rest.wf
def Members.wf : Members → Bool
  | .last w1 key w2 j w3 => blank w1 && wellEscaped key && blank w2 && j.wf && blank w3
  | .cons w1 key w2 j w3 rest =>
    blank w1 && wellEscaped key && blank w2 && j.wf && blank w3 && rest.wf
end

mutual
/-- Nesting depth of arrays and objects. -/
def Json.depth : Json → Nat
  | .num _ _ => 0
  | .str _ _ => 0
  | .arr _ items => items.depth + 1
  | .obj _ members => members.depth + 1
def Items.depth : Items → Nat
  | .last j _ => j.depth
  | .cons j _ rest => max j.depth rest.depth
def Members.depth : Members → Nat
  | .last _ _ _ j _ => j.depth
  | .cons _ _ _ j _ rest => max j.depth rest.depth
end

/-- The elements of an array, in source order. -/
def Items.toList : Items → List Json
  | .last j _ => [j]
  | .cons j _ rest => j :: rest.toList

/-- The members of an object in source order: the key as written, and the value. -/
def Members.toList : Members → List (List Nat × Json)
  | .last _ key _ j _ => [(key, j)]
  | .cons _ key _ j _ rest => (key, j) :: rest.toList

mutual
/-- The handle `v` of the parser `p` stands for the JSON text: a number for a number
literal, with its value; a string with its decoded text; an array whose elements stand
for the elements in order; an object whose properties are the members in order, under
their decoded keys. -/
def Json.Holds (p : Parser) : Json → Value → Prop
  | .num _ ds, v => v.valid = true ∧ v.type = Value.NUMBER ∧
      p.AsNumber v = .ok (Double.ofNat (literalValue ds))
  | .str _ raw, v => v.valid = true ∧ v.type = Value.STRING ∧ p.AsString v = .ok (unescape raw)
  | .arr _ items, v => v.valid = true ∧ v.type = Value.ARRAY ∧
      ∃ vs, p.arrays_.Get v.index = .ok vs ∧ items.Holds p vs
  | .obj _ members, v => v.valid = true ∧ v.type = Value.OBJECT ∧
      ∃ kvs, p.objects_.Get v.index = .ok kvs ∧ members.Holds p kvs
def Items.Holds (p : Parser) : Items → ValueArray → Prop
  | .last j _, vs => ∃ v, vs = [v] ∧ j.Holds p v
  | .cons j _ rest, vs => ∃ v vs2, vs = v :: vs2 ∧ j.Holds p v ∧ rest.Holds p vs2
def Members.Holds (p : Parser) : Members → Object → Prop
  | .last _ key _ j _, kvs => ∃ v, kvs = [(unescape key, v)] ∧ j.Holds p v
  | .cons _ key _ j _ rest, kvs =>
    ∃ v kvs2, kvs = (unescape key, v) :: kvs2 ∧ j.Holds p v ∧ rest.Holds p kvs2
end

/-- The parser `q` is `p` after `k` more bytes were consumed and some entries were appended
to the arenas. -/
def Reaches (p q : Parser) (k : Nat) : Prop := ∃ s n a o, Step p q k s n a o

/-- No arena holds more entries than bytes were consumed. -/
structure Cap (p : Parser) : Prop where
  strs : p.strs_.mem_.length ≤ p.offset_
  nums : p.nums_.mem_.length ≤ p.offset_
  arrays : p.arrays_.mem_.length ≤ p.offset_
  objects : p.objects_.mem_.length ≤ p.offset_

/-- Whether the text is a number literal. -/
def Json.isNum : Json → Bool
  | .num _ _ => true
  | _ => false

/-- No quote and no backslash. -/
def plain (raw : List Nat) : Bool := raw.all (fun b => b != 34 && b != 92)

/-- The members of the object of the test `SimpleObject`. -/
def simpleMembers : Members :=
  .cons (ascii "\n    ") (ascii "n1") [32] (.str [32] (ascii "v1")) []
    (.cons (ascii "\n    ") (ascii "n2") [] (.str [32] (ascii "v2")) []
      (.last (ascii "\n    ") (ascii "n3") [32] (.str [] (ascii "v3")) [10]))

/-- The members of an object with the key `a` twice. -/
def duplicateMembers : Members :=
  .cons [] (ascii "a") [] (.num [] (ascii "1")) [] (.last [] (ascii "a") [] (.num [] (ascii "2")) [])

/-- The accessors on the root of a parse: `ObjectSize`, and `AsNumber` of the property
`name`. -/
def propNumber (r : Except Fault (Value × Parser)) (name : List Nat) :
    Except Fault Nat × Except Fault Double :=
  match r with
  | .ok (root, p) => (p.ObjectSize root, (p.ObjectProp root name).bind p.AsNumber)
  | .error e => (.error e, .error e)

/-- The accessors on the root of a parse: `ObjectSize`, and `AsString` of the property
`name`. -/
def propString (r : Except Fault (Value × Parser)) (name : List Nat) :
    Except Fault Nat × Except Fault (List Nat) :=
  match r with
  | .ok (root, p) => (p.ObjectSize root, (p.ObjectProp root name).bind p.AsString)
  | .error e => (.error e, .error e)

/-- A parse of the buffer `buf` under way: the cursor is not beyond the end and no arena
holds more entries than bytes were consumed. -/
structure Inv (buf : List Nat) (p : Parser) : Prop where
  ptr : p.ptr_ = some buf
  size : p.size_ = buf.length
  le : p.offset_ ≤ buf.length
  cap : Cap p

/-- The index of the quote that closes a string literal whose text starts here: the first
quote that no backslash escapes, if there is one. -/
def closing : List Nat → Option Nat
  | [] => none
  | c :: rest =>
    if c = 92 then
      match rest with
      | [] => none
      | _ :: rest2 => (closing rest2).map (· + 2)
    else if c = 34 then some 0
    else (closing rest).map (· + 1)

/-- The same parse under way on the buffer `s` (parser `p`) and on the buffer
`s ++ 32 :: t` (parser `p2`): same cursor, same arenas, and every string span stored so far
lies inside `s`. -/
structure Sim (s t : List Nat) (p p2 : Parser) : Prop where
  ptr : p.ptr_ = some s
  ptr2 : p2.ptr_ = some (s ++ 32 :: t)
  size : p.size_ = s.length
  size2 : p2.size_ = (s ++ 32 :: t).length
  offset : p2.offset_ = p.offset_
  strs : p2.strs_ = p.strs_
  nums : p2.nums_ = p.nums_
  arrays : p2.arrays_ = p.arrays_
  objects : p2.objects_ = p.objects_
  spans : ∀ sp ∈ p.strs_.mem_, sp.1 + sp.2 ≤ s.length

/-- The parser after `ParseFromString` of the text `123`. -/
def parsed123 : Parser :=
  { nums_ := ⟨[Double.ofNatExact 123]⟩, ptr_ := some (ascii "123"), size_ := 3, offset_ := 3 }

/-- A parser on the source text `a\tb\n\"c\\d` (twelve bytes). -/
def escapedSample : Parser :=
  { ptr_ := some (ascii "a\\tb\\n\\\"c\\\\d"), size_ := 12 }

/-- A parser behind the opening quote of the text `"a\"b"` (six bytes). -/
def stringSample : Parser :=
  { ptr_ := some (ascii "\"a\\\"b\""), size_ := 6, offset_ := 1 }

/-- A handle that the arenas of `p` can serve: its type tag is one of the five types and,
unless it is a `BOOL`, its index is below the number of entries of the arena of its
type. -/
def Value.Ok (v : Value) (p : Parser) : Prop :=
  1 ≤ v.type ∧ v.type ≤ 5 ∧
  (v.type = Value.STRING → v.index < p.strs_.mem_.length) ∧
  (v.type = Value.NUMBER → v.index < p.nums_.mem_.length) ∧
  (v.type = Value.ARRAY → v.index < p.arrays_.mem_.length) ∧
  (v.type = Value.OBJECT → v.index < p.objects_.mem_.length)

/-- The arenas are well formed: every stored string span can be decoded; every stored array
and object is not empty, each of its values is a handle the arenas can serve, and a value
that is an array inside an array, or an object inside an object, has a smaller index than
its parent. -/
structure Good (p : Parser) : Prop where
  strs : ∀ sp ∈ p.strs_.mem_, wellEscaped (p.spanBytes sp) = true ∧ sp.2 < INT_LIMIT
  arrays : ∀ (k : Nat) (arr : ValueArray), p.arrays_.mem_[k]? = some arr →
    arr ≠ [] ∧ ∀ v ∈ arr, v.Ok p ∧ (v.type = Value.ARRAY → v.index < k)
  objects : ∀ (k : Nat) (obj : Object), p.objects_.mem_[k]? = some obj →
    obj ≠ [] ∧ ∀ kv ∈ obj, kv.2.Ok p ∧ (kv.2.type = Value.OBJECT → kv.2.index < k)

/-- The cursor of `p` is in the buffer `buf`, whose length is `size_`. -/
structure InBuf (buf : List Nat) (p : Parser) : Prop where
  ptr : p.ptr_ = some buf
  size : p.size_ = buf.length
  le : p.offset_ ≤ buf.length

/-- What a call that starts in the state `p` may end with: a value and a state with the
same buffer, a cursor that is not before that of `p` and not beyond `size_`, arenas that
hold those of `p` and more, well formed if those of `p` are, and, when the value is valid,
a value that the arenas can serve; or a fault other than the exhaustion of a recursion
bound of the embedding. -/
def Outcome (p : Parser) (r : Except Fault (Value × Parser)) : Prop :=
  match r with
  | .ok (v, q) =>
    (∃ k, Reaches p q k) ∧ q.offset_ ≤ q.size_ ∧ (v.valid = true → v.Ok q) ∧ (Good p → Good q)
  | .error e => e ≠ Fault.fuel

/-- The parser after `ParseFromString` of the text `[7, 8]`. -/
def parsed78 : Parser :=
  { nums_ := ⟨[Double.ofNatExact 7, Double.ofNatExact 8]⟩,
    arrays_ := ⟨[[Value.pack Value.NUMBER 0, Value.pack Value.NUMBER 1]]⟩,
    ptr_ := some (ascii "[7, 8]"), size_ := 6, offset_ := 6, col_ := 5 }

/-! # Properties -/

/-! ## The cursor -/

theorem NextNonSpaceCharLoop_frame (n : Nat) (p : Parser) :
    (NextNonSpaceCharLoop n p).2 =
      { p with offset_ := (NextNonSpaceCharLoop n p).2.offset_,
               line_ := (NextNonSpaceCharLoop n p).2.line_,
               col_ := (NextNonSpaceCharLoop n p).2.col_ } := by
  induction n generalizing p with
  | zero => rfl
  | succ n ih =>
    simp only [NextNonSpaceCharLoop]
    split_ifs with h1 h2 h3
    · conv_lhs => rw [ih]
    · conv_lhs => rw [ih]
    · rfl
    · rfl

theorem NextNonSpaceCharLoop_offset (n : Nat) (p : Parser) :
    p.offset_ ≤ (NextNonSpaceCharLoop n p).2.offset_ ∧
    (p.offset_ ≤ p.size_ → (NextNonSpaceCharLoop n p).2.offset_ ≤ p.size_) ∧
    (∀ i, p.offset_ ≤ i → i < (NextNonSpaceCharLoop n p).2.offset_ →
      isspace (p.byteAt i) = true) := by
  induction n generalizing p with
  | zero => simp [NextNonSpaceCharLoop]; intro i h1 h2; omega
  | succ n ih =>
    simp only [NextNonSpaceCharLoop]
    split_ifs with h1 h2 h3
    · obtain ⟨a, b, c⟩ := ih { p with offset_ := p.offset_ + 1, line_ := p.line_ + 1, col_ := 1 }
      simp only at a b c
      refine ⟨by omega, fun _ => b (by omega), fun i hi hi2 => ?_⟩
      by_cases hip : i = p.offset_
      · subst hip; exact h2
      · exact c i (by omega) hi2
    · obtain ⟨a, b, c⟩ := ih { p with offset_ := p.offset_ + 1, col_ := p.col_ + 1 }
      simp only at a b c
      refine ⟨by omega, fun _ => b (by omega), fun i hi hi2 => ?_⟩
      by_cases hip : i = p.offset_
      · subst hip; exact h2
      · exact c i (by omega) hi2
    · simp; intro i h1 h2; omega
    · simp; intro i h1 h2; omega

theorem NextNonSpaceCharLoop_char (n : Nat) (p : Parser) (hn : p.size_ - p.offset_ ≤ n) :
    ((NextNonSpaceCharLoop n p).2.offset_ < p.size_ ∧
      (NextNonSpaceCharLoop n p).1 = p.byteAt (NextNonSpaceCharLoop n p).2.offset_ ∧
      isspace (NextNonSpaceCharLoop n p).1 = false) ∨
    (p.size_ ≤ (NextNonSpaceCharLoop n p).2.offset_ ∧ (NextNonSpaceCharLoop n p).1 = 0) := by
  induction n generalizing p with
  | zero => right; simp [NextNonSpaceCharLoop]; omega
  | succ n ih =>
    simp only [NextNonSpaceCharLoop]
    split_ifs with h1 h2 h3
    · exact ih { p with offset_ := p.offset_ + 1, line_ := p.line_ + 1, col_ := 1 }
        (by simp; omega)
    · exact ih { p with offset_ := p.offset_ + 1, col_ := p.col_ + 1 } (by simp; omega)
    · left; simp [h1, h2]
    · right; simp; omega

/-- `NextNonSpaceChar` moves the cursor over white space only, changes nothing but
`offset_`, `line_` and `col_`, and returns the byte under the cursor, or `0` at the end of
the input. -/
theorem NextNonSpaceChar_spec (p : Parser) :
    ∃ o l c, p.NextNonSpaceChar.2 = { p with offset_ := o, line_ := l, col_ := c } ∧
      p.offset_ ≤ o ∧ (p.offset_ ≤ p.size_ → o ≤ p.size_) ∧
      (∀ i, p.offset_ ≤ i → i < o → isspace (p.byteAt i) = true) ∧
      ((o < p.size_ ∧ p.NextNonSpaceChar.1 = p.byteAt o ∧ isspace p.NextNonSpaceChar.1 = false)
        ∨ (p.size_ ≤ o ∧ p.NextNonSpaceChar.1 = 0)) := by
  obtain ⟨a, b, c⟩ := NextNonSpaceCharLoop_offset (p.size_ - p.offset_) p
  exact ⟨_, _, _, NextNonSpaceCharLoop_frame _ p, a, b, c,
    NextNonSpaceCharLoop_char _ p (Nat.le_refl _)⟩

/-! ## Literals `true` and `false` -/

/-- C5: `ParseFromString("true")` and `ParseFromString("false")` return a valid `BOOL` value
with `AsBool` equal to `true` and to `false`, and the four arenas stay empty. -/
theorem C5_bool_literals :
    (∃ v p, init.ParseFromString (ascii "true") = .ok (v, p) ∧ v.valid = true ∧
      v.type = Value.BOOL ∧ AsBool v = .ok true ∧ p.strs_.mem_ = [] ∧ p.nums_.mem_ = [] ∧
      p.arrays_.mem_ = [] ∧ p.objects_.mem_ = []) ∧
    (∃ v p, init.ParseFromString (ascii "false") = .ok (v, p) ∧ v.valid = true ∧
      v.type = Value.BOOL ∧ AsBool v = .ok false ∧ p.strs_.mem_ = [] ∧ p.nums_.mem_ = [] ∧
      p.arrays_.mem_ = [] ∧ p.objects_.mem_ = []) :=
  ⟨⟨_, _, rfl, by decide, by decide, by decide, by decide, by decide, by decide, by decide⟩,
   ⟨_, _, rfl, by decide, by decide, by decide, by decide, by decide, by decide, by decide⟩⟩

/-- C6 (the code differs): on `[true]` and on `[true,false]` the parser returns the invalid
value and stores no array.  `ParseBoolOrNumber` returns the `BOOL` value without moving
`offset_`, so the array loop finds the `t` of the literal where it expects `,` or `]`. -/
theorem C6_array_of_bool_is_rejected :
    (∃ p, init.ParseFromString (ascii "[true]") = .ok (⟨0⟩, p) ∧ p.arrays_.mem_ = [] ∧
      p.offset_ = 1 ∧
      p.printed = [.unexpectedCh .arraySeparator 116 1 2]) ∧
    (∃ p, init.ParseFromString (ascii "[true,false]") = .ok (⟨0⟩, p) ∧ p.arrays_.mem_ = [] ∧
      p.offset_ = 1) :=
  ⟨⟨_, rfl, by decide, by decide, by decide⟩, ⟨_, rfl, by decide, by decide⟩⟩

/-- C7 (the code differs): where no number starts at an offset other than `0`, the parser
returns a valid `NUMBER` and stores `0.0` in the number arena: `" tru"` and `" x"` give the
number `0.0`, `"[]"` gives an array of one number and `"[1,]"` an array of two.  The test
`end_ptr == ptr_` compares with the start of the buffer, not with `ptr_ + offset_`; only
at offset `0` (`"tru"`) is the failure seen. -/
theorem C7_failed_number_is_accepted :
    (init.ParseFromString (ascii " tru")).map
        (fun r => (r.1.valid, r.1.type, r.2.nums_.mem_, r.2.offset_))
      = .ok (true, Value.NUMBER, [Double.finite false 0], 1) ∧
    (init.ParseFromString (ascii " x")).map
        (fun r => (r.1.valid, r.1.type, r.2.nums_.mem_, r.2.offset_))
      = .ok (true, Value.NUMBER, [Double.finite false 0], 1) ∧
    (init.ParseFromString (ascii "[]")).map
        (fun r => (r.1.valid, r.1.type, r.2.nums_.mem_, r.2.arrays_.mem_.map List.length))
      = .ok (true, Value.ARRAY, [Double.finite false 0], [1]) ∧
    (init.ParseFromString (ascii "[1,]")).map
        (fun r => (r.1.valid, r.1.type, r.2.nums_.mem_, r.2.arrays_.mem_.map List.length))
      = .ok (true, Value.ARRAY, [Double.ofNatExact 1, Double.finite false 0], [2]) ∧
    (init.ParseFromString (ascii "tru")).map (fun r => (r.1.valid, r.2.nums_.mem_))
      = .ok (false, []) := by
  refine ⟨by decide!, by decide!, by decide!, by decide!, by decide!⟩

/-- `reportSuperfluous` only prints. -/
theorem reportSuperfluous_frame (p : Parser) (v : Value) :
    ∃ l, p.reportSuperfluous v = { p with printed := l } := by
  unfold reportSuperfluous print
  split_ifs
  · exact ⟨_, rfl⟩
  · exact ⟨_, rfl⟩

/-- `PrintUnexpectedCh` only prints. -/
theorem PrintUnexpectedCh_frame (p : Parser) (ch : Nat) (e : Expecting) :
    ∃ l, p.PrintUnexpectedCh ch e = { p with printed := l } := by
  unfold PrintUnexpectedCh print
  split_ifs
  · exact ⟨_, rfl⟩
  · exact ⟨_, rfl⟩

/-! ## Empty input -/

theorem ParseValue_eof (n : Nat) (p : Parser) (h : p.NextNonSpaceChar.1 = 0) :
    ParseValue (n + 1) p = .ok (⟨0⟩, p.NextNonSpaceChar.2.print .unexpectedEOF) := by
  simp [ParseValue, h]

/-- C9: for an input that is empty or holds only space, tab, CR and LF bytes,
`ParseFromString` returns the invalid value and the four arenas stay empty. -/
theorem C9_blank_input_is_invalid (str : List Nat)
    (hblank : ∀ b ∈ str, b = 32 ∨ b = 9 ∨ b = 13 ∨ b = 10)
    (hsize : str.length ≤ MAX_DATA_SIZE) :
    ∃ p, init.ParseFromString str = .ok (⟨0⟩, p) ∧ (⟨0⟩ : Value).valid = false ∧
      p.strs_.mem_ = [] ∧ p.nums_.mem_ = [] ∧ p.arrays_.mem_ = [] ∧ p.objects_.mem_ = [] := by
  have hsp : ∀ i, isspace (str.getD i 0) = true ∨ str.length ≤ i := by
    intro i
    by_cases hi : i < str.length
    · left
      have hm : str[i] ∈ str := List.getElem_mem hi
      rw [List.getD_eq_getElem _ _ hi]
      rcases hblank _ hm with h | h | h | h <;> rw [h] <;> decide
    · right; omega
  obtain ⟨o, l, c, hfr, -, -, -, hch⟩ := NextNonSpaceChar_spec (init.setBuffer str str.length)
  have hzero : (NextNonSpaceChar (init.setBuffer str str.length)).1 = 0 := by
    rcases hch with ⟨h1, h2, h3⟩ | ⟨-, h⟩
    · exfalso
      have hb : (init.setBuffer str str.length).byteAt o = str.getD o 0 := rfl
      rcases hsp o with h | h
      · rw [h2, hb, h] at h3
        exact Bool.noConfusion h3
      · have hs : (init.setBuffer str str.length).size_ = str.length := rfl
        omega
    · exact h
  have hres : init.ParseFromString str = .ok (⟨0⟩,
      ((init.setBuffer str str.length).NextNonSpaceChar.2.print .unexpectedEOF).reportSuperfluous
        ⟨0⟩) := by
    simp only [ParseFromString, hsize, if_true, ParseFromArray]
    rw [ParseValue_eof _ _ hzero]
    simp only [init, ne_eq, not_true_eq_false, if_false]
  refine ⟨_, hres, by decide, ?_⟩
  obtain ⟨l2, hl⟩ := reportSuperfluous_frame
    ((init.setBuffer str str.length).NextNonSpaceChar.2.print .unexpectedEOF) ⟨0⟩
  rw [hl, hfr]
  simp [print, setBuffer, init]

theorem C9_blank_input_is_invalid_witness :
    (∀ b ∈ ascii " \t\r\n ", b = 32 ∨ b = 9 ∨ b = 13 ∨ b = 10) ∧
    (ascii " \t\r\n ").length ≤ MAX_DATA_SIZE ∧
    ∃ p, init.ParseFromString (ascii " \t\r\n ") = .ok (⟨0⟩, p) ∧ (⟨0⟩ : Value).valid = false ∧
      p.strs_.mem_ = [] ∧ p.nums_.mem_ = [] ∧ p.arrays_.mem_ = [] ∧ p.objects_.mem_ = [] :=
  ⟨by decide, by decide, C9_blank_input_is_invalid (ascii " \t\r\n ") (by decide) (by decide)⟩

/-! ## Handles -/

theorem VALUE_INDEX_MASK_eq : VALUE_INDEX_MASK = 2 ^ 29 - 1 := by decide

theorem Value.make_ok (t i : Nat) (ht : t < 8) (hi : i ≤ VALUE_INDEX_MASK) :
    Value.make t i = .ok (Value.pack t i) := by
  have hi2 : i < 2 ^ 29 := by rw [VALUE_INDEX_MASK_eq] at hi; omega
  have hlt : t * 2 ^ 29 + i < 2 ^ 32 := by omega
  unfold Value.make Value.pack
  rw [VALUE_INDEX_MASK_eq, Nat.and_pow_two_sub_one_eq_mod, Nat.mod_eq_of_lt hi2, if_pos rfl]
  simp only [VALUE_INDEX_BITS, Nat.shiftLeft_eq]
  rw [Nat.mul_comm t, ← Nat.mul_add_lt_is_or hi2, Nat.mod_eq_of_lt (by omega)]

theorem Value.type_pack (t i : Nat) (hi : i ≤ VALUE_INDEX_MASK) : (Value.pack t i).type = t := by
  have hi2 : i < 2 ^ 29 := by rw [VALUE_INDEX_MASK_eq] at hi; omega
  simp only [Value.type, Value.pack, VALUE_INDEX_BITS, Nat.shiftRight_eq_div_pow]
  omega

theorem Value.index_pack (t i : Nat) (hi : i ≤ VALUE_INDEX_MASK) :
    (Value.pack t i).index = i := by
  have hi2 : i < 2 ^ 29 := by rw [VALUE_INDEX_MASK_eq] at hi; omega
  simp only [Value.index, Value.pack, VALUE_INDEX_MASK_eq, Nat.and_pow_two_sub_one_eq_mod]
  omega

theorem Value.valid_pack (t i : Nat) (ht : 0 < t) (hi : i ≤ VALUE_INDEX_MASK) :
    (Value.pack t i).valid = true := by
  simp [Value.valid, Value.type_pack t i hi, ht]

/-! ## Reading the buffer -/

theorem drop_cons_getD {buf : List Nat} {i x : Nat} {xs : List Nat} (h : buf.drop i = x :: xs) :
    buf.getD i 0 = x ∧ i < buf.length ∧ buf.drop (i + 1) = xs := by
  have hlt : i < buf.length := by
    by_contra hc
    rw [List.drop_eq_nil_of_le (by omega)] at h
    exact List.noConfusion h
  rw [List.drop_eq_getElem_cons hlt] at h
  injection h with h1 h2
  exact ⟨by rw [List.getD_eq_getElem _ _ hlt, h1], hlt, h2⟩

theorem byteAt_eq {p : Parser} {buf : List Nat} (hptr : p.ptr_ = some buf) (i : Nat) :
    p.byteAt i = buf.getD i 0 := by
  unfold byteAt
  rw [hptr]
  rfl

theorem bytesFrom_eq {p : Parser} {buf : List Nat} (hptr : p.ptr_ = some buf) (i : Nat) :
    p.bytesFrom i = buf.drop i := by
  unfold bytesFrom
  rw [hptr]
  rfl

/-- White space before a byte that is not white space: `NextNonSpaceChar` stops at that
byte and returns it. -/
theorem NextNonSpaceCharLoop_skip (buf ws : List Nat) (c : Nat) (r : List Nat)
    (hws : ∀ w ∈ ws, isspace w = true) (hc : isspace c = false) (n : Nat) (p : Parser)
    (hptr : p.ptr_ = some buf) (hsz : p.size_ = buf.length)
    (hrest : buf.drop p.offset_ = ws ++ c :: r) (hn : ws.length < n) :
    ∃ l k, NextNonSpaceCharLoop n p =
      (c, { p with offset_ := p.offset_ + ws.length, line_ := l, col_ := k }) := by
  induction ws generalizing n p with
  | nil =>
    obtain ⟨h1, h2, -⟩ := drop_cons_getD hrest
    have hb : p.byteAt p.offset_ = c := by rw [byteAt_eq hptr, h1]
    have hlt : p.offset_ < p.size_ := by rw [hsz]; exact h2
    cases n with
    | zero => simp at hn
    | succ n =>
      simp only [NextNonSpaceCharLoop, hb, hlt, if_true, hc]
      exact ⟨p.line_, p.col_, rfl⟩
  | cons w ws ih =>
    obtain ⟨h1, h2, h3⟩ := drop_cons_getD hrest
    have hw : isspace w = true := hws w (by simp)
    have hb : p.byteAt p.offset_ = w := by rw [byteAt_eq hptr, h1]
    have hlt : p.offset_ < p.size_ := by rw [hsz]; exact h2
    cases n with
    | zero => simp at hn
    | succ n =>
      simp only [NextNonSpaceCharLoop, hb, hlt, if_true, hw]
      split_ifs with h10
      · obtain ⟨l, k, h⟩ := ih (fun x hx => hws x (by simp [hx])) n
          { p with offset_ := p.offset_ + 1, line_ := p.line_ + 1, col_ := 1 } hptr hsz h3
          (by simpa using hn)
        rw [h]
        exact ⟨l, k, by simp [Nat.add_assoc, Nat.add_comm 1]⟩
      · obtain ⟨l, k, h⟩ := ih (fun x hx => hws x (by simp [hx])) n
          { p with offset_ := p.offset_ + 1, col_ := p.col_ + 1 } hptr hsz h3
          (by simpa using hn)
        rw [h]
        exact ⟨l, k, by simp [Nat.add_assoc, Nat.add_comm 1]⟩

theorem NextNonSpaceChar_skip (buf ws : List Nat) (c : Nat) (r : List Nat)
    (hws : ∀ w ∈ ws, isspace w = true) (hc : isspace c = false) (p : Parser)
    (hptr : p.ptr_ = some buf) (hsz : p.size_ = buf.length)
    (hrest : buf.drop p.offset_ = ws ++ c :: r) :
    ∃ l k, p.NextNonSpaceChar =
      (c, { p with offset_ := p.offset_ + ws.length, line_ := l, col_ := k }) := by
  apply NextNonSpaceCharLoop_skip buf ws c r hws hc _ p hptr hsz hrest
  have : (buf.drop p.offset_).length = (ws ++ c :: r).length := by rw [hrest]
  simp at this
  omega

/-! ## Numbers -/

theorem binade_le (f q j : Nat) (h : q < 2 ^ (53 + j)) : Double.binade f q ≤ j := by
  induction f generalizing q j with
  | zero => simp [Double.binade]
  | succ f ih =>
    simp only [Double.binade]
    split_ifs with h1
    · omega
    · cases j with
      | zero => exact absurd h h1
      | succ j =>
        have : q / 2 < 2 ^ (53 + j) := by
          rw [Nat.div_lt_iff_lt_mul (by norm_num)]
          calc q < 2 ^ (53 + (j + 1)) := h
            _ = 2 ^ (53 + j) * 2 := by rw [← Nat.add_assoc, Nat.pow_succ]
        have := ih (q / 2) j this
        omega

theorem roundHalfEven_mul (m b : Nat) (hb : 0 < b) : Double.roundHalfEven (m * b) b = m := by
  unfold Double.roundHalfEven
  simp [Nat.mul_mod_left, Nat.mul_div_cancel _ hb, hb]

/-- Rounding a whole number below `2 ^ 53`, with the exponents of `Double.one` and
`Double.overflow` as variables. -/
theorem round_exact_aux (e o n : Nat) (heo : 53 + e ≤ o) (h : n < 2 ^ 53) :
    (if Double.roundHalfEven (n * 2 ^ e) (2 ^ Double.binade (n * 2 ^ e) (n * 2 ^ e)) *
        2 ^ Double.binade (n * 2 ^ e) (n * 2 ^ e) < 2 ^ o
      then Double.finite false (Double.roundHalfEven (n * 2 ^ e)
        (2 ^ Double.binade (n * 2 ^ e) (n * 2 ^ e)) * 2 ^ Double.binade (n * 2 ^ e) (n * 2 ^ e))
      else Double.inf false) = Double.finite false (n * 2 ^ e) := by
  have hlt : n * 2 ^ e < 2 ^ (53 + e) := by
    rw [Nat.pow_add]
    exact Nat.mul_lt_mul_of_pos_right h (Nat.two_pow_pos e)
  have hk : Double.binade (n * 2 ^ e) (n * 2 ^ e) ≤ e := binade_le _ _ _ hlt
  generalize Double.binade (n * 2 ^ e) (n * 2 ^ e) = k at hk
  have hsplit : n * 2 ^ e = n * 2 ^ (e - k) * 2 ^ k := by
    rw [Nat.mul_assoc, ← Nat.pow_add]
    congr 2
    omega
  have hr : Double.roundHalfEven (n * 2 ^ e) (2 ^ k) * 2 ^ k = n * 2 ^ e := by
    conv_lhs => rw [hsplit, roundHalfEven_mul _ _ (Nat.two_pow_pos k)]
    exact hsplit.symm
  rw [hr]
  have hov : n * 2 ^ e < 2 ^ o :=
    lt_of_lt_of_le hlt (Nat.pow_le_pow_right (by norm_num) heo)
  rw [if_pos hov]

/-- A natural number below `2 ^ 53` is a binary64 number: rounding does not change it. -/
theorem Double.ofNat_exact (n : Nat) (h : n < 2 ^ 53) : Double.ofNat n = Double.ofNatExact n := by
  unfold Double.ofNat Double.round Double.ofNatExact Double.one Double.overflow
  simp only [Nat.div_one, Nat.one_mul]
  exact round_exact_aux 1074 2098 n (by norm_num) h

theorem takeWhile_append_stop (q : Nat → Bool) (ds rest : List Nat)
    (hall : ∀ d ∈ ds, q d = true) (hstop : ∀ c ∈ rest.head?, q c = false) :
    (ds ++ rest).takeWhile q = ds ∧ (ds ++ rest).dropWhile q = rest := by
  induction ds with
  | nil =>
    cases rest with
    | nil => simp
    | cons c r =>
      have : q c = false := hstop c (by simp)
      simp [List.takeWhile, List.dropWhile, this]
  | cons d ds ih =>
    have hd : q d = true := hall d (by simp)
    have := ih (fun x hx => hall x (by simp [hx]))
    simp [List.takeWhile, List.dropWhile, hd, this]

theorem scanExponent_none (marker : Nat) (rest : List Nat)
    (h : ∀ c ∈ rest.head?, tolower c ≠ marker) : scanExponent marker rest = (0, 0) := by
  unfold scanExponent
  rw [if_neg]
  cases rest with
  | nil => simp
  | cons c r => simpa using h c (by simp)

theorem scanMantissa_digits (ds rest : List Nat) (hne : ds ≠ [])
    (hall : ∀ d ∈ ds, isdigit d = true)
    (hstop : ∀ c ∈ rest.head?, isdigit c = false ∧ c ≠ 46) :
    scanMantissa isdigit (ds ++ rest) = some (ds, [], ds.length, rest) := by
  obtain ⟨h1, h2⟩ := takeWhile_append_stop isdigit ds rest hall (fun c hc => (hstop c hc).1)
  unfold scanMantissa
  rw [h1, h2]
  have : ¬ rest.head? = some 46 := by
    intro h
    exact (hstop 46 (by simp [h])).2 rfl
  simp [this, hne]

theorem isdigit_bounds {d : Nat} (h : isdigit d = true) : 48 ≤ d ∧ d ≤ 57 := by
  simpa [isdigit] using h

theorem scanHex_digits (neg : Bool) (ds rest : List Nat) (hne : ds ≠ [])
    (hall : ∀ d ∈ ds, isdigit d = true) (hstop : ∀ c ∈ rest.head?, tolower c ≠ 120) :
    scanHex neg (ds ++ rest) = none := by
  unfold scanHex
  rw [if_neg]
  rintro ⟨-, h2⟩
  have hd : ∀ d, isdigit d = true → tolower d ≠ 120 := by
    intro d h
    have := isdigit_bounds h
    unfold tolower
    split_ifs <;> omega
  match ds, hne, hall with
  | [d], _, _ =>
    cases rest with
    | nil => simp at h2
    | cons c r =>
      simp at h2
      exact hstop c (by simp) h2
  | d :: d2 :: ds, _, hall =>
    simp at h2
    exact hd d2 (hall d2 (by simp)) h2

theorem scanSign_digit (ds rest : List Nat) (hne : ds ≠ [])
    (hall : ∀ d ∈ ds, isdigit d = true) : scanSign (ds ++ rest) = (false, 0) := by
  match ds, hne, hall with
  | d :: ds, _, hall =>
    have := isdigit_bounds (hall d (by simp))
    unfold scanSign
    rw [if_neg, if_neg] <;> simp <;> omega

theorem isspace_digit {d : Nat} (h : isdigit d = true) : isspace d = false := by
  have := isdigit_bounds h
  simp [isspace]
  omega

/-- `strtod` on a decimal integer literal followed by bytes that do not continue it:
the literal is taken whole and its value is rounded to nearest. -/
theorem strtod_digits (ds rest : List Nat) (hne : ds ≠ [])
    (hall : ∀ d ∈ ds, isdigit d = true) (hstop : EndsNumber rest) :
    strtod (ds ++ rest) = (Double.ofNat (decimalValue ds), ds.length) := by
  have hws : (ds ++ rest).takeWhile isspace = [] ∧ (ds ++ rest).dropWhile isspace = ds ++ rest := by
    match ds, hne, hall with
    | d :: ds, _, hall =>
      have := isspace_digit (hall d (by simp))
      simp [List.takeWhile, List.dropWhile, this]
  unfold strtod
  simp only [hws.1, hws.2, scanSign_digit ds rest hne hall, List.drop_zero, List.length_nil]
  unfold scanNumber
  rw [scanHex_digits false ds rest hne hall (fun c hc => (hstop c hc).2.2.2)]
  unfold scanDecimal
  rw [scanMantissa_digits ds rest hne hall (fun c hc => ⟨(hstop c hc).1, (hstop c hc).2.1⟩)]
  simp only [scanExponent_none 101 rest (fun c hc => (hstop c hc).2.2.1)]
  simp [scaled, Double.ofNat]

/-! ## Fields left unchanged by the printing helpers -/

@[simp] theorem print_unique_strs_ (p : Parser) (d : Diagnostic) :
    (p.print d).unique_strs_ = p.unique_strs_ := by
  rfl

@[simp] theorem print_strs_ (p : Parser) (d : Diagnostic) :
    (p.print d).strs_ = p.strs_ := by
  rfl

@[simp] theorem print_nums_ (p : Parser) (d : Diagnostic) :
    (p.print d).nums_ = p.nums_ := by
  rfl

@[simp] theorem print_arrays_ (p : Parser) (d : Diagnostic) :
    (p.print d).arrays_ = p.arrays_ := by
  rfl

@[simp] theorem print_objects_ (p : Parser) (d : Diagnostic) :
    (p.print d).objects_ = p.objects_ := by
  rfl

@[simp] theorem print_ptr_ (p : Parser) (d : Diagnostic) :
    (p.print d).ptr_ = p.ptr_ := by
  rfl

@[simp] theorem print_size_ (p : Parser) (d : Diagnostic) :
    (p.print d).size_ = p.size_ := by
  rfl

@[simp] theorem print_offset_ (p : Parser) (d : Diagnostic) :
    (p.print d).offset_ = p.offset_ := by
  rfl

@[simp] theorem print_line_ (p : Parser) (d : Diagnostic) :
    (p.print d).line_ = p.line_ := by
  rfl

@[simp] theorem print_col_ (p : Parser) (d : Diagnostic) :
    (p.print d).col_ = p.col_ := by
  rfl

@[simp] theorem advance_unique_strs_ (p : Parser) :
    (p.advance).unique_strs_ = p.unique_strs_ := by
  rfl

@[simp] theorem advance_strs_ (p : Parser) :
    (p.advance).strs_ = p.strs_ := by
  rfl

@[simp] theorem advance_nums_ (p : Parser) :
    (p.advance).nums_ = p.nums_ := by
  rfl

@[simp] theorem advance_arrays_ (p : Parser) :
    (p.advance).arrays_ = p.arrays_ := by
  rfl

@[simp] theorem advance_objects_ (p : Parser) :
    (p.advance).objects_ = p.objects_ := by
  rfl

@[simp] theorem advance_ptr_ (p : Parser) :
    (p.advance).ptr_ = p.ptr_ := by
  rfl

@[simp] theorem advance_size_ (p : Parser) :
    (p.advance).size_ = p.size_ := by
  rfl

@[simp] theorem advance_line_ (p : Parser) :
    (p.advance).line_ = p.line_ := by
  rfl

@[simp] theorem advance_printed (p : Parser) :
    (p.advance).printed = p.printed := by
  rfl

@[simp] theorem reportSuperfluous_unique_strs_ (p : Parser) (v : Value) :
    (p.reportSuperfluous v).unique_strs_ = p.unique_strs_ := by
  unfold reportSuperfluous; split_ifs <;> rfl

@[simp] theorem reportSuperfluous_strs_ (p : Parser) (v : Value) :
    (p.reportSuperfluous v).strs_ = p.strs_ := by
  unfold reportSuperfluous; split_ifs <;> rfl

@[simp] theorem reportSuperfluous_nums_ (p : Parser) (v : Value) :
    (p.reportSuperfluous v).nums_ = p.nums_ := by
  unfold reportSuperfluous; split_ifs <;> rfl

@[simp] theorem reportSuperfluous_arrays_ (p : Parser) (v : Value) :
    (p.reportSuperfluous v).arrays_ = p.arrays_ := by
  unfold reportSuperfluous; split_ifs <;> rfl

@[simp] theorem reportSuperfluous_objects_ (p : Parser) (v : Value) :
    (p.reportSuperfluous v).objects_ = p.objects_ := by
  unfold reportSuperfluous; split_ifs <;> rfl

@[simp] theorem reportSuperfluous_ptr_ (p : Parser) (v : Value) :
    (p.reportSuperfluous v).ptr_ = p.ptr_ := by
  unfold reportSuperfluous; split_ifs <;> rfl

@[simp] theorem reportSuperfluous_size_ (p : Parser) (v : Value) :
    (p.reportSuperfluous v).size_ = p.size_ := by
  unfold reportSuperfluous; split_ifs <;> rfl

@[simp] theorem reportSuperfluous_offset_ (p : Parser) (v : Value) :
    (p.reportSuperfluous v).offset_ = p.offset_ := by
  unfold reportSuperfluous; split_ifs <;> rfl

@[simp] theorem reportSuperfluous_line_ (p : Parser) (v : Value) :
    (p.reportSuperfluous v).line_ = p.line_ := by
  unfold reportSuperfluous; split_ifs <;> rfl

@[simp] theorem reportSuperfluous_col_ (p : Parser) (v : Value) :
    (p.reportSuperfluous v).col_ = p.col_ := by
  unfold reportSuperfluous; split_ifs <;> rfl

@[simp] theorem PrintUnexpectedCh_unique_strs_ (p : Parser) (ch : Nat) (e : Expecting) :
    (p.PrintUnexpectedCh ch e).unique_strs_ = p.unique_strs_ := by
  unfold PrintUnexpectedCh; split_ifs <;> rfl

@[simp] theorem PrintUnexpectedCh_strs_ (p : Parser) (ch : Nat) (e : Expecting) :
    (p.PrintUnexpectedCh ch e).strs_ = p.strs_ := by
  unfold PrintUnexpectedCh; split_ifs <;> rfl

@[simp] theorem PrintUnexpectedCh_nums_ (p : Parser) (ch : Nat) (e : Expecting) :
    (p.PrintUnexpectedCh ch e).nums_ = p.nums_ := by
  unfold PrintUnexpectedCh; split_ifs <;> rfl

@[simp] theorem PrintUnexpectedCh_arrays_ (p : Parser) (ch : Nat) (e : Expecting) :
    (p.PrintUnexpectedCh ch e).arrays_ = p.arrays_ := by
  unfold PrintUnexpectedCh; split_ifs <;> rfl

@[simp] theorem PrintUnexpectedCh_objects_ (p : Parser) (ch : Nat) (e : Expecting) :
    (p.PrintUnexpectedCh ch e).objects_ = p.objects_ := by
  unfold PrintUnexpectedCh; split_ifs <;> rfl

@[simp] theorem PrintUnexpectedCh_ptr_ (p : Parser) (ch : Nat) (e : Expecting) :
    (p.PrintUnexpectedCh ch e).ptr_ = p.ptr_ := by
  unfold PrintUnexpectedCh; split_ifs <;> rfl

@[simp] theorem PrintUnexpectedCh_size_ (p : Parser) (ch : Nat) (e : Expecting) :
    (p.PrintUnexpectedCh ch e).size_ = p.size_ := by
  unfold PrintUnexpectedCh; split_ifs <;> rfl

@[simp] theorem PrintUnexpectedCh_offset_ (p : Parser) (ch : Nat) (e : Expecting) :
    (p.PrintUnexpectedCh ch e).offset_ = p.offset_ := by
  unfold PrintUnexpectedCh; split_ifs <;> rfl

@[simp] theorem PrintUnexpectedCh_line_ (p : Parser) (ch : Nat) (e : Expecting) :
    (p.PrintUnexpectedCh ch e).line_ = p.line_ := by
  unfold PrintUnexpectedCh; split_ifs <;> rfl

@[simp] theorem PrintUnexpectedCh_col_ (p : Parser) (ch : Nat) (e : Expecting) :
    (p.PrintUnexpectedCh ch e).col_ = p.col_ := by
  unfold PrintUnexpectedCh; split_ifs <;> rfl

@[simp] theorem advance_offset_ (p : Parser) : p.advance.offset_ = p.offset_ + 1 := rfl
theorem Arena.Add_ok {α : Type} (a : Arena α) (v : α) (h : a.mem_.length ≤ VALUE_INDEX_MASK) :
    a.Add v = .ok (a.mem_.length, ⟨a.mem_ ++ [v]⟩) := by
  unfold Arena.Add
  simp [h]

/-- `ParseBoolOrNumber` at a decimal integer literal: the literal is consumed and its value
is appended to the number arena. -/
theorem ParseBoolOrNumber_digits (p : Parser) (buf ds rest : List Nat)
    (hptr : p.ptr_ = some buf) (hrest : buf.drop p.offset_ = ds ++ rest) (hne : ds ≠ [])
    (hall : ∀ d ∈ ds, isdigit d = true) (hstop : EndsNumber rest)
    (hcap : p.nums_.mem_.length ≤ VALUE_INDEX_MASK) :
    p.ParseBoolOrNumber = .ok (Value.pack Value.NUMBER p.nums_.mem_.length,
      { p with offset_ := p.offset_ + ds.length,
               nums_ := ⟨p.nums_.mem_ ++ [Double.ofNat (decimalValue ds)]⟩ }) := by
  obtain ⟨d, ds', rfl⟩ := List.exists_cons_of_ne_nil hne
  have hd := isdigit_bounds (hall d (by simp))
  have hb : p.byteAt p.offset_ = d := by
    rw [byteAt_eq hptr]
    exact (drop_cons_getD hrest).1
  have ht : strncmpEq p TRUE_VALUE p.offset_ = false := by
    simp only [TRUE_VALUE, strncmpEq, hb, Bool.and_eq_false_imp, beq_iff_eq]
    omega
  have hf : strncmpEq p FALSE_VALUE p.offset_ = false := by
    simp only [FALSE_VALUE, strncmpEq, hb, Bool.and_eq_false_imp, beq_iff_eq]
    omega
  have hs := strtod_digits (d :: ds') rest hne hall hstop
  unfold ParseBoolOrNumber
  simp only [ht, hf, bytesFrom_eq hptr, hrest, hs, Bool.false_eq_true, if_false]
  rw [if_neg (by simp), Arena.Add_ok _ _ hcap]
  simp only [Value.make_ok Value.NUMBER _ (by decide) hcap]
  rfl
theorem drop_add_of_drop {buf : List Nat} {i : Nat} {xs ys : List Nat}
    (h : buf.drop i = xs ++ ys) : buf.drop (i + xs.length) = ys := by
  rw [← List.drop_drop, h, List.drop_left]

/-- `ParseValue` at a decimal integer literal, possibly after white space. -/
theorem ParseValue_number (n : Nat) (p : Parser) (buf ws ds rest : List Nat)
    (hptr : p.ptr_ = some buf) (hsz : p.size_ = buf.length)
    (hrest : buf.drop p.offset_ = ws ++ (ds ++ rest))
    (hws : ∀ w ∈ ws, isspace w = true) (hne : ds ≠ [])
    (hall : ∀ d ∈ ds, isdigit d = true) (hstop : EndsNumber rest)
    (hcap : p.nums_.mem_.length ≤ VALUE_INDEX_MASK) :
    ∃ l k, ParseValue (n + 1) p = .ok (Value.pack Value.NUMBER p.nums_.mem_.length,
      { p with offset_ := p.offset_ + ws.length + ds.length, line_ := l, col_ := k,
               nums_ := ⟨p.nums_.mem_ ++ [Double.ofNat (decimalValue ds)]⟩ }) := by
  obtain ⟨d, ds', rfl⟩ := List.exists_cons_of_ne_nil hne
  have hd := isdigit_bounds (hall d (by simp))
  obtain ⟨l, k, hnn⟩ := NextNonSpaceChar_skip buf ws d (ds' ++ rest)
    hws (isspace_digit (hall d (by simp))) p hptr hsz hrest
  refine ⟨l, k, ?_⟩
  simp only [ParseValue, hnn]
  rw [if_neg (by omega), if_neg (by omega), if_neg (by omega), if_neg (by omega)]
  rw [ParseBoolOrNumber_digits { p with offset_ := p.offset_ + ws.length, line_ := l, col_ := k }
    buf (d :: ds') rest hptr (drop_add_of_drop hrest) hne hall hstop hcap]
theorem decimalValue_foldl (ds : List Nat) (acc : Nat) :
    ds.foldl (fun acc d => 10 * acc + (d - 48)) acc =
      acc * 10 ^ ds.length + Nat.ofDigits 10 ((ds.map (· - 48)).reverse) := by
  induction ds generalizing acc with
  | nil => simp
  | cons d ds ih =>
    rw [List.foldl_cons, ih, List.map_cons, List.reverse_cons, Nat.ofDigits_append,
      Nat.ofDigits_singleton, List.length_reverse, List.length_map, List.length_cons]
    ring

/-- The value `strtod` computes for a run of decimal digits is the number they denote. -/
theorem decimalValue_eq_ofDigits (ds : List Nat) :
    decimalValue ds = Nat.ofDigits 10 ((ds.map (· - 48)).reverse) := by
  unfold decimalValue
  rw [decimalValue_foldl]
  simp

theorem ParseFromString_eq (str : List Nat) (hsize : str.length ≤ MAX_DATA_SIZE) (v : Value)
    (q : Parser) (h : ParseValue (str.length + 1) (init.setBuffer str str.length) = .ok (v, q)) :
    init.ParseFromString str = .ok (v, q.reportSuperfluous v) := by
  unfold ParseFromString ParseFromArray
  rw [if_pos hsize, if_neg (by simp [init]), h]

/-- C4: an input that is a decimal integer literal (digits only) of value below `2 ^ 53`
parses to a valid `NUMBER` whose `AsNumber` is exactly that value, and the number arena
gains exactly one entry (nothing else is stored). -/
theorem C4_integer_literal (ds : List Nat) (hne : ds ≠ [])
    (hall : ∀ d ∈ ds, 48 ≤ d ∧ d ≤ 57)
    (hval : Nat.ofDigits 10 ((ds.map (· - 48)).reverse) < 2 ^ 53)
    (hsize : ds.length ≤ MAX_DATA_SIZE) :
    ∃ v p, init.ParseFromString ds = .ok (v, p) ∧ v.valid = true ∧ v.type = Value.NUMBER ∧
      p.AsNumber v = .ok (Double.ofNatExact (Nat.ofDigits 10 ((ds.map (· - 48)).reverse))) ∧
      p.nums_.mem_.length = 1 ∧ p.strs_.mem_ = [] ∧ p.arrays_.mem_ = [] ∧
      p.objects_.mem_ = [] := by
  have hall2 : ∀ d ∈ ds, isdigit d = true := by
    intro d hd
    have := hall d hd
    simp [isdigit, this]
  have h0 : (0 : Nat) ≤ VALUE_INDEX_MASK := by decide
  obtain ⟨l, k, hpv⟩ := ParseValue_number ds.length (init.setBuffer ds ds.length) ds [] ds []
    rfl rfl (by simp [setBuffer]) (by simp) hne hall2 (by simp [EndsNumber]) h0
  have hn0 : (init.setBuffer ds ds.length).nums_.mem_ = [] := rfl
  simp only [hn0, List.length_nil, List.nil_append] at hpv
  have hres := ParseFromString_eq ds hsize _ _ hpv
  refine ⟨_, _, hres, Value.valid_pack _ _ (by decide) h0, Value.type_pack _ _ h0, ?_, ?_, ?_, ?_, ?_⟩
  · unfold AsNumber
    rw [if_neg (by rw [Value.type_pack _ _ h0]; simp)]
    rw [Value.index_pack _ _ h0]
    rw [reportSuperfluous_nums_, decimalValue_eq_ofDigits, Double.ofNat_exact _ hval]
    rfl
  · simp
  · simp; rfl
  · simp; rfl
  · simp; rfl

theorem C4_integer_literal_witness :
    ascii "123" ≠ [] ∧ (∀ d ∈ ascii "123", 48 ≤ d ∧ d ≤ 57) ∧
    Nat.ofDigits 10 (((ascii "123").map (· - 48)).reverse) < 2 ^ 53 ∧
    (ascii "123").length ≤ MAX_DATA_SIZE ∧
    ∃ v p, init.ParseFromString (ascii "123") = .ok (v, p) ∧ v.valid = true ∧
      v.type = Value.NUMBER ∧
      p.AsNumber v =
        .ok (Double.ofNatExact (Nat.ofDigits 10 (((ascii "123").map (· - 48)).reverse))) ∧
      p.nums_.mem_.length = 1 ∧ p.strs_.mem_ = [] ∧ p.arrays_.mem_ = [] ∧
      p.objects_.mem_ = [] :=
  ⟨by decide, by decide, by decide, by decide,
    C4_integer_literal (ascii "123") (by decide) (by decide) (by decide) (by decide)⟩

/-! ## Steps of a parse -/

theorem Step.refl (p : Parser) : Step p p 0 [] [] [] [] :=
  ⟨rfl, rfl, rfl, by simp, by simp, by simp, by simp⟩

theorem Step.trans {p q r : Parser} {k k2 : Nat} {s s2 : List StringSpan} {n n2 : List Double}
    {a a2 : List ValueArray} {o o2 : List Object} (h1 : Step p q k s n a o)
    (h2 : Step q r k2 s2 n2 a2 o2) : Step p r (k + k2) (s ++ s2) (n ++ n2) (a ++ a2) (o ++ o2) :=
  ⟨h2.ptr.trans h1.ptr, h2.size.trans h1.size, by rw [h2.offset, h1.offset, Nat.add_assoc],
    by rw [h2.strs, h1.strs, List.append_assoc], by rw [h2.nums, h1.nums, List.append_assoc],
    by rw [h2.arrays, h1.arrays, List.append_assoc],
    by rw [h2.objects, h1.objects, List.append_assoc]⟩

theorem Step.cast {p q : Parser} {k j : Nat} {s s2 : List StringSpan} {n n2 : List Double}
    {a a2 : List ValueArray} {o o2 : List Object} (h : Step p q k s n a o) (hk : k = j)
    (hs : s = s2) (hn : n = n2) (ha : a = a2) (ho : o = o2) : Step p q j s2 n2 a2 o2 := by
  subst hk hs hn ha ho
  exact h

/-- After a step over the bytes `xs`, the cursor is in front of what followed them. -/
theorem At.step {p q : Parser} {buf x ys : List Nat} {s : List StringSpan} {n : List Double}
    {a : List ValueArray} {o : List Object} (h : At p buf (x ++ ys))
    (hs : Step p q x.length s n a o) : At q buf ys :=
  ⟨hs.ptr.trans h.ptr, hs.size.trans h.size, by rw [hs.offset]; exact drop_add_of_drop h.rest⟩

theorem At.offset_add {p : Parser} {buf rest : List Nat} (h : At p buf rest) :
    p.offset_ + rest.length = buf.length ∨ (rest = [] ∧ buf.length ≤ p.offset_) := by
  have := congrArg List.length h.rest
  rw [List.length_drop] at this
  by_cases hle : p.offset_ ≤ buf.length
  · left; omega
  · right
    refine ⟨List.eq_nil_of_length_eq_zero (by omega), by omega⟩

theorem At.remaining {p : Parser} {buf rest : List Nat} (h : At p buf rest) :
    rest.length ≤ p.size_ - p.offset_ := by
  have := congrArg List.length h.rest
  rw [List.length_drop] at this
  rw [h.size]
  omega

theorem advance_step (p : Parser) : Step p p.advance 1 [] [] [] [] :=
  ⟨rfl, rfl, rfl, by simp, by simp, by simp, by simp⟩

theorem NextNonSpaceChar_at {p : Parser} {buf ws : List Nat} {c : Nat} {r : List Nat}
    (h : At p buf (ws ++ c :: r)) (hws : ∀ w ∈ ws, isspace w = true) (hc : isspace c = false) :
    ∃ q, p.NextNonSpaceChar = (c, q) ∧ Step p q ws.length [] [] [] [] := by
  obtain ⟨l, k, hnn⟩ := NextNonSpaceChar_skip buf ws c r hws hc p h.ptr h.size h.rest
  exact ⟨_, hnn, ⟨rfl, rfl, rfl, by simp, by simp, by simp, by simp⟩⟩

theorem ParseValue_number_at (n : Nat) {p : Parser} {buf ws ds rest : List Nat}
    (h : At p buf (ws ++ (ds ++ rest)))
    (hws : ∀ w ∈ ws, isspace w = true) (hne : ds ≠ [])
    (hall : ∀ d ∈ ds, isdigit d = true) (hstop : EndsNumber rest)
    (hcap : p.nums_.mem_.length ≤ VALUE_INDEX_MASK) :
    ∃ q, ParseValue (n + 1) p = .ok (Value.pack Value.NUMBER p.nums_.mem_.length, q) ∧
      Step p q (ws ++ ds).length [] [Double.ofNat (decimalValue ds)] [] [] := by
  obtain ⟨l, k, hpv⟩ := ParseValue_number n p buf ws ds rest h.ptr h.size h.rest hws hne hall
    hstop hcap
  exact ⟨_, hpv, ⟨rfl, rfl, by simp [Nat.add_assoc], by simp, by simp, by simp, by simp⟩⟩

/-! ## Arrays of numbers -/

theorem EndsNumber_arrayTail (lits : List (List Nat)) : EndsNumber (arrayTail lits) := by
  cases lits with
  | nil => intro c hc; simp [arrayTail] at hc; subst hc; decide
  | cons x xs => intro c hc; simp [arrayTail] at hc; subst hc; decide

theorem arrayTail_length (lits : List (List Nat)) : lits.length < (arrayTail lits).length := by
  induction lits with
  | nil => simp [arrayTail]
  | cons x xs ih => simp [arrayTail]; omega

/-- `ParseValue` at `[`: the bracket is consumed and the array loop runs. -/
theorem ParseValue_array (n : Nat) (p q : Parser) (h : p.NextNonSpaceChar = (91, q)) :
    ParseValue (n + 1) p =
      ArrayLoop (ParseValue n) (q.advance.size_ - q.advance.offset_ + 1) q.advance [] := by
  rw [ParseValue]
  simp only [h]
  rfl

/-- The array loop on `a_0, a_1, ... ]`: every literal becomes a number, in order. -/
theorem ArrayLoop_numbers (n : Nat) (buf : List Nat) (lits : List (List Nat)) :
    ∀ (ws ds : List Nat) (p : Parser) (acc : ValueArray) (fuel : Nat),
      At p buf (ws ++ (ds ++ arrayTail lits)) →
      (∀ w ∈ ws, isspace w = true) → ds ≠ [] → (∀ d ∈ ds, isdigit d = true) →
      (∀ x ∈ lits, x ≠ [] ∧ ∀ d ∈ x, isdigit d = true) →
      lits.length < fuel →
      p.nums_.mem_.length + lits.length ≤ VALUE_INDEX_MASK →
      p.arrays_.mem_.length ≤ VALUE_INDEX_MASK →
      ∃ q, ArrayLoop (ParseValue (n + 1)) fuel p acc
          = .ok (Value.pack Value.ARRAY p.arrays_.mem_.length, q) ∧
        Step p q (ws ++ (ds ++ arrayTail lits)).length []
          ((ds :: lits).map (fun x => Double.ofNat (decimalValue x)))
          [acc ++ (List.range' p.nums_.mem_.length (lits.length + 1)).map
            (Value.pack Value.NUMBER)] [] := by
  induction lits with
  | nil =>
    intro ws ds p acc fuel hat hws hne hall _ hfuel hcap hcapa
    obtain ⟨f, rfl⟩ : ∃ f, fuel = f + 1 := ⟨fuel - 1, by omega⟩
    obtain ⟨q1, hpv, hs1⟩ := ParseValue_number_at n hat hws hne hall (EndsNumber_arrayTail [])
      (by omega)
    have hv := Value.valid_pack Value.NUMBER p.nums_.mem_.length (by decide) (by omega)
    have hat1 : At q1 buf ([] ++ 93 :: []) := by
      rw [← List.append_assoc] at hat
      exact hat.step hs1
    obtain ⟨q2, hnn, hs2⟩ := NextNonSpaceChar_at hat1 (by simp) (by decide)
    have hcap2 : q2.advance.arrays_.mem_.length ≤ VALUE_INDEX_MASK := by
      rw [advance_arrays_, hs2.arrays, hs1.arrays]; simpa using hcapa
    simp only [ArrayLoop, hpv, hv, hnn, Bool.not_true, Bool.false_eq_true, if_false]
    rw [if_pos trivial, Arena.Add_ok _ _ hcap2]
    simp only [Value.make_ok Value.ARRAY _ (by decide) hcap2]
    have hlen : q2.advance.arrays_.mem_.length = p.arrays_.mem_.length := by
      rw [advance_arrays_, hs2.arrays, hs1.arrays]; simp
    refine ⟨_, by rw [hlen]; rfl, ?_⟩
    have hs3 := (hs1.trans hs2).trans (advance_step q2)
    refine ⟨hs3.ptr, hs3.size, ?_, ?_, ?_, ?_, ?_⟩
    · rw [show ({ q2.advance with arrays_ := ⟨q2.advance.arrays_.mem_ ++ [acc ++ [Value.pack Value.NUMBER p.nums_.mem_.length]]⟩ } : Parser).offset_ = q2.advance.offset_ from rfl, hs3.offset]
      simp [arrayTail]; omega
    · exact hs3.strs
    · simpa using hs3.nums
    · show q2.advance.arrays_.mem_ ++ _ = _
      rw [hs3.arrays]; simp
    · exact hs3.objects
  | cons x lits ih =>
    intro ws ds p acc fuel hat hws hne hall hlits hfuel hcap hcapa
    obtain ⟨f, rfl⟩ : ∃ f, fuel = f + 1 := ⟨fuel - 1, by omega⟩
    obtain ⟨q1, hpv, hs1⟩ := ParseValue_number_at n hat hws hne hall
      (EndsNumber_arrayTail (x :: lits)) (by omega)
    have hv := Value.valid_pack Value.NUMBER p.nums_.mem_.length (by decide) (by omega)
    have hat1 : At q1 buf ([] ++ 44 :: ([32] ++ (x ++ arrayTail lits))) := by
      rw [← List.append_assoc] at hat
      exact hat.step hs1
    obtain ⟨q2, hnn, hs2⟩ := NextNonSpaceChar_at hat1 (by simp) (by decide)
    have hat2 : At q2 buf ([44] ++ ([32] ++ (x ++ arrayTail lits))) := hat1.step hs2
    have hat3 : At q2.advance buf ([32] ++ (x ++ arrayTail lits)) := hat2.step (advance_step q2)
    have hs3 := (hs1.trans hs2).trans (advance_step q2)
    simp only [List.length_cons, List.length_map] at hcap hfuel
    obtain ⟨q, hloop, hs4⟩ := ih [32] x q2.advance
      (acc ++ [Value.pack Value.NUMBER p.nums_.mem_.length]) f hat3 (by simp; decide)
      (hlits x (by simp)).1 (hlits x (by simp)).2 (fun y hy => hlits y (by simp [hy]))
      (by omega) (by rw [hs3.nums]; simp; omega) (by rw [hs3.arrays]; simpa using hcapa)
    simp only [ArrayLoop, hpv, hv, hnn, Bool.not_true, Bool.false_eq_true, if_false]
    rw [if_pos trivial, hloop]
    have hlen : q2.advance.arrays_.mem_.length = p.arrays_.mem_.length := by
      rw [hs3.arrays]; simp
    have hlen2 : q2.advance.nums_.mem_.length = p.nums_.mem_.length + 1 := by
      rw [hs3.nums]; simp
    refine ⟨q, by rw [hlen], ?_⟩
    rw [hlen2] at hs4
    refine (hs3.trans hs4).cast ?_ ?_ ?_ ?_ ?_
    · simp [arrayTail]; omega
    · simp
    · simp
    · simp [List.range'_succ]
    · simp
theorem setBuffer_at (buf : List Nat) : At (init.setBuffer buf buf.length) buf buf :=
  ⟨rfl, rfl, rfl⟩

theorem Arena.Get_of_eq {α : Type} (a : Arena α) (i : Nat) (l : List α) (v : α)
    (hl : a.mem_ = l) (h : l[i]? = some v) : a.Get i = .ok v := by
  unfold Arena.Get
  rw [List.get?_eq_getElem?, hl, h]

theorem isdigit_of_bounds {d : Nat} (h : 48 ≤ d ∧ d ≤ 57) : isdigit d = true := by
  simp [isdigit, h]

/-- C1 (amended): for a non-empty list of decimal integer literals, the text
`[a_0, a_1, ..., a_n]` parses to a valid `ARRAY` of as many elements; element `i` is a
`NUMBER` whose `AsNumber` is the binary64 nearest to `a_i` (ties to even), in source order.
That double is `a_i` itself when `a_i < 2 ^ 53`; above, it need not be.  The list has at
most `2 ^ 29` literals and the text at most `MAX_DATA_SIZE` bytes, the capacity of the
parser. -/
theorem C1_array_of_integers (lits : List (List Nat)) (hne : lits ≠ [])
    (hlit : ∀ ds ∈ lits, ds ≠ [] ∧ ∀ d ∈ ds, 48 ≤ d ∧ d ≤ 57)
    (hcount : lits.length ≤ 2 ^ 29) (hsize : (arrayText lits).length ≤ MAX_DATA_SIZE) :
    ∃ root p, init.ParseFromString (arrayText lits) = .ok (root, p) ∧ root.valid = true ∧
      root.type = Value.ARRAY ∧ p.ArraySize root = .ok lits.length ∧
      ∀ (i : Nat) (hi : i < lits.length), ∃ e, p.ArrayElem root i = .ok e ∧
        e.valid = true ∧ e.type = Value.NUMBER ∧
        p.AsNumber e = .ok (Double.ofNat (literalValue lits[i])) ∧
        (literalValue lits[i] < 2 ^ 53 →
          p.AsNumber e = .ok (Double.ofNatExact (literalValue lits[i]))) := by
  obtain ⟨ds, rest, rfl⟩ := List.exists_cons_of_ne_nil hne
  have hlit2 : ∀ x ∈ ds :: rest, x ≠ [] ∧ ∀ d ∈ x, isdigit d = true :=
    fun x hx => ⟨(hlit x hx).1, fun d hd => isdigit_of_bounds ((hlit x hx).2 d hd)⟩
  have h0 : (0 : Nat) ≤ VALUE_INDEX_MASK := by decide
  have hmask := VALUE_INDEX_MASK_eq
  simp only [List.length_cons] at hcount
  -- the opening bracket
  have hat0 : At (init.setBuffer (arrayText (ds :: rest)) (arrayText (ds :: rest)).length)
      (arrayText (ds :: rest)) ([] ++ 91 :: ([] ++ (ds ++ arrayTail rest))) := setBuffer_at _
  obtain ⟨q0, hnn, hs0⟩ := NextNonSpaceChar_at hat0 (by simp) (by decide)
  have hat1 : At q0.advance (arrayText (ds :: rest)) ([] ++ (ds ++ arrayTail rest)) :=
    At.step (x := [91]) (hat0.step hs0) (advance_step q0)
  have hs1 := hs0.trans (advance_step q0)
  have hn1 : q0.advance.nums_.mem_ = [] := by rw [hs1.nums]; rfl
  have ha1 : q0.advance.arrays_.mem_ = [] := by rw [hs1.arrays]; rfl
  obtain ⟨m, hm⟩ : ∃ m, (arrayText (ds :: rest)).length = m + 1 := ⟨_, by simp [arrayText]; rfl⟩
  obtain ⟨q, hloop, hs2⟩ := ArrayLoop_numbers m (arrayText (ds :: rest)) rest [] ds q0.advance []
    (q0.advance.size_ - q0.advance.offset_ + 1) hat1 (by simp) (hlit2 ds (by simp)).1
    (hlit2 ds (by simp)).2 (fun x hx => hlit2 x (by simp [hx]))
    (by
      have h1 := hat1.remaining
      have h4 := arrayTail_length rest
      simp only [List.length_append] at h1
      omega)
    (by rw [hn1]; simp; omega) (by rw [ha1]; exact h0)
  have hpv : ParseValue ((arrayText (ds :: rest)).length + 1)
      (init.setBuffer (arrayText (ds :: rest)) (arrayText (ds :: rest)).length)
      = .ok (Value.pack Value.ARRAY 0, q) := by
    rw [ParseValue_array _ _ _ hnn, hm, hloop, ha1]
    rfl
  have hres := ParseFromString_eq _ hsize _ _ hpv
  have hsf := hs1.trans hs2
  have harr : (q.reportSuperfluous (Value.pack Value.ARRAY 0)).arrays_.mem_
      = [(List.range' 0 (rest.length + 1)).map (Value.pack Value.NUMBER)] := by
    rw [reportSuperfluous_arrays_, hs2.arrays, ha1, hn1]; rfl
  have hnum : (q.reportSuperfluous (Value.pack Value.ARRAY 0)).nums_.mem_
      = (ds :: rest).map (fun x => Double.ofNat (decimalValue x)) := by
    rw [reportSuperfluous_nums_, hs2.nums, hn1]; rfl
  refine ⟨_, _, hres, Value.valid_pack _ _ (by decide) h0, Value.type_pack _ _ h0, ?_, ?_⟩
  · unfold ArraySize
    rw [if_neg (by rw [Value.type_pack _ _ h0]; simp), Value.index_pack _ _ h0,
      Arena.Get_of_eq _ 0 _ _ harr rfl]
    simp [Except.map]
  · intro i hi
    simp only [List.length_cons] at hi
    have hi2 : i ≤ VALUE_INDEX_MASK := by omega
    have hget : (q.reportSuperfluous (Value.pack Value.ARRAY 0)).nums_.Get i
        = .ok (Double.ofNat (literalValue (ds :: rest)[i])) := by
      apply Arena.Get_of_eq _ i _ _ hnum
      rw [List.getElem?_map, List.getElem?_eq_getElem (by simpa using hi)]
      simp [decimalValue_eq_ofDigits, literalValue]
    have hnum2 : (q.reportSuperfluous (Value.pack Value.ARRAY 0)).AsNumber
        (Value.pack Value.NUMBER i) = .ok (Double.ofNat (literalValue (ds :: rest)[i])) := by
      unfold AsNumber
      rw [if_neg (by rw [Value.type_pack _ _ hi2]; simp), Value.index_pack _ _ hi2, hget]
    refine ⟨Value.pack Value.NUMBER i, ?_, Value.valid_pack _ _ (by decide) hi2,
      Value.type_pack _ _ hi2, hnum2, ?_⟩
    · unfold ArrayElem
      rw [if_neg (by rw [Value.type_pack _ _ h0]; simp), Value.index_pack _ _ h0,
        Arena.Get_of_eq _ 0 _ ((List.range' 0 (rest.length + 1)).map (Value.pack Value.NUMBER))
          harr rfl]
      have : ((List.range' 0 (rest.length + 1)).map (Value.pack Value.NUMBER)).get? i
          = some (Value.pack Value.NUMBER i) := by
        rw [List.get?_eq_getElem?, List.getElem?_map,
          List.getElem?_eq_getElem (by simpa using hi)]
        simp
      simp only [this]
    · intro hlt
      rw [hnum2, Double.ofNat_exact _ hlt]

theorem C1_array_of_integers_witness :
    [ascii "1", ascii "2", ascii "3", ascii "4", ascii "5", ascii "6"] ≠ [] ∧
    (∀ ds ∈ [ascii "1", ascii "2", ascii "3", ascii "4", ascii "5", ascii "6"],
      ds ≠ [] ∧ ∀ d ∈ ds, 48 ≤ d ∧ d ≤ 57) ∧
    arrayText [ascii "1", ascii "2", ascii "3", ascii "4", ascii "5", ascii "6"]
      = ascii "[1, 2, 3, 4, 5, 6]" ∧
    ∃ root p, init.ParseFromString (ascii "[1, 2, 3, 4, 5, 6]") = .ok (root, p) ∧
      root.valid = true ∧ root.type = Value.ARRAY ∧ p.ArraySize root = .ok 6 ∧
      ∀ (i : Nat) (hi : i < 6), ∃ e, p.ArrayElem root i = .ok e ∧
        e.valid = true ∧ e.type = Value.NUMBER ∧
        p.AsNumber e = .ok (Double.ofNat (literalValue
          ([ascii "1", ascii "2", ascii "3", ascii "4", ascii "5", ascii "6"][i]))) ∧
        (literalValue ([ascii "1", ascii "2", ascii "3", ascii "4", ascii "5", ascii "6"][i])
            < 2 ^ 53 →
          p.AsNumber e = .ok (Double.ofNatExact (literalValue
            ([ascii "1", ascii "2", ascii "3", ascii "4", ascii "5", ascii "6"][i])))) :=
  ⟨by decide, by decide, by decide,
    C1_array_of_integers [ascii "1", ascii "2", ascii "3", ascii "4", ascii "5", ascii "6"]
      (by decide) (by decide) (by decide) (by decide)⟩

/-- C1 (counterexample): the text `[9007199254740993]` is an array of one decimal integer
literal, of value `2 ^ 53 + 1`.  The parse returns a valid `ARRAY` of size 1 whose element
is a `NUMBER`, and `AsNumber` of it is the double `9007199254740992`, not the value of the
literal: `strtod` gives the nearest binary64, and `2 ^ 53 + 1` is not one. -/
theorem C1_large_literal_is_rounded :
    arrayText [ascii "9007199254740993"] = ascii "[9007199254740993]" ∧
    literalValue (ascii "9007199254740993") = 9007199254740993 ∧
    (init.ParseFromString (ascii "[9007199254740993]")).bind
        (fun r => (r.2.ArraySize r.1).map (fun n => (r.1.valid, r.1.type, n)))
      = .ok (true, Value.ARRAY, 1) ∧
    (init.ParseFromString (ascii "[9007199254740993]")).bind
        (fun r => (r.2.ArrayElem r.1 0).bind
          (fun e => (r.2.AsNumber e).map (fun d => (e.valid, e.type, d))))
      = .ok (true, Value.NUMBER, Double.ofNatExact 9007199254740992) ∧
    Double.ofNatExact 9007199254740992 ≠ Double.ofNatExact 9007199254740993 := by
  refine ⟨by decide, by decide!, by decide!, by decide!, by decide!⟩

/-! ## Strings -/

theorem AsStringLoop_wellEscaped (raw : List Nat) :
    ∀ acc, wellEscaped raw = true → AsStringLoop false raw acc = .ok (acc ++ unescape raw) := by
  induction raw using wellEscaped.induct with
  | case1 => intro acc _; simp [AsStringLoop, unescape]
  | case2 => intro acc h; simp [wellEscaped] at h
  | case3 c rest2 ih =>
    intro acc h
    simp only [wellEscaped, if_true] at h
    simp only [AsStringLoop, unescape, if_true, escaped]
    rw [ih _ h]
    simp
  | case4 rest hc =>
    intro acc h
    unfold wellEscaped at h
    simp at h
  | case5 c rest hc hq ih =>
    intro acc h
    unfold wellEscaped at h
    simp only [hc, hq, if_false] at h
    unfold unescape
    simp only [AsStringLoop, hc, hq, if_false]
    rw [ih _ h]
    simp

/-- The bytes of a span that lies in the buffer. -/
theorem spanBytes_eq {p : Parser} {buf : List Nat} (hptr : p.ptr_ = some buf) (o : Nat)
    (raw rest : List Nat) (h : buf.drop o = raw ++ rest) :
    p.spanBytes (o, raw.length) = raw := by
  unfold spanBytes
  apply List.ext_getElem
  · simp
  · intro i h1 h2
    simp only [List.length_map, List.length_range] at h1
    simp only [List.getElem_map, List.getElem_range, byteAt_eq hptr]
    have hlt : o + i < buf.length := by
      have := congrArg List.length h
      simp [List.length_drop] at this
      omega
    rw [List.getD_eq_getElem _ _ hlt]
    have hlt2 : i < (buf.drop o).length := by simp [List.length_drop]; omega
    have : (buf.drop o)[i] = buf[o + i] := by
      simp [List.getElem_drop]
    rw [← this]
    simp [h, List.getElem_append_left h1]

theorem INT_LIMIT_eq : INT_LIMIT = 2 ^ 31 := rfl

/-- `ParseString` on a well escaped text followed by a quote: the span of the text is
returned and the cursor moves behind the quote. -/
theorem ParseStringLoop_wellEscaped (buf : List Nat) (p : Parser) (hptr : p.ptr_ = some buf)
    (hsz : p.size_ = buf.length) (hint : buf.length < INT_LIMIT) (raw : List Nat) :
    ∀ (i : Nat) (r : List Nat) (n : Nat), wellEscaped raw = true →
      buf.drop i = raw ++ 34 :: r → raw.length < n →
      ParseStringLoop n false i p =
        .ok ((p.offset_, i + raw.length - p.offset_), { p with offset_ := i + raw.length + 1 }) := by
  induction raw using wellEscaped.induct with
  | case1 =>
    intro i r n _ hd hn
    obtain ⟨h1, h2, -⟩ := drop_cons_getD hd
    obtain ⟨m, rfl⟩ : ∃ m, n = m + 1 := ⟨n - 1, by simp at hn; omega⟩
    have hb : p.byteAt i = 34 := by rw [byteAt_eq hptr, h1]
    have hi : i < p.size_ := by rw [hsz]; exact h2
    have hl : ¬ INT_LIMIT ≤ i := by omega
    simp [ParseStringLoop, hb, hi, hl]
  | case2 => intro i r n h; simp [wellEscaped] at h
  | case3 c rest2 ih =>
    intro i r n h hd hn
    simp only [wellEscaped, if_true] at h
    obtain ⟨h1, h2, h3⟩ := drop_cons_getD hd
    obtain ⟨h4, h5, h6⟩ := drop_cons_getD h3
    obtain ⟨m, rfl⟩ : ∃ m, n = m + 2 := ⟨n - 2, by simp at hn; omega⟩
    have hb : p.byteAt i = 92 := by rw [byteAt_eq hptr, h1]
    have hi : i < p.size_ := by rw [hsz]; exact h2
    have hi2 : i + 1 < p.size_ := by rw [hsz]; exact h5
    have hl : ¬ INT_LIMIT ≤ i := by omega
    have hl1 : i + 1 < INT_LIMIT := by omega
    have hl2 : i + 1 + 1 < INT_LIMIT := by
      have := congrArg List.length h6
      simp [List.length_drop] at this
      omega
    have := ih (i + 1 + 1) r m h h6 (by simp at hn; omega)
    simp only [ParseStringLoop, hb, hi, hi2, hl, hl1, hl2, if_true, if_false, this]
    simp [Nat.add_assoc, Nat.add_comm, Nat.add_left_comm]
  | case4 rest hc =>
    intro i r n h
    unfold wellEscaped at h
    simp at h
  | case5 c rest hc hq ih =>
    intro i r n h hd hn
    unfold wellEscaped at h
    simp only [hc, hq, if_false] at h
    obtain ⟨h1, h2, h3⟩ := drop_cons_getD hd
    obtain ⟨m, rfl⟩ : ∃ m, n = m + 1 := ⟨n - 1, by simp at hn; omega⟩
    have hb : p.byteAt i = c := by rw [byteAt_eq hptr, h1]
    have hi : i < p.size_ := by rw [hsz]; exact h2
    have hl : ¬ INT_LIMIT ≤ i := by omega
    have hl1 : i + 1 < INT_LIMIT := by
      have := congrArg List.length h3
      simp [List.length_drop] at this
      omega
    have := ih (i + 1) r m h h3 (by simp at hn; omega)
    simp only [ParseStringLoop, hb, hi, hl, hl1, hc, hq, if_true, if_false, this]
    simp [Nat.add_assoc, Nat.add_comm, Nat.add_left_comm]

theorem ParseString_at {p : Parser} {buf raw r : List Nat} (h : At p buf (raw ++ 34 :: r))
    (hint : buf.length < INT_LIMIT) (hraw : wellEscaped raw = true) :
    ∃ q, p.ParseString = .ok ((p.offset_, raw.length), q) ∧
      Step p q (raw ++ [34]).length [] [] [] [] := by
  have hrem := h.remaining
  simp only [List.length_append, List.length_cons] at hrem
  have := ParseStringLoop_wellEscaped buf p h.ptr h.size hint raw p.offset_ r
    (p.size_ - p.offset_) hraw h.rest (by omega)
  refine ⟨{ p with offset_ := p.offset_ + raw.length + 1 }, ?_,
    ⟨rfl, rfl, by simp [Nat.add_assoc], by simp, by simp, by simp, by simp⟩⟩
  unfold ParseString
  rw [this]
  simp

/-! ## Handles stay meaningful while the arenas grow -/

theorem Step.reaches {p q : Parser} {k : Nat} {s : List StringSpan} {n : List Double}
    {a : List ValueArray} {o : List Object} (h : Step p q k s n a o) : Reaches p q k :=
  ⟨s, n, a, o, h⟩

theorem Reaches.trans_reaches {p q r : Parser} {k k2 : Nat} (h1 : Reaches p q k) (h2 : Reaches q r k2) :
    Reaches p r (k + k2) := by
  obtain ⟨s, n, a, o, h1⟩ := h1
  obtain ⟨s2, n2, a2, o2, h2⟩ := h2
  exact ⟨_, _, _, _, h1.trans h2⟩

theorem Reaches.cast_reaches {p q : Parser} {k k2 : Nat} (h : Reaches p q k) (hk : k = k2) :
    Reaches p q k2 := hk ▸ h

theorem Arena.Get_append {α : Type} {a b : Arena α} {l : List α} {i : Nat} {x : α}
    (hb : b.mem_ = a.mem_ ++ l) (h : a.Get i = .ok x) : b.Get i = .ok x := by
  unfold Arena.Get at h ⊢
  rw [List.get?_eq_getElem?] at h ⊢
  rw [hb]
  cases hg : a.mem_[i]? with
  | none => rw [hg] at h; exact Except.noConfusion h
  | some y =>
    rw [hg] at h
    have hlt : i < a.mem_.length := by
      by_contra hc
      rw [List.getElem?_eq_none (by omega)] at hg
      exact Option.noConfusion hg
    rw [List.getElem?_append_left hlt, hg]
    exact h

theorem AsStringSpan_ptr {p q : Parser} (h : q.ptr_ = p.ptr_) (s : StringSpan) :
    q.AsStringSpan s = p.AsStringSpan s := by
  unfold AsStringSpan spanBytes byteAt
  rw [h]

theorem AsNumber_reaches {p q : Parser} {k : Nat} (h : Reaches p q k) {v : Value} {x : Double}
    (hv : p.AsNumber v = .ok x) : q.AsNumber v = .ok x := by
  obtain ⟨s, n, a, o, h⟩ := h
  unfold AsNumber at hv ⊢
  split_ifs at hv ⊢ with ht
  exact Arena.Get_append h.nums hv

theorem AsString_reaches {p q : Parser} {k : Nat} (h : Reaches p q k) {v : Value}
    {x : List Nat} (hv : p.AsString v = .ok x) : q.AsString v = .ok x := by
  obtain ⟨s, n, a, o, h⟩ := h
  unfold AsString at hv ⊢
  split_ifs at hv ⊢ with ht
  cases hg : p.strs_.Get v.index with
  | error e => rw [hg] at hv; exact Except.noConfusion hv
  | ok sp =>
    rw [hg] at hv
    rw [Arena.Get_append h.strs hg]
    simp only at hv ⊢
    rw [AsStringSpan_ptr h.ptr]
    exact hv

mutual
theorem Json.Holds_reaches (j : Json) {p q : Parser} {k : Nat} (h : Reaches p q k) {v : Value}
    (hv : j.Holds p v) : j.Holds q v := by
  match j with
  | .num w ds =>
    simp only [Json.Holds] at hv ⊢
    exact ⟨hv.1, hv.2.1, AsNumber_reaches h hv.2.2⟩
  | .str w raw =>
    simp only [Json.Holds] at hv ⊢
    exact ⟨hv.1, hv.2.1, AsString_reaches h hv.2.2⟩
  | .arr w items =>
    simp only [Json.Holds] at hv ⊢
    obtain ⟨h1, h2, vs, h3, h4⟩ := hv
    obtain ⟨s, n, a, o, hs⟩ := h
    exact ⟨h1, h2, vs, Arena.Get_append hs.arrays h3, Items.Holds_reaches_items items hs.reaches h4⟩
  | .obj w members =>
    simp only [Json.Holds] at hv ⊢
    obtain ⟨h1, h2, kvs, h3, h4⟩ := hv
    obtain ⟨s, n, a, o, hs⟩ := h
    exact ⟨h1, h2, kvs, Arena.Get_append hs.objects h3,
      Members.Holds_reaches_members members hs.reaches h4⟩
theorem Items.Holds_reaches_items (items : Items) {p q : Parser} {k : Nat} (h : Reaches p q k)
    {vs : ValueArray} (hv : items.Holds p vs) : items.Holds q vs := by
  match items with
  | .last j w =>
    simp only [Items.Holds] at hv ⊢
    obtain ⟨v, h1, h2⟩ := hv
    exact ⟨v, h1, Json.Holds_reaches j h h2⟩
  | .cons j w rest =>
    simp only [Items.Holds] at hv ⊢
    obtain ⟨v, vs2, h1, h2, h3⟩ := hv
    exact ⟨v, vs2, h1, Json.Holds_reaches j h h2, Items.Holds_reaches_items rest h h3⟩
theorem Members.Holds_reaches_members (members : Members) {p q : Parser} {k : Nat} (h : Reaches p q k)
    {kvs : Object} (hv : members.Holds p kvs) : members.Holds q kvs := by
  match members with
  | .last w1 key w2 j w3 =>
    simp only [Members.Holds] at hv ⊢
    obtain ⟨v, h1, h2⟩ := hv
    exact ⟨v, h1, Json.Holds_reaches j h h2⟩
  | .cons w1 key w2 j w3 rest =>
    simp only [Members.Holds] at hv ⊢
    obtain ⟨v, kvs2, h1, h2, h3⟩ := hv
    exact ⟨v, kvs2, h1, Json.Holds_reaches j h h2, Members.Holds_reaches_members rest h h3⟩
end

/-! ## Tokens -/

theorem blank_iff {w : List Nat} : blank w = true ↔ ∀ x ∈ w, isspace x = true := by
  simp [blank, List.all_eq_true]

theorem At.lt_of_cons {p : Parser} {buf : List Nat} {c : Nat} {r : List Nat}
    (h : At p buf (c :: r)) : p.offset_ < buf.length := (drop_cons_getD h.rest).2.1

theorem At.lt_of_append_cons {p : Parser} {buf w : List Nat} {c : Nat} {r : List Nat}
    (h : At p buf (w ++ c :: r)) : p.offset_ + w.length < buf.length := by
  have := congrArg List.length h.rest
  simp [List.length_drop] at this
  omega

theorem Cap.mono_cap {p q : Parser} {k : Nat} (hc : Cap p) (hs : Step p q k [] [] [] []) : Cap q := by
  refine ⟨?_, ?_, ?_, ?_⟩
  · rw [hs.strs, hs.offset]; simpa using Nat.le_add_right_of_le hc.strs
  · rw [hs.nums, hs.offset]; simpa using Nat.le_add_right_of_le hc.nums
  · rw [hs.arrays, hs.offset]; simpa using Nat.le_add_right_of_le hc.arrays
  · rw [hs.objects, hs.offset]; simpa using Nat.le_add_right_of_le hc.objects

/-- White space and then the byte `c`, which is consumed. -/
theorem token_at {p : Parser} {buf w : List Nat} {c : Nat} {r : List Nat}
    (h : At p buf (w ++ c :: r)) (hw : blank w = true) (hc : isspace c = false) :
    ∃ q, p.NextNonSpaceChar = (c, q) ∧ Step p q.advance (w ++ [c]).length [] [] [] [] ∧
      At q.advance buf r := by
  obtain ⟨q, hnn, hs⟩ := NextNonSpaceChar_at h (blank_iff.1 hw) hc
  have hs2 := (hs.trans (advance_step q)).cast (j := (w ++ [c]).length) (by simp) rfl rfl rfl rfl
  refine ⟨q, hnn, hs2, ?_⟩
  have h2 : At p buf ((w ++ [c]) ++ r) := by simpa using h
  exact h2.step hs2

theorem AsStringPiece_step (p : Parser) (s : List Nat) :
    (p.AsStringPiece s).1 = s ∧ Step p (p.AsStringPiece s).2 0 [] [] [] [] := by
  unfold AsStringPiece
  split_ifs
  · exact ⟨rfl, Step.refl p⟩
  · exact ⟨rfl, ⟨rfl, rfl, rfl, by simp, by simp, by simp, by simp⟩⟩

theorem EndsNumber_blank_cons (w : List Nat) (c : Nat) (r : List Nat) (hw : blank w = true)
    (hc : c = 44 ∨ c = 93 ∨ c = 125) : EndsNumber (w ++ c :: r) := by
  intro x hx
  cases w with
  | nil =>
    simp at hx
    subst hx
    rcases hc with h | h | h <;> subst h <;> decide
  | cons y w =>
    have hxy : x = y := by simpa using hx.symm
    subst hxy
    have hy : isspace x = true := blank_iff.1 hw x (by simp)
    simp only [isspace, Bool.or_eq_true, beq_iff_eq, Bool.and_eq_true, decide_eq_true_eq] at hy
    have h1 : isdigit x = false := by simp [isdigit]; omega
    have h2 : tolower x = x := by unfold tolower; rw [if_neg (by omega)]
    refine ⟨h1, by omega, by rw [h2]; omega, by rw [h2]; omega⟩

/-- `ParseValue` at `"`: the quote is consumed, the string is scanned and stored. -/
theorem ParseValue_quote (n : Nat) (p q : Parser) (h : p.NextNonSpaceChar = (34, q)) :
    ParseValue (n + 1) p =
      match q.advance.ParseString with
      | .error e => .error e
      | .ok (str, p) => p.AddString str := by
  rw [ParseValue]
  simp only [h]
  rfl

/-- `ParseValue` at `\x7b`: the brace is consumed and the object loop runs. -/
theorem ParseValue_object (n : Nat) (p q : Parser) (h : p.NextNonSpaceChar = (123, q)) :
    ParseValue (n + 1) p =
      ObjectLoop (ParseValue n) (q.advance.size_ - q.advance.offset_ + 1) q.advance [] := by
  rw [ParseValue]
  simp only [h]
  rfl

/-- `ParseValue` at a string literal, possibly after white space. -/
theorem ParseValue_string_at (n : Nat) {p : Parser} {buf w raw rest : List Nat}
    (h : At p buf (w ++ 34 :: (raw ++ 34 :: rest))) (hw : blank w = true)
    (hraw : wellEscaped raw = true) (hint : buf.length < INT_LIMIT)
    (hcap : p.strs_.mem_.length ≤ VALUE_INDEX_MASK) :
    ∃ q, ParseValue (n + 1) p = .ok (Value.pack Value.STRING p.strs_.mem_.length, q) ∧
      Step p q (w ++ 34 :: (raw ++ [34])).length [(p.offset_ + w.length + 1, raw.length)]
        [] [] [] := by
  obtain ⟨q0, hnn, hs0, hat0⟩ := token_at h hw (by decide)
  obtain ⟨q1, hps, hs1⟩ := ParseString_at hat0 hint hraw
  have hat1 : At q1 buf rest := by
    have : At q0.advance buf ((raw ++ [34]) ++ rest) := by simpa using hat0
    exact this.step hs1
  have hvalid : q1.IsValidString (q0.advance.offset_, raw.length) = true := by
    unfold IsValidString
    have := hat0.lt_of_append_cons
    simp only [decide_eq_true_eq]
    rw [hs1.size, hat0.size]
    omega
  have hcap1 : q1.strs_.mem_.length ≤ VALUE_INDEX_MASK := by
    rw [hs1.strs, hs0.strs]; simpa using hcap
  have hlen : q1.strs_.mem_.length = p.strs_.mem_.length := by
    rw [hs1.strs, hs0.strs]; simp
  have hoff : q0.advance.offset_ = p.offset_ + w.length + 1 := by
    rw [hs0.offset]; simp [Nat.add_assoc]
  refine ⟨{ q1 with strs_ := ⟨q1.strs_.mem_ ++ [(q0.advance.offset_, raw.length)]⟩ }, ?_, ?_⟩
  · rw [ParseValue_quote _ _ _ hnn, hps]
    simp only [AddString, hvalid, Bool.not_true, Bool.false_eq_true, if_false]
    rw [Arena.Add_ok _ _ hcap1]
    simp only [hlen, Value.make_ok Value.STRING _ (by decide) hcap]
    rfl
  · have hs := hs0.trans hs1
    refine ⟨hs.ptr, hs.size, ?_, ?_, ?_, ?_, ?_⟩
    · show q1.offset_ = _
      rw [hs.offset]; simp; omega
    · show q1.strs_.mem_ ++ _ = _
      rw [hs.strs, hoff]; simp
    · exact hs.nums
    · exact hs.arrays
    · exact hs.objects

/-! ## One iteration of the loops -/

theorem ArrayLoop_cons (pv : Parser → Except Fault (Value × Parser)) (f : Nat)
    (p q1 q2 : Parser) (acc : ValueArray) (v : Value) (hpv : pv p = .ok (v, q1))
    (hv : v.valid = true) (hnn : q1.NextNonSpaceChar = (44, q2)) :
    ArrayLoop pv (f + 1) p acc = ArrayLoop pv f q2.advance (acc ++ [v]) := by
  rw [ArrayLoop]
  simp only [hpv, hv, hnn]
  rfl

theorem ArrayLoop_last (pv : Parser → Except Fault (Value × Parser)) (f : Nat)
    (p q1 q2 : Parser) (acc : ValueArray) (v : Value) (hpv : pv p = .ok (v, q1))
    (hv : v.valid = true) (hnn : q1.NextNonSpaceChar = (93, q2))
    (hcap : q2.advance.arrays_.mem_.length ≤ VALUE_INDEX_MASK) :
    ArrayLoop pv (f + 1) p acc = .ok (Value.pack Value.ARRAY q2.advance.arrays_.mem_.length,
      { q2.advance with arrays_ := ⟨q2.advance.arrays_.mem_ ++ [acc ++ [v]]⟩ }) := by
  rw [ArrayLoop]
  simp only [hpv, hv, hnn]
  have : (if (93 : Nat) = 44 then ArrayLoop pv f q2.advance (acc ++ [v])
      else if (93 : Nat) = 93 then
        match q2.advance.arrays_.Add (acc ++ [v]) with
        | .error e => .error e
        | .ok (index, arrays) =>
          (Value.make Value.ARRAY index).map (fun v => (v, { q2.advance with arrays_ := arrays }))
      else .ok ({}, q2.PrintUnexpectedCh 93 .arraySeparator)) =
      (match q2.advance.arrays_.Add (acc ++ [v]) with
        | .error e => .error e
        | .ok (index, arrays) =>
          (Value.make Value.ARRAY index).map
            (fun v => (v, { q2.advance with arrays_ := arrays }))) := rfl
  refine Eq.trans ?_ (Eq.trans this ?_)
  · rfl
  · rw [Arena.Add_ok _ _ hcap]
    simp only [Value.make_ok Value.ARRAY _ (by decide) hcap]
    rfl

theorem ObjectLoop_cons (pv : Parser → Except Fault (Value × Parser)) (f : Nat)
    (p q1 q2 q3 q4 q5 : Parser) (acc : Object) (key : StringSpan) (v : Value) (str : List Nat)
    (h1 : p.NextNonSpaceChar = (34, q1)) (h2 : q1.advance.ParseString = .ok (key, q2))
    (h3 : q2.IsValidString key = true) (h4 : q2.NextNonSpaceChar = (58, q3))
    (h5 : pv q3.advance = .ok (v, q4)) (hv : v.valid = true)
    (h6 : q4.AsStringSpan key = .ok str)
    (h7 : (q4.AsStringPiece str).2.NextNonSpaceChar = (44, q5)) :
    ObjectLoop pv (f + 1) p acc = ObjectLoop pv f q5.advance (acc ++ [(str, v)]) := by
  have hk := (AsStringPiece_step q4 str).1
  rw [ObjectLoop]
  simp only [h1, h2, h3, h4, h5, hv, h6, h7, hk]
  rfl

theorem ObjectLoop_last (pv : Parser → Except Fault (Value × Parser)) (f : Nat)
    (p q1 q2 q3 q4 q5 : Parser) (acc : Object) (key : StringSpan) (v : Value) (str : List Nat)
    (h1 : p.NextNonSpaceChar = (34, q1)) (h2 : q1.advance.ParseString = .ok (key, q2))
    (h3 : q2.IsValidString key = true) (h4 : q2.NextNonSpaceChar = (58, q3))
    (h5 : pv q3.advance = .ok (v, q4)) (hv : v.valid = true)
    (h6 : q4.AsStringSpan key = .ok str)
    (h7 : (q4.AsStringPiece str).2.NextNonSpaceChar = (125, q5))
    (hcap : q5.advance.objects_.mem_.length ≤ VALUE_INDEX_MASK) :
    ObjectLoop pv (f + 1) p acc = .ok (Value.pack Value.OBJECT q5.advance.objects_.mem_.length,
      { q5.advance with objects_ := ⟨q5.advance.objects_.mem_ ++ [acc ++ [(str, v)]]⟩ }) := by
  have hk := (AsStringPiece_step q4 str).1
  rw [ObjectLoop]
  simp only [h1, h2, h3, h4, h5, hv, h6, h7, hk]
  refine Eq.trans (b := (match q5.advance.objects_.Add (acc ++ [(str, v)]) with
        | .error e => .error e
        | .ok (index, objects) =>
          (Value.make Value.OBJECT index).map
            (fun v => (v, { q5.advance with objects_ := objects }))))  rfl ?_
  rw [Arena.Add_ok _ _ hcap]
  simp only [Value.make_ok Value.OBJECT _ (by decide) hcap]
  rfl

/-! ## Every well-formed JSON text is parsed to a handle that stands for it -/

theorem At.reaches_at {p q : Parser} {buf xs ys : List Nat} (h : At p buf (xs ++ ys))
    (hs : Reaches p q xs.length) : At q buf ys := by
  obtain ⟨s, n, a, o, hs⟩ := hs
  exact h.step hs

theorem mask_of_lt {x o len : Nat} (hx : x ≤ o) (ho : o < len) (hl : len ≤ 2 ^ 29) :
    x ≤ VALUE_INDEX_MASK := by
  rw [VALUE_INDEX_MASK_eq]; omega

theorem Cap.step_cap {p q : Parser} {k : Nat} {s : List StringSpan} {n : List Double}
    {a : List ValueArray} {o : List Object} (hc : Cap p) (hs : Step p q k s n a o)
    (h1 : s.length ≤ k) (h2 : n.length ≤ k) (h3 : a.length ≤ k) (h4 : o.length ≤ k) : Cap q := by
  refine ⟨?_, ?_, ?_, ?_⟩
  · rw [hs.strs, hs.offset, List.length_append]; have := hc.strs; omega
  · rw [hs.nums, hs.offset, List.length_append]; have := hc.nums; omega
  · rw [hs.arrays, hs.offset, List.length_append]; have := hc.arrays; omega
  · rw [hs.objects, hs.offset, List.length_append]; have := hc.objects; omega

theorem Json.Holds_valid (j : Json) {p : Parser} {v : Value} (h : j.Holds p v) :
    v.valid = true := by
  cases j <;> simp only [Json.Holds] at h <;> exact h.1

theorem holds_num {p q : Parser} {k : Nat} {x : Double}
    (hs : Step p q k [] [x] [] []) (hcap : p.nums_.mem_.length ≤ VALUE_INDEX_MASK) :
    q.AsNumber (Value.pack Value.NUMBER p.nums_.mem_.length) = .ok x := by
  unfold AsNumber
  rw [if_neg (by rw [Value.type_pack _ _ hcap]; simp), Value.index_pack _ _ hcap]
  exact Arena.Get_of_eq _ _ _ _ hs.nums (by simp)

/-- The decoder on the span of a well escaped text of the buffer. -/
theorem AsStringSpan_of_drop {p : Parser} {buf : List Nat} (hptr : p.ptr_ = some buf) (o : Nat)
    (raw rest : List Nat) (hdrop : buf.drop o = raw ++ rest) (hint : buf.length < INT_LIMIT)
    (hraw : wellEscaped raw = true) : p.AsStringSpan (o, raw.length) = .ok (unescape raw) := by
  have hlen := congrArg List.length hdrop
  simp only [List.length_drop, List.length_append] at hlen
  have hlt : ¬ INT_LIMIT ≤ raw.length := by omega
  simp only [AsStringSpan, hlt, if_false]
  rw [spanBytes_eq hptr o raw rest hdrop, AsStringLoop_wellEscaped raw [] hraw]
  simp

theorem holds_str {p q : Parser} {k o : Nat} {buf raw rest : List Nat}
    (hs : Step p q k [(o, raw.length)] [] [] []) (hcap : p.strs_.mem_.length ≤ VALUE_INDEX_MASK)
    (hptr : q.ptr_ = some buf) (hdrop : buf.drop o = raw ++ rest)
    (hint : buf.length < INT_LIMIT) (hraw : wellEscaped raw = true) :
    q.AsString (Value.pack Value.STRING p.strs_.mem_.length) = .ok (unescape raw) := by
  unfold AsString
  rw [if_neg (by rw [Value.type_pack _ _ hcap]; simp), Value.index_pack _ _ hcap,
    Arena.Get_of_eq _ _ _ (o, raw.length) hs.strs (by simp)]
  exact AsStringSpan_of_drop hptr o raw rest hdrop hint hraw

theorem At.length_eq {p : Parser} {buf rest : List Nat} (h : At p buf rest) (hne : rest ≠ []) :
    p.offset_ + rest.length = buf.length := by
  rcases h.offset_add with h1 | ⟨h1, -⟩
  · exact h1
  · exact absurd h1 hne

theorem holds_array {q : Parser} {a : ValueArray}
    (hcap : q.arrays_.mem_.length ≤ VALUE_INDEX_MASK) :
    Step q { q with arrays_ := ⟨q.arrays_.mem_ ++ [a]⟩ } 0 [] [] [a] [] ∧
    (Value.pack Value.ARRAY q.arrays_.mem_.length).valid = true ∧
    (Value.pack Value.ARRAY q.arrays_.mem_.length).type = Value.ARRAY ∧
    ({ q with arrays_ := ⟨q.arrays_.mem_ ++ [a]⟩ } : Parser).arrays_.Get
      (Value.pack Value.ARRAY q.arrays_.mem_.length).index = .ok a := by
  refine ⟨⟨rfl, rfl, rfl, by simp, by simp, rfl, by simp⟩, Value.valid_pack _ _ (by decide) hcap,
    Value.type_pack _ _ hcap, ?_⟩
  rw [Value.index_pack _ _ hcap]
  exact Arena.Get_of_eq _ _ _ _ rfl (by simp)

theorem holds_object {q : Parser} {o : Object}
    (hcap : q.objects_.mem_.length ≤ VALUE_INDEX_MASK) :
    Step q { q with objects_ := ⟨q.objects_.mem_ ++ [o]⟩ } 0 [] [] [] [o] ∧
    (Value.pack Value.OBJECT q.objects_.mem_.length).valid = true ∧
    (Value.pack Value.OBJECT q.objects_.mem_.length).type = Value.OBJECT ∧
    ({ q with objects_ := ⟨q.objects_.mem_ ++ [o]⟩ } : Parser).objects_.Get
      (Value.pack Value.OBJECT q.objects_.mem_.length).index = .ok o := by
  refine ⟨⟨rfl, rfl, rfl, by simp, by simp, by simp, rfl⟩, Value.valid_pack _ _ (by decide) hcap,
    Value.type_pack _ _ hcap, ?_⟩
  rw [Value.index_pack _ _ hcap]
  exact Arena.Get_of_eq _ _ _ _ rfl (by simp)

theorem pow29_lt_int : (2 : Nat) ^ 29 < INT_LIMIT := by decide

/-- One member of an object up to the byte `c` (`,` or `\x7d`) behind it: the key is
scanned and decoded, the value is parsed by `pv`. -/
theorem member_step (pv : Parser → Except Fault (Value × Parser))
    (buf w1 key w2 jt w3 : List Nat) (c : Nat) (tail : List Nat) (P : Parser → Value → Prop)
    (p : Parser)
    (hat : At p buf (w1 ++ 34 :: (key ++ 34 :: (w2 ++ 58 :: (jt ++ (w3 ++ c :: tail))))))
    (hw1 : blank w1 = true) (hkey : wellEscaped key = true) (hw2 : blank w2 = true)
    (hw3 : blank w3 = true) (hc : isspace c = false) (hbuf : buf.length ≤ 2 ^ 29)
    (hcap : Cap p)
    (hj : ∀ p2, At p2 buf (jt ++ (w3 ++ c :: tail)) → Cap p2 →
      ∃ v q, pv p2 = .ok (v, q) ∧ Reaches p2 q jt.length ∧ Cap q ∧ v.valid = true ∧ P q v) :
    ∃ q1 q2 q3 q4 q5 kspan v,
      p.NextNonSpaceChar = (34, q1) ∧ q1.advance.ParseString = .ok (kspan, q2) ∧
      q2.IsValidString kspan = true ∧ q2.NextNonSpaceChar = (58, q3) ∧
      pv q3.advance = .ok (v, q4) ∧ v.valid = true ∧
      q4.AsStringSpan kspan = .ok (unescape key) ∧
      (q4.AsStringPiece (unescape key)).2.NextNonSpaceChar = (c, q5) ∧
      Reaches p q4 (w1 ++ 34 :: (key ++ 34 :: (w2 ++ 58 :: jt))).length ∧ Cap q4 ∧ P q4 v ∧
      Step q4 q5.advance (w3 ++ [c]).length [] [] [] [] ∧ At q5.advance buf tail ∧
      q4.offset_ + w3.length < buf.length := by
  have hint : buf.length < INT_LIMIT := lt_of_le_of_lt hbuf pow29_lt_int
  obtain ⟨q1, h1, hs1, hatA⟩ := token_at hat hw1 (by decide)
  obtain ⟨q2, h2, hs2⟩ := ParseString_at hatA hint hkey
  have hatB : At q2 buf (w2 ++ 58 :: (jt ++ (w3 ++ c :: tail))) := by
    have : At q1.advance buf ((key ++ [34]) ++ (w2 ++ 58 :: (jt ++ (w3 ++ c :: tail)))) := by
      simpa using hatA
    exact this.step hs2
  have h3 : q2.IsValidString (q1.advance.offset_, key.length) = true := by
    unfold IsValidString
    have := hatA.lt_of_append_cons
    simp only [decide_eq_true_eq]
    rw [hs2.size, hatA.size]
    omega
  obtain ⟨q3, h4, hs3, hatC⟩ := token_at hatB hw2 (by decide)
  have hs13 := (hs1.trans hs2).trans hs3
  have hcap3 : Cap q3.advance := hcap.step_cap hs13 (by simp) (by simp) (by simp) (by simp)
  obtain ⟨v, q4, h5, hr4, hc4, hv, hP⟩ := hj q3.advance hatC hcap3
  have hatD : At q4 buf (w3 ++ c :: tail) := hatC.reaches_at hr4
  have h6 : q4.AsStringSpan (q1.advance.offset_, key.length) = .ok (unescape key) :=
    AsStringSpan_of_drop hatD.ptr _ key _ hatA.rest (lt_of_le_of_lt hbuf pow29_lt_int) hkey
  have hs4 := (AsStringPiece_step q4 (unescape key)).2
  have hatE : At (q4.AsStringPiece (unescape key)).2 buf (w3 ++ c :: tail) :=
    At.step (x := []) hatD hs4
  obtain ⟨q5, h7, hs5, hatF⟩ := token_at hatE hw3 hc
  refine ⟨q1, q2, q3, q4, q5, _, v, h1, h2, h3, h4, h5, hv, h6, h7,
    (hs13.reaches.trans_reaches hr4).cast_reaches (by simp; omega), hc4, hP,
    (hs4.trans hs5).cast (by simp) rfl rfl rfl rfl, hatF, hatD.lt_of_append_cons⟩

mutual
/-- `ParseValue` on a well-formed JSON text returns a handle that stands for it. -/
theorem Json.parse (j : Json) (n : Nat) (p : Parser) (buf rest : List Nat)
    (hwf : j.wf = true) (hat : At p buf (j.text ++ rest))
    (hend : j.isNum = true → EndsNumber rest) (hd : j.depth ≤ n) (hbuf : buf.length ≤ 2 ^ 29) (hcap : Cap p) :
    ∃ v q, ParseValue (n + 1) p = .ok (v, q) ∧ Reaches p q j.text.length ∧ Cap q ∧
      j.Holds q v := by
  match j with
  | .num w ds =>
    simp only [Json.wf, Bool.and_eq_true, Bool.not_eq_true', List.isEmpty_eq_false,
      List.all_eq_true] at hwf
    obtain ⟨⟨hw, hne⟩, hdig⟩ := hwf
    have hat2 : At p buf (w ++ (ds ++ rest)) := by simpa [Json.text] using hat
    have hlen := hat2.length_eq (by simp [hne])
    have hdl : 0 < ds.length := List.length_pos.2 hne
    simp only [List.length_append] at hlen
    have hm : p.nums_.mem_.length ≤ VALUE_INDEX_MASK :=
      mask_of_lt hcap.nums (by omega) hbuf
    obtain ⟨q, hpv, hs⟩ := ParseValue_number_at n hat2 (blank_iff.1 hw) hne hdig (hend rfl) hm
    refine ⟨_, q, hpv, hs.reaches, hcap.step_cap hs (by simp) (by simp; omega) (by simp) (by simp), ?_⟩
    simp only [Json.Holds]
    refine ⟨Value.valid_pack _ _ (by decide) hm, Value.type_pack _ _ hm, ?_⟩
    rw [holds_num hs hm, literalValue, decimalValue_eq_ofDigits]
  | .str w raw =>
    simp only [Json.wf, Bool.and_eq_true] at hwf
    obtain ⟨hw, hraw⟩ := hwf
    have hat2 : At p buf (w ++ 34 :: (raw ++ 34 :: rest)) := by simpa [Json.text] using hat
    have hlen := hat2.length_eq (by simp)
    simp only [List.length_append, List.length_cons] at hlen
    have hm : p.strs_.mem_.length ≤ VALUE_INDEX_MASK :=
      mask_of_lt hcap.strs (by omega) hbuf
    have hint : buf.length < INT_LIMIT := lt_of_le_of_lt hbuf pow29_lt_int
    obtain ⟨q, hpv, hs⟩ := ParseValue_string_at n hat2 hw hraw hint hm
    refine ⟨_, q, hpv, hs.reaches,
      hcap.step_cap hs (by simp; omega) (by simp) (by simp) (by simp), ?_⟩
    simp only [Json.Holds]
    refine ⟨Value.valid_pack _ _ (by decide) hm, Value.type_pack _ _ hm, ?_⟩
    have hdrop : buf.drop (p.offset_ + w.length + 1) = raw ++ 34 :: rest := by
      have h2 : buf.drop p.offset_ = (w ++ [34]) ++ (raw ++ 34 :: rest) := by
        simpa using hat2.rest
      have := drop_add_of_drop h2
      simpa [Nat.add_assoc] using this
    exact holds_str hs hm (hs.ptr.trans hat2.ptr) hdrop hint hraw
  | .arr w items =>
    simp only [Json.wf, Bool.and_eq_true] at hwf
    obtain ⟨hw, hitems⟩ := hwf
    have hat2 : At p buf (w ++ 91 :: (items.text ++ rest)) := by simpa [Json.text] using hat
    obtain ⟨q0, hnn, hs0, hat0⟩ := token_at hat2 hw (by decide)
    obtain ⟨m, rfl⟩ : ∃ m, n = m + 1 := ⟨n - 1, by simp only [Json.depth] at hd; omega⟩
    have hrem := hat0.remaining
    simp only [List.length_append] at hrem
    obtain ⟨v, q, vs, hloop, hr, hc, hv, ht, hget, hh⟩ := Items.parse_items items m q0.advance buf rest
      [] (q0.advance.size_ - q0.advance.offset_ + 1) hitems hat0
      (by simp only [Json.depth] at hd; omega) hbuf (hcap.mono_cap hs0) (by omega)
    refine ⟨v, q, by rw [ParseValue_array _ _ _ hnn]; exact hloop,
      (hs0.reaches.trans_reaches hr).cast_reaches (by simp [Json.text]; omega), hc, ?_⟩
    simp only [Json.Holds]
    exact ⟨hv, ht, vs, by simpa using hget, hh⟩
  | .obj w members =>
    simp only [Json.wf, Bool.and_eq_true] at hwf
    obtain ⟨hw, hmem⟩ := hwf
    have hat2 : At p buf (w ++ 123 :: (members.text ++ rest)) := by simpa [Json.text] using hat
    obtain ⟨q0, hnn, hs0, hat0⟩ := token_at hat2 hw (by decide)
    obtain ⟨m, rfl⟩ : ∃ m, n = m + 1 := ⟨n - 1, by simp only [Json.depth] at hd; omega⟩
    have hrem := hat0.remaining
    simp only [List.length_append] at hrem
    obtain ⟨v, q, kvs, hloop, hr, hc, hv, ht, hget, hh⟩ := Members.parse_members members m q0.advance buf
      rest [] (q0.advance.size_ - q0.advance.offset_ + 1) hmem hat0
      (by simp only [Json.depth] at hd; omega) hbuf (hcap.mono_cap hs0) (by omega)
    refine ⟨v, q, by rw [ParseValue_object _ _ _ hnn]; exact hloop,
      (hs0.reaches.trans_reaches hr).cast_reaches (by simp [Json.text]; omega), hc, ?_⟩
    simp only [Json.Holds]
    exact ⟨hv, ht, kvs, by simpa using hget, hh⟩
theorem Items.parse_items (items : Items) (n : Nat) (p : Parser) (buf rest : List Nat)
    (acc : ValueArray) (fuel : Nat) (hwf : items.wf = true)
    (hat : At p buf (items.text ++ rest)) (hd : items.depth ≤ n) (hbuf : buf.length ≤ 2 ^ 29)
    (hcap : Cap p) (hfuel : items.text.length < fuel) :
    ∃ v q vs, ArrayLoop (ParseValue (n + 1)) fuel p acc = .ok (v, q) ∧
      Reaches p q items.text.length ∧ Cap q ∧ v.valid = true ∧ v.type = Value.ARRAY ∧
      q.arrays_.Get v.index = .ok (acc ++ vs) ∧ items.Holds q vs := by
  match items with
  | .last j w =>
    simp only [Items.wf, Bool.and_eq_true] at hwf
    obtain ⟨hj, hw⟩ := hwf
    have hat2 : At p buf (j.text ++ (w ++ 93 :: rest)) := by simpa [Items.text] using hat
    obtain ⟨v, q1, hpv, hr1, hc1, hh1⟩ := Json.parse j n p buf (w ++ 93 :: rest) hj hat2
      (fun _ => EndsNumber_blank_cons w 93 rest hw (by simp)) (by simpa [Items.depth] using hd) hbuf hcap
    have hat1 : At q1 buf (w ++ 93 :: rest) := hat2.reaches_at hr1
    obtain ⟨q2, hnn, hs2, hat3⟩ := token_at hat1 hw (by decide)
    obtain ⟨f, rfl⟩ : ∃ f, fuel = f + 1 := ⟨fuel - 1, by omega⟩
    have hlt := hat1.lt_of_append_cons
    have hcapA : q2.advance.arrays_.mem_.length ≤ VALUE_INDEX_MASK := by
      rw [hs2.arrays]
      simpa using mask_of_lt hc1.arrays (by omega) hbuf
    obtain ⟨hs3, hv3, ht3, hg3⟩ := holds_array (q := q2.advance) (a := acc ++ [v]) hcapA
    have hs13 := hs2.trans hs3
    refine ⟨_, _, [v], ArrayLoop_last _ f p q1 q2 acc v hpv (j.Holds_valid hh1) hnn hcapA,
      (hr1.trans_reaches hs13.reaches).cast_reaches (by simp [Items.text]),
      hc1.step_cap hs13 (by simp) (by simp) (by simp) (by simp), hv3, ht3, hg3, ?_⟩
    simp only [Items.Holds]
    exact ⟨v, rfl, j.Holds_reaches hs13.reaches hh1⟩
  | .cons j w rest2 =>
    simp only [Items.wf, Bool.and_eq_true] at hwf
    obtain ⟨⟨hj, hw⟩, hrest⟩ := hwf
    have hat2 : At p buf (j.text ++ (w ++ 44 :: (rest2.text ++ rest))) := by
      simpa [Items.text] using hat
    obtain ⟨v, q1, hpv, hr1, hc1, hh1⟩ := Json.parse j n p buf (w ++ 44 :: (rest2.text ++ rest))
      hj hat2 (fun _ => EndsNumber_blank_cons w 44 _ hw (by simp))
      (by simp only [Items.depth] at hd; omega) hbuf hcap
    have hat1 : At q1 buf (w ++ 44 :: (rest2.text ++ rest)) := hat2.reaches_at hr1
    obtain ⟨q2, hnn, hs2, hat3⟩ := token_at hat1 hw (by decide)
    obtain ⟨f, rfl⟩ : ∃ f, fuel = f + 1 := ⟨fuel - 1, by omega⟩
    obtain ⟨v2, q, vs2, hloop, hr2, hc2, hv2, ht2, hg2, hh2⟩ := Items.parse_items rest2 n q2.advance buf
      rest (acc ++ [v]) f hrest hat3 (by simp only [Items.depth] at hd; omega) hbuf
      (hc1.mono_cap hs2) (by simp [Items.text] at hfuel; omega)
    refine ⟨v2, q, v :: vs2, ?_, ((hr1.trans_reaches hs2.reaches).trans_reaches hr2).cast_reaches
      (by simp [Items.text]; omega), hc2, hv2, ht2, by simpa using hg2, ?_⟩
    · rw [ArrayLoop_cons _ f p q1 q2 acc v hpv (j.Holds_valid hh1) hnn]
      exact hloop
    · simp only [Items.Holds]
      exact ⟨v, vs2, rfl, j.Holds_reaches (hs2.reaches.trans_reaches hr2) hh1, hh2⟩
theorem Members.parse_members (members : Members) (n : Nat) (p : Parser) (buf rest : List Nat)
    (acc : Object) (fuel : Nat) (hwf : members.wf = true)
    (hat : At p buf (members.text ++ rest)) (hd : members.depth ≤ n)
    (hbuf : buf.length ≤ 2 ^ 29) (hcap : Cap p) (hfuel : members.text.length < fuel) :
    ∃ v q kvs, ObjectLoop (ParseValue (n + 1)) fuel p acc = .ok (v, q) ∧
      Reaches p q members.text.length ∧ Cap q ∧ v.valid = true ∧ v.type = Value.OBJECT ∧
      q.objects_.Get v.index = .ok (acc ++ kvs) ∧ members.Holds q kvs := by
  match members with
  | .last w1 key w2 j w3 =>
    simp only [Members.wf, Bool.and_eq_true] at hwf
    obtain ⟨⟨⟨⟨hw1, hkey⟩, hw2⟩, hj⟩, hw3⟩ := hwf
    have hat2 : At p buf (w1 ++ 34 :: (key ++ 34 :: (w2 ++ 58 :: (j.text ++ (w3 ++ 125 :: rest)))))
      := by simpa [Members.text] using hat
    obtain ⟨q1, q2, q3, q4, q5, kspan, v, h1, h2, h3, h4, h5, hv, h6, h7, hr4, hc4, hh4, hs5,
      hatF, hlt⟩ := member_step (ParseValue (n + 1)) buf w1 key w2 j.text w3 125 rest
        (fun q v => j.Holds q v) p hat2 hw1 hkey hw2 hw3 (by decide) hbuf hcap
        (fun p2 hp2 hcap2 => by
          obtain ⟨v, q, e1, e2, e3, e4⟩ := Json.parse j n p2 buf (w3 ++ 125 :: rest) hj hp2
            (fun _ => EndsNumber_blank_cons w3 125 rest hw3 (by simp))
            (by simpa [Members.depth] using hd) hbuf hcap2
          exact ⟨v, q, e1, e2, e3, j.Holds_valid e4, e4⟩)
    obtain ⟨f, rfl⟩ : ∃ f, fuel = f + 1 := ⟨fuel - 1, by omega⟩
    have hcapO : q5.advance.objects_.mem_.length ≤ VALUE_INDEX_MASK := by
      rw [hs5.objects]
      simpa using mask_of_lt hc4.objects (by omega) hbuf
    obtain ⟨hs6, hv6, ht6, hg6⟩ := holds_object (q := q5.advance)
      (o := acc ++ [(unescape key, v)]) hcapO
    have hs46 := hs5.trans hs6
    refine ⟨_, _, [(unescape key, v)],
      ObjectLoop_last _ f p q1 q2 q3 q4 q5 acc kspan v _ h1 h2 h3 h4 h5 hv h6 h7 hcapO,
      (hr4.trans_reaches hs46.reaches).cast_reaches (by simp [Members.text]; omega),
      hc4.step_cap hs46 (by simp) (by simp) (by simp) (by simp), hv6, ht6, hg6, ?_⟩
    simp only [Members.Holds]
    exact ⟨v, rfl, j.Holds_reaches hs46.reaches hh4⟩
  | .cons w1 key w2 j w3 rest2 =>
    simp only [Members.wf, Bool.and_eq_true] at hwf
    obtain ⟨⟨⟨⟨⟨hw1, hkey⟩, hw2⟩, hj⟩, hw3⟩, hrest⟩ := hwf
    have hat2 : At p buf
        (w1 ++ 34 :: (key ++ 34 :: (w2 ++ 58 :: (j.text ++ (w3 ++ 44 :: (rest2.text ++ rest))))))
      := by simpa [Members.text] using hat
    obtain ⟨q1, q2, q3, q4, q5, kspan, v, h1, h2, h3, h4, h5, hv, h6, h7, hr4, hc4, hh4, hs5,
      hatF, hlt⟩ := member_step (ParseValue (n + 1)) buf w1 key w2 j.text w3 44
        (rest2.text ++ rest) (fun q v => j.Holds q v) p hat2 hw1 hkey hw2 hw3 (by decide) hbuf
        hcap
        (fun p2 hp2 hcap2 => by
          obtain ⟨v, q, e1, e2, e3, e4⟩ := Json.parse j n p2 buf
            (w3 ++ 44 :: (rest2.text ++ rest)) hj hp2
            (fun _ => EndsNumber_blank_cons w3 44 _ hw3 (by simp))
            (by simp only [Members.depth] at hd; omega) hbuf hcap2
          exact ⟨v, q, e1, e2, e3, j.Holds_valid e4, e4⟩)
    obtain ⟨f, rfl⟩ : ∃ f, fuel = f + 1 := ⟨fuel - 1, by omega⟩
    obtain ⟨v2, q, kvs2, hloop, hr2, hc2, hv2, ht2, hg2, hh2⟩ := Members.parse_members rest2 n q5.advance
      buf rest (acc ++ [(unescape key, v)]) f hrest hatF
      (by simp only [Members.depth] at hd; omega) hbuf (hc4.mono_cap hs5)
      (by simp [Members.text] at hfuel; omega)
    refine ⟨v2, q, (unescape key, v) :: kvs2, ?_, ((hr4.trans_reaches hs5.reaches).trans_reaches hr2).cast_reaches
      (by simp [Members.text]; omega), hc2, hv2, ht2, by simpa using hg2, ?_⟩
    · rw [ObjectLoop_cons _ f p q1 q2 q3 q4 q5 acc kspan v _ h1 h2 h3 h4 h5 hv h6 h7]
      exact hloop
    · simp only [Members.Holds]
      exact ⟨v, kvs2, rfl, j.Holds_reaches (hs5.reaches.trans_reaches hr2) hh4, hh2⟩
end

mutual
theorem Json.depth_lt (j : Json) : j.depth < j.text.length + 1 := by
  match j with
  | .num w ds => simp [Json.depth]
  | .str w raw => simp [Json.depth]
  | .arr w items =>
    have := Items.depth_lt_items items
    simp [Json.depth, Json.text]; omega
  | .obj w members =>
    have := Members.depth_lt_members members
    simp [Json.depth, Json.text]; omega
theorem Items.depth_lt_items (items : Items) : items.depth < items.text.length := by
  match items with
  | .last j w =>
    have := Json.depth_lt j
    simp [Items.depth, Items.text]; omega
  | .cons j w rest =>
    have := Json.depth_lt j
    have := Items.depth_lt_items rest
    simp [Items.depth, Items.text]; omega
theorem Members.depth_lt_members (members : Members) : members.depth < members.text.length := by
  match members with
  | .last w1 key w2 j w3 =>
    have := Json.depth_lt j
    simp [Members.depth, Members.text]; omega
  | .cons w1 key w2 j w3 rest =>
    have := Json.depth_lt j
    have := Members.depth_lt_members rest
    simp [Members.depth, Members.text]; omega
end

theorem reportSuperfluous_step (p : Parser) (v : Value) :
    Step p (p.reportSuperfluous v) 0 [] [] [] [] :=
  ⟨by simp, by simp, by simp, by simp, by simp, by simp, by simp⟩

theorem init_cap (buf : List Nat) : Cap (init.setBuffer buf buf.length) :=
  ⟨Nat.le_refl _, Nat.le_refl _, Nat.le_refl _, Nat.le_refl _⟩

/-- `ParseFromString` on a well-formed JSON text, followed by anything that does not
continue a number, returns a handle that stands for the text. -/
theorem ParseFromString_json (j : Json) (trail : List Nat) (hwf : j.wf = true)
    (hend : j.isNum = true → EndsNumber trail) (hsize : (j.text ++ trail).length ≤ 2 ^ 29) :
    ∃ v p, init.ParseFromString (j.text ++ trail) = .ok (v, p) ∧ j.Holds p v := by
  have hd : j.depth ≤ (j.text ++ trail).length := by
    have := j.depth_lt
    simp only [List.length_append]
    omega
  obtain ⟨v, q, hpv, hr, hc, hh⟩ := Json.parse j (j.text ++ trail).length
    (init.setBuffer (j.text ++ trail) (j.text ++ trail).length) (j.text ++ trail) trail hwf
    (setBuffer_at _) hend hd hsize (init_cap _)
  have hmax : (j.text ++ trail).length ≤ MAX_DATA_SIZE :=
    le_trans hsize (by decide)
  exact ⟨v, _, ParseFromString_eq _ hmax _ _ hpv,
    j.Holds_reaches (reportSuperfluous_step q v).reaches hh⟩

/-! ## Objects and their properties -/

theorem StringPiece.eq_iff (a b : List Nat) : StringPiece.eq a b = true ↔ a = b := by
  unfold StringPiece.eq
  induction a generalizing b with
  | nil =>
    cases b with
    | nil => simp
    | cons y b => simp
  | cons x a ih =>
    cases b with
    | nil => simp
    | cons y b =>
      have := ih b
      by_cases hl : a.length = b.length
      · simp only [hl, ne_eq, not_true_eq_false, if_false] at this
        simp only [List.length_cons, hl, ne_eq, not_true_eq_false, if_false, List.zip_cons_cons,
          List.all_cons, Bool.and_eq_true, beq_iff_eq, this, List.cons.injEq]
      · have hne : a ≠ b := fun h => hl (by rw [h])
        simp [hl, hne]

/-- `ObjectProp` scans the properties in order and returns the value of the first one
whose key is `name`, and the invalid value when there is none. -/
theorem ObjectPropLoop_eq_find (name : List Nat) (obj : Object) :
    ObjectPropLoop name obj =
      match obj.find? (fun kv => decide (kv.1 = name)) with
      | some kv => kv.2
      | none => ⟨0⟩ := by
  induction obj with
  | nil => rfl
  | cons kv rest ih =>
    unfold ObjectPropLoop
    by_cases h : kv.1 = name
    · rw [if_pos ((StringPiece.eq_iff _ _).2 h)]
      simp [List.find?, h]
    · rw [if_neg (fun hc => h ((StringPiece.eq_iff _ _).1 hc)), ih]
      simp [List.find?, h]

theorem Items.Holds_list (items : Items) (p : Parser) (vs : ValueArray)
    (h : items.Holds p vs) : List.Forall₂ (fun v j => Json.Holds p j v) vs items.toList := by
  match items with
  | .last j w =>
    simp only [Items.Holds] at h
    obtain ⟨v, rfl, hv⟩ := h
    exact List.Forall₂.cons hv List.Forall₂.nil
  | .cons j w rest =>
    simp only [Items.Holds] at h
    obtain ⟨v, vs2, rfl, hv, hr⟩ := h
    exact List.Forall₂.cons hv (Items.Holds_list rest p vs2 hr)

theorem Members.Holds_pairs (members : Members) (p : Parser) (kvs : Object)
    (h : members.Holds p kvs) :
    List.Forall₂ (fun kv m => kv.1 = unescape m.1 ∧ Json.Holds p m.2 kv.2) kvs
      members.toList := by
  match members with
  | .last w1 key w2 j w3 =>
    simp only [Members.Holds] at h
    obtain ⟨v, rfl, hv⟩ := h
    exact List.Forall₂.cons ⟨rfl, hv⟩ List.Forall₂.nil
  | .cons w1 key w2 j w3 rest =>
    simp only [Members.Holds] at h
    obtain ⟨v, kvs2, rfl, hv, hr⟩ := h
    exact List.Forall₂.cons ⟨rfl, hv⟩ (Members.Holds_pairs rest p kvs2 hr)

/-- An object literal parses to an `OBJECT` that keeps every pair in source order under its
decoded key; `ObjectProp` returns the value of the first pair with the key asked for. -/
theorem ParseFromString_object (w : List Nat) (members : Members) (trail : List Nat)
    (hwf : (Json.obj w members).wf = true)
    (hsize : ((Json.obj w members).text ++ trail).length ≤ 2 ^ 29) :
    ∃ root p kvs, init.ParseFromString ((Json.obj w members).text ++ trail) = .ok (root, p) ∧
      root.valid = true ∧ root.type = Value.OBJECT ∧
      p.objects_.Get root.index = .ok kvs ∧
      List.Forall₂ (fun kv m => kv.1 = unescape m.1 ∧ Json.Holds p m.2 kv.2) kvs
        members.toList ∧
      p.ObjectSize root = .ok members.toList.length ∧
      (∀ name, p.ObjectProp root name =
        .ok (match kvs.find? (fun kv => decide (kv.1 = name)) with
          | some kv => kv.2
          | none => ⟨0⟩)) ∧
      (∀ name, (∀ kv ∈ kvs, kv.1 ≠ name) →
        p.ObjectProp root name = .ok ⟨0⟩ ∧ (⟨0⟩ : Value).valid = false) := by
  obtain ⟨root, p, hres, hh⟩ := ParseFromString_json (Json.obj w members) trail hwf
    (fun h => by simp [Json.isNum] at h) hsize
  simp only [Json.Holds] at hh
  obtain ⟨hv, ht, kvs, hget, hm⟩ := hh
  have hl := Members.Holds_pairs members p kvs hm
  have hprop : ∀ name, p.ObjectProp root name =
      .ok (match kvs.find? (fun kv => decide (kv.1 = name)) with
        | some kv => kv.2
        | none => ⟨0⟩) := by
    intro name
    unfold ObjectProp
    rw [if_neg (by rw [ht]; simp), hget]
    simp only [Except.map, ObjectPropLoop_eq_find]
  refine ⟨root, p, kvs, hres, hv, ht, hget, hl, ?_, hprop, ?_⟩
  · unfold ObjectSize
    rw [if_neg (by rw [ht]; simp), hget]
    simp only [Except.map, hl.length_eq]
  · intro name hnone
    refine ⟨?_, by decide⟩
    rw [hprop, List.find?_eq_none.2 (by simpa using hnone)]

theorem unescape_plain (raw : List Nat) (h : plain raw = true) : unescape raw = raw := by
  induction raw with
  | nil => rfl
  | cons c rest ih =>
    simp only [plain, List.all_cons, Bool.and_eq_true, bne_iff_ne, ne_eq] at h
    have hr : plain rest = true := by simpa [plain] using h.2
    unfold unescape
    rw [if_neg h.1.2, ih hr]

/-- With pairwise distinct plain keys, looking a member's key up finds that member. -/
theorem find_of_nodup (p : Parser) :
    ∀ (kvs : Object) (ms : List (List Nat × Json)),
      List.Forall₂ (fun kv m => kv.1 = unescape m.1 ∧ Json.Holds p m.2 kv.2) kvs ms →
      (∀ m ∈ ms, plain m.1 = true) → (ms.map (·.1)).Nodup →
      ∀ m ∈ ms, ∃ kv, kvs.find? (fun kv => decide (kv.1 = m.1)) = some kv ∧
        Json.Holds p m.2 kv.2 := by
  intro kvs ms h
  induction h with
  | nil => intro _ _ m hm; simp at hm
  | @cons kv m0 kvs ms hhead _ ih =>
    intro hplain hnd m hm
    have hk : kv.1 = m0.1 := by rw [hhead.1, unescape_plain _ (hplain m0 (by simp))]
    simp only [List.map_cons, List.nodup_cons] at hnd
    rcases List.mem_cons.1 hm with rfl | hm2
    · exact ⟨kv, by simp [List.find?, hk], hhead.2⟩
    · have hne : kv.1 ≠ m.1 := by
        rw [hk]
        intro heq
        exact hnd.1 (heq ▸ List.mem_map_of_mem (·.1) hm2)
      obtain ⟨kv2, hf, hh⟩ := ih (fun x hx => hplain x (by simp [hx])) hnd.2 m hm2
      exact ⟨kv2, by simp [List.find?, hne, hf], hh⟩

theorem takeWhile_length_add (q : Nat → Bool) (xs : List Nat) :
    (xs.takeWhile q).length + (xs.dropWhile q).length = xs.length := by
  induction xs with
  | nil => rfl
  | cons x t ih =>
    by_cases h : q x = true
    · simp only [List.takeWhile_cons, List.dropWhile_cons, h, if_true, List.length_cons]
      omega
    · simp [List.takeWhile_cons, List.dropWhile_cons, h]

theorem length_of_head {xs : List Nat} {c : Nat} (h : xs.head? = some c) :
    xs.tail.length + 1 = xs.length := by
  cases xs with
  | nil => simp at h
  | cons x t => simp

theorem scanMantissa_le (digit : Nat → Bool) (xs ip fp : List Nat) (n : Nat) (rest : List Nat)
    (h : scanMantissa digit xs = some (ip, fp, n, rest)) : n + rest.length = xs.length := by
  have h1 := takeWhile_length_add digit xs
  simp only [scanMantissa] at h
  split_ifs at h with h46 hnone hnil
  · have h2 := length_of_head h46
    have h3 := takeWhile_length_add digit (xs.dropWhile digit).tail
    simp only [Option.some.injEq, Prod.mk.injEq] at h
    obtain ⟨-, -, rfl, rfl⟩ := h
    omega
  · simp only [Option.some.injEq, Prod.mk.injEq] at h
    obtain ⟨-, -, rfl, rfl⟩ := h
    omega

theorem scanSign_le (xs : List Nat) : (scanSign xs).2 ≤ xs.length := by
  unfold scanSign
  split_ifs with h1 h2
  · have := length_of_head h1; simp only; omega
  · have := length_of_head h2; simp only; omega
  · simp

theorem scanExponent_le (marker : Nat) (xs : List Nat) :
    (scanExponent marker xs).2 ≤ xs.length := by
  simp only [scanExponent]
  split_ifs with h1 h2 h3
  · simp
  · obtain ⟨c, hc⟩ : ∃ c, xs.head? = some c := by
      cases xs with
      | nil => simp at h1
      | cons x t => exact ⟨x, rfl⟩
    have := length_of_head hc
    have h4 := scanSign_le xs.tail
    have h5 : ((xs.tail.drop (scanSign xs.tail).2).takeWhile isdigit).length ≤
        (xs.tail.drop (scanSign xs.tail).2).length := by
      have := takeWhile_length_add isdigit (xs.tail.drop (scanSign xs.tail).2)
      omega
    simp only [List.length_drop] at h5
    simp only
    omega
  · obtain ⟨c, hc⟩ : ∃ c, xs.head? = some c := by
      cases xs with
      | nil => simp at h1
      | cons x t => exact ⟨x, rfl⟩
    have := length_of_head hc
    have h4 := scanSign_le xs.tail
    have h5 : ((xs.tail.drop (scanSign xs.tail).2).takeWhile isdigit).length ≤
        (xs.tail.drop (scanSign xs.tail).2).length := by
      have := takeWhile_length_add isdigit (xs.tail.drop (scanSign xs.tail).2)
      omega
    simp only [List.length_drop] at h5
    simp only
    omega
  · simp

theorem scanSpecial_le (neg : Bool) (xs : List Nat) (v : Double) (n : Nat)
    (h : scanSpecial neg xs = some (v, n)) : n ≤ xs.length := by
  simp only [scanSpecial] at h
  split_ifs at h with h1 h2 h3 h4
  · have := congrArg List.length h2
    simp only [List.length_take, List.length_drop, List.length_map, List.length_cons,
      List.length_nil] at this
    simp only [Option.some.injEq, Prod.mk.injEq] at h
    omega
  · have := congrArg List.length h1
    simp only [List.length_take, List.length_map, List.length_cons, List.length_nil] at this
    simp only [Option.some.injEq, Prod.mk.injEq] at h
    omega
  · have h5 := length_of_head h4.2
    have h6 := takeWhile_length_add isnchar (xs.drop 4)
    have h7 := length_of_head h4.1
    simp only [List.length_drop, List.length_tail] at h5 h6 h7
    simp only [Option.some.injEq, Prod.mk.injEq] at h
    omega
  · have := congrArg List.length h3
    simp only [List.length_take, List.length_map, List.length_cons, List.length_nil] at this
    simp only [Option.some.injEq, Prod.mk.injEq] at h
    omega

theorem scanHex_le (neg : Bool) (xs : List Nat) (v : Double) (n : Nat)
    (h : scanHex neg xs = some (v, n)) : n ≤ xs.length := by
  simp only [scanHex] at h
  split_ifs at h with h1
  have h2 := length_of_head h1.1
  obtain ⟨c, hc⟩ : ∃ c, xs.tail.head? = some c := by
    cases hx : xs.tail.head? with
    | none => rw [hx] at h1; simp at h1
    | some c => exact ⟨c, rfl⟩
  have h3 := length_of_head hc
  cases hm : scanMantissa isxdigit (xs.drop 2) with
  | none => rw [hm] at h; simp at h
  | some r =>
    obtain ⟨ip, fp, k, rest⟩ := r
    rw [hm] at h
    simp only [Option.some.injEq, Prod.mk.injEq] at h
    have h4 := scanMantissa_le _ _ _ _ _ _ hm
    have h5 := scanExponent_le 112 rest
    simp only [List.length_drop, List.length_tail] at h4 h3
    omega

theorem scanDecimal_le (neg : Bool) (xs : List Nat) (v : Double) (n : Nat)
    (h : scanDecimal neg xs = some (v, n)) : n ≤ xs.length := by
  simp only [scanDecimal] at h
  cases hm : scanMantissa isdigit xs with
  | none => rw [hm] at h; simp at h
  | some r =>
    obtain ⟨ip, fp, k, rest⟩ := r
    rw [hm] at h
    simp only [Option.some.injEq, Prod.mk.injEq] at h
    have h4 := scanMantissa_le _ _ _ _ _ _ hm
    have h5 := scanExponent_le 101 rest
    omega

theorem scanNumber_le (neg : Bool) (xs : List Nat) (v : Double) (n : Nat)
    (h : scanNumber neg xs = some (v, n)) : n ≤ xs.length := by
  simp only [scanNumber] at h
  cases h1 : scanHex neg xs with
  | some r =>
    rw [h1] at h
    simp only [Option.some.injEq] at h
    subst h
    exact scanHex_le _ _ _ _ h1
  | none =>
    rw [h1] at h
    cases h2 : scanDecimal neg xs with
    | some r =>
      rw [h2] at h
      simp only [Option.some.injEq] at h
      subst h
      exact scanDecimal_le _ _ _ _ h2
    | none =>
      rw [h2] at h
      exact scanSpecial_le _ _ _ _ h

/-- The end pointer of `strtod` is not beyond the terminating NUL. -/
theorem strtod_le (xs : List Nat) : (strtod xs).2 ≤ xs.length := by
  simp only [strtod]
  cases h : scanNumber (scanSign (xs.dropWhile isspace)).1
      ((xs.dropWhile isspace).drop (scanSign (xs.dropWhile isspace)).2) with
  | none => simp
  | some r =>
    obtain ⟨v, n⟩ := r
    have h1 := scanNumber_le _ _ _ _ h
    have h2 := takeWhile_length_add isspace xs
    have h3 := scanSign_le (xs.dropWhile isspace)
    simp only [List.length_drop] at h1
    simp only
    omega
/-! ## Every input is parsed to the end -/

theorem print_step (p : Parser) (d : Diagnostic) : Step p (p.print d) 0 [] [] [] [] :=
  ⟨rfl, rfl, rfl, by simp, by simp, by simp, by simp⟩

theorem PrintUnexpectedCh_step (p : Parser) (ch : Nat) (e : Expecting) :
    Step p (p.PrintUnexpectedCh ch e) 0 [] [] [] [] :=
  ⟨by simp, by simp, by simp, by simp, by simp, by simp, by simp⟩

theorem Inv.step_inv {buf : List Nat} {p q : Parser} {k : Nat} {s : List StringSpan}
    {n : List Double} {a : List ValueArray} {o : List Object} (hi : Inv buf p)
    (hs : Step p q k s n a o) (hk : p.offset_ + k ≤ buf.length)
    (h1 : s.length ≤ k) (h2 : n.length ≤ k) (h3 : a.length ≤ k) (h4 : o.length ≤ k) :
    Inv buf q :=
  ⟨hs.ptr.trans hi.ptr, hs.size.trans hi.size, by rw [hs.offset]; exact hk,
    hi.cap.step_cap hs h1 h2 h3 h4⟩

theorem Inv.frame {buf : List Nat} {p q : Parser} (hi : Inv buf p)
    (hs : Step p q 0 [] [] [] []) : Inv buf q :=
  hi.step_inv hs (by have := hi.le; omega) (by simp) (by simp) (by simp) (by simp)

/-- What `NextNonSpaceChar` gives: the cursor moves over `k` bytes, and then the byte under
the cursor is returned, or `0` at the end of the buffer. -/
theorem NextNonSpaceChar_cases {buf : List Nat} {p : Parser} (hptr : p.ptr_ = some buf)
    (hsz : p.size_ = buf.length) (hle : p.offset_ ≤ buf.length) :
    ∃ k, Step p p.NextNonSpaceChar.2 k [] [] [] [] ∧
      ((p.offset_ + k < buf.length ∧ p.NextNonSpaceChar.1 = buf.getD (p.offset_ + k) 0 ∧
          isspace p.NextNonSpaceChar.1 = false) ∨
        (p.offset_ + k = buf.length ∧ p.NextNonSpaceChar.1 = 0)) := by
  obtain ⟨o, l, c, heq, h1, h2, -, h4⟩ := NextNonSpaceChar_spec p
  have ho : o ≤ buf.length := by rw [← hsz]; exact h2 (by rw [hsz]; exact hle)
  refine ⟨o - p.offset_, ?_, ?_⟩
  · rw [heq]
    exact ⟨rfl, rfl, by simp; omega, by simp, by simp, by simp, by simp⟩
  · have hoo : p.offset_ + (o - p.offset_) = o := by omega
    rw [hoo]
    rcases h4 with ⟨h5, h6, h7⟩ | ⟨h5, h6⟩
    · left
      exact ⟨by rw [← hsz]; exact h5, by rw [h6, byteAt_eq hptr], h7⟩
    · right
      exact ⟨by rw [hsz] at h5; omega, h6⟩

theorem getD_mem {buf : List Nat} {i : Nat} (h : i < buf.length) : buf.getD i 0 ∈ buf := by
  rw [List.getD_eq_getElem _ _ h]
  exact List.getElem_mem h

/-- `ParseBoolOrNumber` returns, and keeps the invariant: a number is stored only after a
byte was consumed. -/
theorem ParseBoolOrNumber_total {buf : List Nat} {p : Parser} (hi : Inv buf p)
    (hbuf : buf.length ≤ 2 ^ 29) (hlt : p.offset_ < buf.length)
    (hstrict : p.nums_.mem_.length < p.offset_ ∨ p.offset_ = 0) :
    ∃ v q, p.ParseBoolOrNumber = .ok (v, q) ∧ Inv buf q ∧ p.offset_ ≤ q.offset_ := by
  have h1 : (1 : Nat) ≤ VALUE_INDEX_MASK := by decide
  have h0 : (0 : Nat) ≤ VALUE_INDEX_MASK := by decide
  unfold ParseBoolOrNumber
  split_ifs with ht hf
  · rw [Value.make_ok Value.BOOL 1 (by decide) h1]
    exact ⟨_, _, rfl, hi, Nat.le_refl _⟩
  · rw [Value.make_ok Value.BOOL 0 (by decide) h0]
    exact ⟨_, _, rfl, hi, Nat.le_refl _⟩
  · have hle := strtod_le (p.bytesFrom p.offset_)
    rw [bytesFrom_eq hi.ptr, List.length_drop] at hle
    simp only []
    split_ifs with hend
    · exact ⟨_, _, rfl, hi.frame (PrintUnexpectedCh_step _ _ _), by simp⟩
    · have hcap : p.nums_.mem_.length ≤ VALUE_INDEX_MASK :=
        mask_of_lt hi.cap.nums hlt hbuf
      simp only [Arena.Add_ok _ _ hcap, Value.make_ok Value.NUMBER _ (by decide) hcap,
        Except.map]
      refine ⟨_, _, rfl, ?_, by simp⟩
      have hc := hi.cap
      have hc1 := hc.strs
      have hc2 := hc.nums
      have hc3 := hc.arrays
      have hc4 := hc.objects
      rw [bytesFrom_eq hi.ptr] at hend ⊢
      refine ⟨hi.ptr, hi.size, ?_, ⟨?_, ?_, ?_, ?_⟩⟩
      · show p.offset_ + _ ≤ buf.length
        omega
      · show p.strs_.mem_.length ≤ p.offset_ + _
        omega
      · show (p.nums_.mem_ ++ [_]).length ≤ p.offset_ + _
        simp only [List.length_append, List.length_cons, List.length_nil]
        omega
      · show p.arrays_.mem_.length ≤ p.offset_ + _
        omega
      · show p.objects_.mem_.length ≤ p.offset_ + _
        omega
theorem closing_some : ∀ (rest : List Nat) (k : Nat), closing rest = some k →
    ∃ raw r, rest = raw ++ 34 :: r ∧ wellEscaped raw = true ∧ raw.length = k := by
  intro rest
  induction rest using closing.induct with
  | case1 => intro k h; simp [closing] at h
  | case2 => intro k h; simp [closing] at h
  | case3 c rest2 ih =>
    intro k h
    simp only [closing, if_true, Option.map_eq_some'] at h
    obtain ⟨k2, hk, rfl⟩ := h
    obtain ⟨raw, r, rfl, hw, rfl⟩ := ih k2 hk
    exact ⟨92 :: c :: raw, r, rfl, by simp [wellEscaped, hw], rfl⟩
  | case4 rest hc =>
    intro k h
    unfold closing at h
    simp only [hc, if_false, if_true, Option.some.injEq] at h
    exact ⟨[], rest, rfl, rfl, h⟩
  | case5 c rest hc hq ih =>
    intro k h
    unfold closing at h
    simp only [hc, hq, if_false, Option.map_eq_some'] at h
    obtain ⟨k2, hk, rfl⟩ := h
    obtain ⟨raw, r, rfl, hw, rfl⟩ := ih k2 hk
    refine ⟨c :: raw, r, rfl, ?_, rfl⟩
    unfold wellEscaped
    simp only [hc, hq, if_false, hw]

/-- Without a closing quote `ParseString` runs to the end of the buffer and gives the span
that `IsValidString` rejects. -/
theorem ParseStringLoop_none (buf : List Nat) (p : Parser) (hptr : p.ptr_ = some buf)
    (hsz : p.size_ = buf.length) (hint : buf.length < INT_LIMIT) :
    ∀ (rest : List Nat) (i n : Nat), closing rest = none → buf.drop i = rest →
      ParseStringLoop n false i p = .ok ((p.size_, 0), p.print .eofInString) := by
  intro rest
  induction rest using closing.induct with
  | case1 =>
    intro i n _ hd
    have hge : ¬ i < p.size_ := by
      rw [hsz]
      have := congrArg List.length hd
      simp only [List.length_drop, List.length_nil] at this
      omega
    cases n with
    | zero => rfl
    | succ m => simp only [ParseStringLoop, hge, if_false]
  | case2 =>
    intro i n _ hd
    obtain ⟨h1, h2, h3⟩ := drop_cons_getD hd
    have hb : p.byteAt i = 92 := by rw [byteAt_eq hptr, h1]
    have hi : i < p.size_ := by rw [hsz]; exact h2
    have hge : ¬ i + 1 < p.size_ := by
      rw [hsz]
      have := congrArg List.length h3
      simp only [List.length_drop, List.length_nil] at this
      omega
    have hl : ¬ INT_LIMIT ≤ i := by omega
    have hl1 : i + 1 < INT_LIMIT := by omega
    cases n with
    | zero => rfl
    | succ m =>
      cases m with
      | zero => simp [ParseStringLoop, hb, hi, hl, hl1]
      | succ m2 => simp [ParseStringLoop, hb, hi, hl, hl1, hge]
  | case3 c rest2 ih =>
    intro i n h hd
    simp only [closing, if_true, Option.map_eq_none'] at h
    obtain ⟨h1, h2, h3⟩ := drop_cons_getD hd
    obtain ⟨h4, h5, h6⟩ := drop_cons_getD h3
    have hb : p.byteAt i = 92 := by rw [byteAt_eq hptr, h1]
    have hi : i < p.size_ := by rw [hsz]; exact h2
    have hi2 : i + 1 < p.size_ := by rw [hsz]; exact h5
    have hl : ¬ INT_LIMIT ≤ i := by omega
    have hl1 : i + 1 < INT_LIMIT := by omega
    have hl2 : i + 1 + 1 < INT_LIMIT := by omega
    cases n with
    | zero => rfl
    | succ m =>
      cases m with
      | zero => simp [ParseStringLoop, hb, hi, hl, hl1]
      | succ m2 =>
        have := ih (i + 1 + 1) m2 h h6
        simp [ParseStringLoop, hb, hi, hi2, hl, hl1, hl2, this]
  | case4 rest hc =>
    intro i n h
    unfold closing at h
    simp [hc] at h
  | case5 c rest hc hq ih =>
    intro i n h hd
    unfold closing at h
    simp only [hc, hq, if_false, Option.map_eq_none'] at h
    obtain ⟨h1, h2, h3⟩ := drop_cons_getD hd
    have hb : p.byteAt i = c := by rw [byteAt_eq hptr, h1]
    have hi : i < p.size_ := by rw [hsz]; exact h2
    have hl : ¬ INT_LIMIT ≤ i := by omega
    have hl1 : i + 1 < INT_LIMIT := by omega
    cases n with
    | zero => rfl
    | succ m =>
      have := ih (i + 1) m h h3
      simp [ParseStringLoop, hb, hi, hl, hl1, hc, hq, this]

/-- `ParseString` returns: the span of a well escaped text and the cursor behind its closing
quote, or else the span that `IsValidString` rejects. -/
theorem ParseString_total {buf : List Nat} {p : Parser} (hptr : p.ptr_ = some buf)
    (hsz : p.size_ = buf.length) (hint : buf.length < INT_LIMIT) :
    (∃ raw r q, buf.drop p.offset_ = raw ++ 34 :: r ∧ wellEscaped raw = true ∧
      p.ParseString = .ok ((p.offset_, raw.length), q) ∧
      Step p q (raw.length + 1) [] [] [] []) ∨
    p.ParseString = .ok ((p.size_, 0), p.print .eofInString) := by
  cases h : closing (buf.drop p.offset_) with
  | none =>
    right
    exact ParseStringLoop_none buf p hptr hsz hint _ _ _ h rfl
  | some k =>
    left
    obtain ⟨raw, r, hd, hw, -⟩ := closing_some _ _ h
    obtain ⟨q, hq, hs⟩ := ParseString_at (p := p) ⟨hptr, hsz, hd⟩ hint hw
    exact ⟨raw, r, q, hd, hw, hq, by simpa using hs⟩
/-! ## The other ways out of an iteration -/

theorem ArrayLoop_error (pv : Parser → Except Fault (Value × Parser)) (f : Nat) (p : Parser)
    (acc : ValueArray) (e : Fault) (hpv : pv p = .error e) :
    ArrayLoop pv (f + 1) p acc = .error e := by
  rw [ArrayLoop]
  simp only [hpv]

theorem ArrayLoop_invalid (pv : Parser → Except Fault (Value × Parser)) (f : Nat)
    (p q1 : Parser) (acc : ValueArray) (v : Value) (hpv : pv p = .ok (v, q1))
    (hv : v.valid = false) : ArrayLoop pv (f + 1) p acc = .ok (v, q1) := by
  rw [ArrayLoop]
  simp only [hpv, hv]
  rfl

theorem ArrayLoop_other (pv : Parser → Except Fault (Value × Parser)) (f : Nat)
    (p q1 q2 : Parser) (acc : ValueArray) (v : Value) (c : Nat) (hpv : pv p = .ok (v, q1))
    (hv : v.valid = true) (hnn : q1.NextNonSpaceChar = (c, q2)) (h44 : c ≠ 44) (h93 : c ≠ 93) :
    ArrayLoop pv (f + 1) p acc = .ok (⟨0⟩, q2.PrintUnexpectedCh c .arraySeparator) := by
  rw [ArrayLoop]
  simp only [hpv, hv, hnn]
  refine Eq.trans (b := (if c = 44 then ArrayLoop pv f q2.advance (acc ++ [v])
      else if c = 93 then
        match q2.advance.arrays_.Add (acc ++ [v]) with
        | .error e => .error e
        | .ok (index, arrays) =>
          (Value.make Value.ARRAY index).map (fun v => (v, { q2.advance with arrays_ := arrays }))
      else .ok ({}, q2.PrintUnexpectedCh c .arraySeparator))) rfl ?_
  rw [if_neg h44, if_neg h93]

theorem ObjectLoop_nokey (pv : Parser → Except Fault (Value × Parser)) (f : Nat)
    (p q1 : Parser) (acc : Object) (c : Nat) (h1 : p.NextNonSpaceChar = (c, q1))
    (hc : c ≠ 34) :
    ObjectLoop pv (f + 1) p acc = .ok (⟨0⟩, q1.PrintUnexpectedCh c .objectKey) := by
  rw [ObjectLoop]
  simp only [h1, hc, ne_eq, not_false_eq_true, if_true]

theorem ObjectLoop_keyfault (pv : Parser → Except Fault (Value × Parser)) (f : Nat)
    (p q1 : Parser) (acc : Object) (e : Fault) (h1 : p.NextNonSpaceChar = (34, q1))
    (h2 : q1.advance.ParseString = .error e) :
    ObjectLoop pv (f + 1) p acc = .error e := by
  rw [ObjectLoop]
  simp only [h1, h2]
  rfl

theorem ObjectLoop_badkey (pv : Parser → Except Fault (Value × Parser)) (f : Nat)
    (p q1 q2 : Parser) (acc : Object) (key : StringSpan)
    (h1 : p.NextNonSpaceChar = (34, q1)) (h2 : q1.advance.ParseString = .ok (key, q2))
    (h3 : q2.IsValidString key = false) :
    ObjectLoop pv (f + 1) p acc = .ok (⟨0⟩, q2) := by
  rw [ObjectLoop]
  simp only [h1, h2, h3]
  rfl

theorem ObjectLoop_nocolon (pv : Parser → Except Fault (Value × Parser)) (f : Nat)
    (p q1 q2 q3 : Parser) (acc : Object) (key : StringSpan) (c : Nat)
    (h1 : p.NextNonSpaceChar = (34, q1)) (h2 : q1.advance.ParseString = .ok (key, q2))
    (h3 : q2.IsValidString key = true) (h4 : q2.NextNonSpaceChar = (c, q3)) (hc : c ≠ 58) :
    ObjectLoop pv (f + 1) p acc = .ok (⟨0⟩, q3.PrintUnexpectedCh c .objectColon) := by
  rw [ObjectLoop]
  simp only [h1, h2, h3, h4, hc, ne_eq, not_false_eq_true, if_true]
  rfl

theorem ObjectLoop_error (pv : Parser → Except Fault (Value × Parser)) (f : Nat)
    (p q1 q2 q3 : Parser) (acc : Object) (key : StringSpan) (e : Fault)
    (h1 : p.NextNonSpaceChar = (34, q1)) (h2 : q1.advance.ParseString = .ok (key, q2))
    (h3 : q2.IsValidString key = true) (h4 : q2.NextNonSpaceChar = (58, q3))
    (h5 : pv q3.advance = .error e) :
    ObjectLoop pv (f + 1) p acc = .error e := by
  rw [ObjectLoop]
  simp only [h1, h2, h3, h4, h5]
  rfl

theorem ObjectLoop_invalid (pv : Parser → Except Fault (Value × Parser)) (f : Nat)
    (p q1 q2 q3 q4 : Parser) (acc : Object) (key : StringSpan) (v : Value)
    (h1 : p.NextNonSpaceChar = (34, q1)) (h2 : q1.advance.ParseString = .ok (key, q2))
    (h3 : q2.IsValidString key = true) (h4 : q2.NextNonSpaceChar = (58, q3))
    (h5 : pv q3.advance = .ok (v, q4)) (hv : v.valid = false) :
    ObjectLoop pv (f + 1) p acc = .ok (v, q4) := by
  rw [ObjectLoop]
  simp only [h1, h2, h3, h4, h5, hv]
  rfl

theorem ObjectLoop_decodefault (pv : Parser → Except Fault (Value × Parser)) (f : Nat)
    (p q1 q2 q3 q4 : Parser) (acc : Object) (key : StringSpan) (v : Value) (e : Fault)
    (h1 : p.NextNonSpaceChar = (34, q1)) (h2 : q1.advance.ParseString = .ok (key, q2))
    (h3 : q2.IsValidString key = true) (h4 : q2.NextNonSpaceChar = (58, q3))
    (h5 : pv q3.advance = .ok (v, q4)) (hv : v.valid = true)
    (h6 : q4.AsStringSpan key = .error e) :
    ObjectLoop pv (f + 1) p acc = .error e := by
  rw [ObjectLoop]
  simp only [h1, h2, h3, h4, h5, hv, h6]
  rfl

theorem ObjectLoop_other (pv : Parser → Except Fault (Value × Parser)) (f : Nat)
    (p q1 q2 q3 q4 q5 : Parser) (acc : Object) (key : StringSpan) (v : Value) (str : List Nat)
    (c : Nat)
    (h1 : p.NextNonSpaceChar = (34, q1)) (h2 : q1.advance.ParseString = .ok (key, q2))
    (h3 : q2.IsValidString key = true) (h4 : q2.NextNonSpaceChar = (58, q3))
    (h5 : pv q3.advance = .ok (v, q4)) (hv : v.valid = true)
    (h6 : q4.AsStringSpan key = .ok str)
    (h7 : (q4.AsStringPiece str).2.NextNonSpaceChar = (c, q5)) (h44 : c ≠ 44)
    (h125 : c ≠ 125) :
    ObjectLoop pv (f + 1) p acc = .ok (⟨0⟩, q5.PrintUnexpectedCh c .objectSeparator) := by
  have hk := (AsStringPiece_step q4 str).1
  rw [ObjectLoop]
  simp only [h1, h2, h3, h4, h5, hv, h6, h7, hk]
  refine Eq.trans (b := (if c = 44 then ObjectLoop pv f q5.advance (acc ++ [(str, v)])
      else if c = 125 then
        match q5.advance.objects_.Add (acc ++ [(str, v)]) with
        | .error e => .error e
        | .ok (index, objects) =>
          (Value.make Value.OBJECT index).map
            (fun v => (v, { q5.advance with objects_ := objects }))
      else .ok ({}, q5.PrintUnexpectedCh c .objectSeparator))) rfl ?_
  rw [if_neg h44, if_neg h125]
/-! ## The loops return -/

theorem pair_eta {α β : Type} (x : α × β) : x = (x.1, x.2) := rfl

theorem invalid_zero : ¬ (⟨0⟩ : Value).valid = true := by decide

/-- The array loop returns on every input; a valid result needs a `]` in the buffer. -/
theorem ArrayLoop_total (buf : List Nat) (hbuf : buf.length ≤ 2 ^ 29)
    (pv : Parser → Except Fault (Value × Parser)) (o0 : Nat)
    (hpv : ∀ p, Inv buf p → p.nums_.mem_.length < p.offset_ → o0 ≤ p.offset_ →
      ∃ v q, pv p = .ok (v, q) ∧ Inv buf q ∧ p.offset_ ≤ q.offset_) :
    ∀ (k : Nat) (p : Parser) (acc : ValueArray), Inv buf p →
      p.nums_.mem_.length < p.offset_ → o0 ≤ p.offset_ → buf.length - p.offset_ < k →
      ∃ v q, ArrayLoop pv k p acc = .ok (v, q) ∧ Inv buf q ∧ p.offset_ ≤ q.offset_ ∧
        (v.valid = true → 93 ∈ buf) := by
  intro k
  induction k with
  | zero => intro p acc _ _ _ hk; omega
  | succ k ih =>
    intro p acc hi hstrict ho hk
    obtain ⟨v, q1, hpv1, hi1, ho1⟩ := hpv p hi hstrict ho
    by_cases hv : v.valid = true
    · obtain ⟨k2, hs2, hcase⟩ := NextNonSpaceChar_cases hi1.ptr hi1.size hi1.le
      have hnn := pair_eta q1.NextNonSpaceChar
      have hle2 : q1.offset_ + k2 ≤ buf.length := by
        rcases hcase with ⟨h, -, -⟩ | ⟨h, -⟩ <;> omega
      have hi2 : Inv buf q1.NextNonSpaceChar.2 :=
        hi1.step_inv hs2 hle2 (by simp) (by simp) (by simp) (by simp)
      by_cases h44 : q1.NextNonSpaceChar.1 = 44
      · have hlt : q1.offset_ + k2 < buf.length := by
          rcases hcase with ⟨h, -, -⟩ | ⟨-, h⟩
          · exact h
          · rw [h44] at h; omega
        rw [h44] at hnn
        rw [ArrayLoop_cons pv k p q1 _ acc v hpv1 hv hnn]
        have hs3 := hs2.trans (advance_step q1.NextNonSpaceChar.2)
        have hi3 : Inv buf q1.NextNonSpaceChar.2.advance :=
          hi1.step_inv hs3 (by omega) (by simp) (by simp) (by simp) (by simp)
        have hoff : q1.NextNonSpaceChar.2.advance.offset_ = q1.offset_ + (k2 + 1) := hs3.offset
        have hnum : q1.NextNonSpaceChar.2.advance.nums_.mem_.length ≤ q1.offset_ := by
          rw [hs3.nums]; simpa using hi1.cap.nums
        obtain ⟨v2, q, hres, hiq, hoq, h93⟩ := ih q1.NextNonSpaceChar.2.advance (acc ++ [v]) hi3
          (by omega) (by omega) (by omega)
        exact ⟨v2, q, hres, hiq, by omega, h93⟩
      · by_cases h93 : q1.NextNonSpaceChar.1 = 93
        · have hlt : q1.offset_ + k2 < buf.length := by
            rcases hcase with ⟨h, -, -⟩ | ⟨-, h⟩
            · exact h
            · rw [h93] at h; omega
          have hmem : 93 ∈ buf := by
            rcases hcase with ⟨h, hb, -⟩ | ⟨-, h⟩
            · rw [h93] at hb; rw [hb]; exact getD_mem h
            · rw [h93] at h; omega
          rw [h93] at hnn
          have hs3 := hs2.trans (advance_step q1.NextNonSpaceChar.2)
          have hcap : q1.NextNonSpaceChar.2.advance.arrays_.mem_.length ≤ VALUE_INDEX_MASK := by
            have : q1.NextNonSpaceChar.2.advance.arrays_.mem_.length ≤ q1.offset_ := by
              rw [hs3.arrays]; simpa using hi1.cap.arrays
            exact mask_of_lt this (by omega) hbuf
          rw [ArrayLoop_last pv k p q1 _ acc v hpv1 hv hnn hcap]
          have hs4 := hs3.trans (holds_array (a := acc ++ [v]) hcap).1
          refine ⟨_, _, rfl, hi1.step_inv hs4 (by omega) (by simp) (by simp) (by simp) (by simp),
            ?_, fun _ => hmem⟩
          rw [hs4.offset]; omega
        · rw [ArrayLoop_other pv k p q1 _ acc v _ hpv1 hv hnn h44 h93]
          refine ⟨_, _, rfl, hi2.frame (PrintUnexpectedCh_step _ _ _), ?_,
            fun h => absurd h invalid_zero⟩
          rw [PrintUnexpectedCh_offset_, hs2.offset]; omega
    · have hv2 : v.valid = false := by simpa using hv
      rw [ArrayLoop_invalid pv k p q1 acc v hpv1 hv2]
      exact ⟨v, q1, rfl, hi1, ho1, fun h => absurd h hv⟩
/-- The object loop returns on every input; a valid result needs a closing brace in the
buffer. -/
theorem ObjectLoop_total (buf : List Nat) (hbuf : buf.length ≤ 2 ^ 29)
    (pv : Parser → Except Fault (Value × Parser)) (o0 : Nat)
    (hpv : ∀ p, Inv buf p → p.nums_.mem_.length < p.offset_ → o0 ≤ p.offset_ →
      ∃ v q, pv p = .ok (v, q) ∧ Inv buf q ∧ p.offset_ ≤ q.offset_) :
    ∀ (k : Nat) (p : Parser) (acc : Object), Inv buf p →
      o0 ≤ p.offset_ + 1 → buf.length - p.offset_ < k →
      ∃ v q, ObjectLoop pv k p acc = .ok (v, q) ∧ Inv buf q ∧ p.offset_ ≤ q.offset_ ∧
        (v.valid = true → 125 ∈ buf) := by
  have hint : buf.length < INT_LIMIT := lt_of_le_of_lt hbuf pow29_lt_int
  intro k
  induction k with
  | zero => intro p acc _ _ hk; omega
  | succ k ih =>
    intro p acc hi ho hk
    -- the key
    obtain ⟨k1, hs1, hcase1⟩ := NextNonSpaceChar_cases hi.ptr hi.size hi.le
    have hnn1 := pair_eta p.NextNonSpaceChar
    have hle1 : p.offset_ + k1 ≤ buf.length := by
      rcases hcase1 with ⟨h, -, -⟩ | ⟨h, -⟩ <;> omega
    have hi1 : Inv buf p.NextNonSpaceChar.2 :=
      hi.step_inv hs1 hle1 (by simp) (by simp) (by simp) (by simp)
    by_cases h34 : p.NextNonSpaceChar.1 = 34
    swap
    · rw [ObjectLoop_nokey pv k p _ acc _ hnn1 h34]
      refine ⟨_, _, rfl, hi1.frame (PrintUnexpectedCh_step _ _ _), ?_,
        fun h => absurd h invalid_zero⟩
      rw [PrintUnexpectedCh_offset_, hs1.offset]; omega
    have hlt1 : p.offset_ + k1 < buf.length := by
      rcases hcase1 with ⟨h, -, -⟩ | ⟨-, h⟩
      · exact h
      · rw [h34] at h; omega
    rw [h34] at hnn1
    have hs1a := hs1.trans (advance_step p.NextNonSpaceChar.2)
    have hi1a : Inv buf p.NextNonSpaceChar.2.advance :=
      hi.step_inv hs1a (by omega) (by simp) (by simp) (by simp) (by simp)
    rcases ParseString_total hi1a.ptr hi1a.size hint with
      ⟨raw, r, q2, hdrop, hraw, h2, hs2⟩ | h2
    swap
    · rw [ObjectLoop_badkey pv k p _ _ acc _ hnn1 h2 (by simp [IsValidString])]
      refine ⟨_, _, rfl, hi1a.frame (print_step _ _), ?_, fun h => absurd h invalid_zero⟩
      rw [print_offset_, hs1a.offset]; omega
    have hlen := congrArg List.length hdrop
    simp only [List.length_drop, List.length_append, List.length_cons] at hlen
    have hoff1a : p.NextNonSpaceChar.2.advance.offset_ = p.offset_ + (k1 + 1) := hs1a.offset
    have hs12 := hs1a.trans hs2
    have hi2 : Inv buf q2 := hi.step_inv hs12 (by omega) (by simp) (by simp) (by simp) (by simp)
    have h3 : q2.IsValidString (p.NextNonSpaceChar.2.advance.offset_, raw.length) = true := by
      unfold IsValidString
      simp only [decide_eq_true_eq]
      rw [hi2.size]
      omega
    -- the colon
    obtain ⟨k3, hs3, hcase3⟩ := NextNonSpaceChar_cases hi2.ptr hi2.size hi2.le
    have hnn3 := pair_eta q2.NextNonSpaceChar
    have hoff2 : q2.offset_ = p.offset_ + (k1 + 1 + (raw.length + 1)) := hs12.offset
    have hle3 : q2.offset_ + k3 ≤ buf.length := by
      rcases hcase3 with ⟨h, -, -⟩ | ⟨h, -⟩ <;> omega
    have hi3 : Inv buf q2.NextNonSpaceChar.2 :=
      hi2.step_inv hs3 hle3 (by simp) (by simp) (by simp) (by simp)
    by_cases h58 : q2.NextNonSpaceChar.1 = 58
    swap
    · rw [ObjectLoop_nocolon pv k p _ _ _ acc _ _ hnn1 h2 h3 hnn3 h58]
      refine ⟨_, _, rfl, hi3.frame (PrintUnexpectedCh_step _ _ _), ?_,
        fun h => absurd h invalid_zero⟩
      rw [PrintUnexpectedCh_offset_, hs3.offset]; omega
    have hlt3 : q2.offset_ + k3 < buf.length := by
      rcases hcase3 with ⟨h, -, -⟩ | ⟨-, h⟩
      · exact h
      · rw [h58] at h; omega
    rw [h58] at hnn3
    have hs3a := hs3.trans (advance_step q2.NextNonSpaceChar.2)
    have hi3a : Inv buf q2.NextNonSpaceChar.2.advance :=
      hi2.step_inv hs3a (by omega) (by simp) (by simp) (by simp) (by simp)
    have hoff3a : q2.NextNonSpaceChar.2.advance.offset_ = q2.offset_ + (k3 + 1) := hs3a.offset
    have hnum3 : q2.NextNonSpaceChar.2.advance.nums_.mem_.length ≤ q2.offset_ := by
      rw [hs3a.nums]; simpa using hi2.cap.nums
    -- the value
    obtain ⟨v, q4, h5, hi4, ho4⟩ := hpv q2.NextNonSpaceChar.2.advance hi3a (by omega) (by omega)
    by_cases hv : v.valid = true
    swap
    · have hv2 : v.valid = false := by simpa using hv
      rw [ObjectLoop_invalid pv k p _ _ _ _ acc _ v hnn1 h2 h3 hnn3 h5 hv2]
      exact ⟨v, q4, rfl, hi4, by omega, fun h => absurd h hv⟩
    have h6 : q4.AsStringSpan (p.NextNonSpaceChar.2.advance.offset_, raw.length) =
        .ok (unescape raw) :=
      AsStringSpan_of_drop hi4.ptr _ raw _ hdrop hint hraw
    have hs4 := (AsStringPiece_step q4 (unescape raw)).2
    have hi4b : Inv buf (q4.AsStringPiece (unescape raw)).2 := hi4.frame hs4
    -- the separator
    obtain ⟨k5, hs5, hcase5⟩ := NextNonSpaceChar_cases hi4b.ptr hi4b.size hi4b.le
    have hnn5 := pair_eta (q4.AsStringPiece (unescape raw)).2.NextNonSpaceChar
    have hoff4b : (q4.AsStringPiece (unescape raw)).2.offset_ = q4.offset_ + 0 := hs4.offset
    have hle5 : (q4.AsStringPiece (unescape raw)).2.offset_ + k5 ≤ buf.length := by
      rcases hcase5 with ⟨h, -, -⟩ | ⟨h, -⟩ <;> omega
    have hi5 : Inv buf (q4.AsStringPiece (unescape raw)).2.NextNonSpaceChar.2 :=
      hi4b.step_inv hs5 hle5 (by simp) (by simp) (by simp) (by simp)
    have hs5a := hs5.trans (advance_step (q4.AsStringPiece (unescape raw)).2.NextNonSpaceChar.2)
    by_cases h44 : (q4.AsStringPiece (unescape raw)).2.NextNonSpaceChar.1 = 44
    · have hlt5 : (q4.AsStringPiece (unescape raw)).2.offset_ + k5 < buf.length := by
        rcases hcase5 with ⟨h, -, -⟩ | ⟨-, h⟩
        · exact h
        · rw [h44] at h; omega
      rw [h44] at hnn5
      rw [ObjectLoop_cons pv k p _ _ _ _ _ acc _ v _ hnn1 h2 h3 hnn3 h5 hv h6 hnn5]
      have hi5a : Inv buf (q4.AsStringPiece (unescape raw)).2.NextNonSpaceChar.2.advance :=
        hi4b.step_inv hs5a (by omega) (by simp) (by simp) (by simp) (by simp)
      have hoff5a := hs5a.offset
      obtain ⟨v2, q, hres, hiq, hoq, h125⟩ :=
        ih (q4.AsStringPiece (unescape raw)).2.NextNonSpaceChar.2.advance
          (acc ++ [(unescape raw, v)]) hi5a (by omega) (by omega)
      exact ⟨v2, q, hres, hiq, by omega, h125⟩
    · by_cases h125 : (q4.AsStringPiece (unescape raw)).2.NextNonSpaceChar.1 = 125
      · have hlt5 : (q4.AsStringPiece (unescape raw)).2.offset_ + k5 < buf.length := by
          rcases hcase5 with ⟨h, -, -⟩ | ⟨-, h⟩
          · exact h
          · rw [h125] at h; omega
        have hmem : 125 ∈ buf := by
          rcases hcase5 with ⟨h, hb, -⟩ | ⟨-, h⟩
          · rw [h125] at hb; rw [hb]; exact getD_mem h
          · rw [h125] at h; omega
        rw [h125] at hnn5
        have hcap : (q4.AsStringPiece (unescape raw)).2.NextNonSpaceChar.2.advance.objects_.mem_.length
            ≤ VALUE_INDEX_MASK := by
          have : (q4.AsStringPiece (unescape raw)).2.NextNonSpaceChar.2.advance.objects_.mem_.length
              ≤ (q4.AsStringPiece (unescape raw)).2.offset_ := by
            rw [hs5a.objects]; simpa using hi4b.cap.objects
          exact mask_of_lt this (by omega) hbuf
        rw [ObjectLoop_last pv k p _ _ _ _ _ acc _ v _ hnn1 h2 h3 hnn3 h5 hv h6 hnn5 hcap]
        have hs6 := hs5a.trans (holds_object (o := acc ++ [(unescape raw, v)]) hcap).1
        refine ⟨_, _, rfl, hi4b.step_inv hs6 (by omega) (by simp) (by simp) (by simp) (by simp),
          ?_, fun _ => hmem⟩
        rw [hs6.offset]; omega
      · rw [ObjectLoop_other pv k p _ _ _ _ _ acc _ v _ _ hnn1 h2 h3 hnn3 h5 hv h6 hnn5 h44 h125]
        refine ⟨_, _, rfl, hi5.frame (PrintUnexpectedCh_step _ _ _), ?_,
          fun h => absurd h invalid_zero⟩
        rw [PrintUnexpectedCh_offset_, hs5.offset]; omega
theorem ParseValue_other (n : Nat) (p q : Parser) (c : Nat) (h : p.NextNonSpaceChar = (c, q))
    (h0 : c ≠ 0) (h91 : c ≠ 91) (h123 : c ≠ 123) (h34 : c ≠ 34) :
    ParseValue (n + 1) p = q.ParseBoolOrNumber := by
  rw [ParseValue]
  simp only [h, h0, h91, h123, h34, if_false]

/-- `AddString` on the span of a string that was closed. -/
theorem AddString_ok (p : Parser) (str : StringSpan) (h : p.IsValidString str = true)
    (hcap : p.strs_.mem_.length ≤ VALUE_INDEX_MASK) :
    ∃ q, p.AddString str = .ok (Value.pack Value.STRING p.strs_.mem_.length, q) ∧
      Step p q 0 [str] [] [] [] := by
  unfold AddString
  simp only [h, Bool.not_true, Bool.false_eq_true, if_false, Arena.Add_ok _ _ hcap,
    Value.make_ok Value.STRING _ (by decide) hcap, Except.map]
  exact ⟨_, rfl, ⟨rfl, rfl, rfl, rfl, by simp, by simp, by simp⟩⟩

theorem AddString_invalid (p : Parser) (str : StringSpan) (h : p.IsValidString str = false) :
    p.AddString str = .ok (⟨0⟩, p) := by
  unfold AddString
  simp only [h, Bool.not_false, if_true]

/-- `ParseValue` returns on every input of at most `2 ^ 29` bytes, when its recursion bound
is at least the number of bytes left. -/
theorem ParseValue_total (buf : List Nat) (hbuf : buf.length ≤ 2 ^ 29) :
    ∀ (n : Nat) (p : Parser), Inv buf p →
      (p.nums_.mem_.length < p.offset_ ∨ p.offset_ = 0) → buf.length - p.offset_ ≤ n →
      ∃ v q, ParseValue (n + 1) p = .ok (v, q) ∧ Inv buf q ∧ p.offset_ ≤ q.offset_ := by
  have hint : buf.length < INT_LIMIT := lt_of_le_of_lt hbuf pow29_lt_int
  intro n
  induction n with
  | zero =>
    intro p hi _ hn
    obtain ⟨k0, hs0, hcase⟩ := NextNonSpaceChar_cases hi.ptr hi.size hi.le
    have hle := hi.le
    rcases hcase with ⟨h, -, -⟩ | ⟨h, h0⟩
    · omega
    · rw [ParseValue_eof 0 p h0]
      have hi0 : Inv buf p.NextNonSpaceChar.2 :=
        hi.step_inv hs0 (by omega) (by simp) (by simp) (by simp) (by simp)
      refine ⟨_, _, rfl, hi0.frame (print_step _ _), ?_⟩
      rw [print_offset_, hs0.offset]; omega
  | succ n ih =>
    intro p hi hstrict hn
    obtain ⟨k0, hs0, hcase⟩ := NextNonSpaceChar_cases hi.ptr hi.size hi.le
    have hnn := pair_eta p.NextNonSpaceChar
    have hle0 : p.offset_ + k0 ≤ buf.length := by
      rcases hcase with ⟨h, -, -⟩ | ⟨h, -⟩ <;> omega
    have hi0 : Inv buf p.NextNonSpaceChar.2 :=
      hi.step_inv hs0 hle0 (by simp) (by simp) (by simp) (by simp)
    have hoff0 := hs0.offset
    by_cases h0 : p.NextNonSpaceChar.1 = 0
    · rw [ParseValue_eof (n + 1) p h0]
      refine ⟨_, _, rfl, hi0.frame (print_step _ _), ?_⟩
      rw [print_offset_, hs0.offset]; omega
    have hlt : p.offset_ + k0 < buf.length := by
      rcases hcase with ⟨h, -, -⟩ | ⟨-, h⟩
      · exact h
      · exact absurd h h0
    have hs0a := hs0.trans (advance_step p.NextNonSpaceChar.2)
    have hi0a : Inv buf p.NextNonSpaceChar.2.advance :=
      hi.step_inv hs0a (by omega) (by simp) (by simp) (by simp) (by simp)
    have hoff0a : p.NextNonSpaceChar.2.advance.offset_ = p.offset_ + (k0 + 1) := hs0a.offset
    have hnum0a : p.NextNonSpaceChar.2.advance.nums_.mem_.length ≤ p.offset_ := by
      rw [hs0a.nums]; simpa using hi.cap.nums
    have hpv : ∀ p2, Inv buf p2 → p2.nums_.mem_.length < p2.offset_ →
        p.NextNonSpaceChar.2.advance.offset_ ≤ p2.offset_ →
        ∃ v q, ParseValue (n + 1) p2 = .ok (v, q) ∧ Inv buf q ∧ p2.offset_ ≤ q.offset_ :=
      fun p2 h1 h2 h3 => ih p2 h1 (Or.inl h2) (by omega)
    by_cases h91 : p.NextNonSpaceChar.1 = 91
    · rw [h91] at hnn
      rw [ParseValue_array (n + 1) p _ hnn]
      obtain ⟨v, q, hres, hiq, hoq, -⟩ := ArrayLoop_total buf hbuf (ParseValue (n + 1)) _ hpv
        (p.NextNonSpaceChar.2.advance.size_ - p.NextNonSpaceChar.2.advance.offset_ + 1)
        p.NextNonSpaceChar.2.advance [] hi0a (by omega) (Nat.le_refl _)
        (by rw [hi0a.size]; omega)
      exact ⟨v, q, hres, hiq, by omega⟩
    by_cases h123 : p.NextNonSpaceChar.1 = 123
    · rw [h123] at hnn
      rw [ParseValue_object (n + 1) p _ hnn]
      obtain ⟨v, q, hres, hiq, hoq, -⟩ := ObjectLoop_total buf hbuf (ParseValue (n + 1)) _ hpv
        (p.NextNonSpaceChar.2.advance.size_ - p.NextNonSpaceChar.2.advance.offset_ + 1)
        p.NextNonSpaceChar.2.advance [] hi0a (by omega) (by rw [hi0a.size]; omega)
      exact ⟨v, q, hres, hiq, by omega⟩
    by_cases h34 : p.NextNonSpaceChar.1 = 34
    · rw [h34] at hnn
      rw [ParseValue_quote (n + 1) p _ hnn]
      rcases ParseString_total hi0a.ptr hi0a.size hint with
        ⟨raw, r, q2, hdrop, hraw, h2, hs2⟩ | h2
      · have hlen := congrArg List.length hdrop
        simp only [List.length_drop, List.length_append, List.length_cons] at hlen
        have hs02 := hs0a.trans hs2
        have hi2 : Inv buf q2 :=
          hi.step_inv hs02 (by omega) (by simp) (by simp) (by simp) (by simp)
        have h3 : q2.IsValidString (p.NextNonSpaceChar.2.advance.offset_, raw.length) = true := by
          unfold IsValidString
          simp only [decide_eq_true_eq]
          rw [hi2.size]
          omega
        have hcap : q2.strs_.mem_.length ≤ VALUE_INDEX_MASK := by
          have : q2.strs_.mem_.length ≤ p.offset_ := by
            rw [hs02.strs]; simpa using hi.cap.strs
          exact mask_of_lt this (by omega) hbuf
        obtain ⟨q3, h4, hs3⟩ := AddString_ok q2 _ h3 hcap
        rw [h2]
        simp only [h4]
        have hs03 := hs02.trans hs3
        refine ⟨_, _, rfl, hi.step_inv hs03 (by omega)
          (by simp only [List.length_append, List.length_cons, List.length_nil]; omega)
          (by simp) (by simp) (by simp), ?_⟩
        rw [hs03.offset]; omega
      · rw [h2]
        simp only []
        rw [AddString_invalid _ _ (by simp [IsValidString])]
        refine ⟨_, _, rfl, hi0a.frame (print_step _ _), ?_⟩
        rw [print_offset_, hs0a.offset]; omega
    · rw [ParseValue_other (n + 1) p _ _ hnn h0 h91 h123 h34]
      have hst : p.NextNonSpaceChar.2.nums_.mem_.length < p.NextNonSpaceChar.2.offset_ ∨
          p.NextNonSpaceChar.2.offset_ = 0 := by
        have h1 : p.NextNonSpaceChar.2.nums_.mem_.length = p.nums_.mem_.length := by
          rw [hs0.nums]; simp
        have h2 := hi.cap.nums
        omega
      obtain ⟨v, q, hres, hiq, hoq⟩ := ParseBoolOrNumber_total hi0 hbuf (by omega) hst
      exact ⟨v, q, hres, hiq, by omega⟩

/-! ## An array or an object that is never closed -/

theorem takeWhile_stop (q : Nat → Bool) (hq : q 32 = false) (b t : List Nat) :
    (b ++ 32 :: t).takeWhile q = b.takeWhile q := by
  induction b with
  | nil => simp [List.takeWhile_cons, hq]
  | cons x b ih =>
    by_cases h : q x = true
    · simp [List.takeWhile_cons, h, ih]
    · simp [List.takeWhile_cons, h]

theorem dropWhile_stop (q : Nat → Bool) (hq : q 32 = false) (b t : List Nat) :
    (b ++ 32 :: t).dropWhile q = b.dropWhile q ++ 32 :: t := by
  induction b with
  | nil => simp [List.dropWhile_cons, hq]
  | cons x b ih =>
    by_cases h : q x = true
    · simp [List.dropWhile_cons, h, ih]
    · simp [List.dropWhile_cons, h]

theorem head_stop (b t : List Nat) (c : Nat) (hc : c ≠ 32) :
    ((b ++ 32 :: t).head? = some c) = (b.head? = some c) := by
  cases b with
  | nil => simp; exact fun h => hc h.symm
  | cons x b => simp

theorem head_lower_stop (b t : List Nat) (c : Nat) (hc : c ≠ 32) :
    ((b ++ 32 :: t).head?.map tolower = some c) = (b.head?.map tolower = some c) := by
  cases b with
  | nil =>
    have : tolower 32 = 32 := by decide
    simp [this]; exact fun h => hc h.symm
  | cons x b => simp

theorem tail_stop (b x : List Nat) (hb : b ≠ []) : (b ++ x).tail = b.tail ++ x := by
  cases b with
  | nil => exact absurd rfl hb
  | cons y b => rfl

theorem ne_nil_of_head {b : List Nat} {c : Nat} (h : b.head? = some c) : b ≠ [] := by
  intro hb; rw [hb] at h; simp at h

theorem scanMantissa_stop (digit : Nat → Bool) (hd : digit 32 = false) (b t : List Nat) :
    scanMantissa digit (b ++ 32 :: t) =
      (scanMantissa digit b).map (fun r => (r.1, r.2.1, r.2.2.1, r.2.2.2 ++ 32 :: t)) := by
  simp only [scanMantissa, takeWhile_stop digit hd, dropWhile_stop digit hd,
    head_stop _ t 46 (by decide)]
  by_cases h : (b.dropWhile digit).head? = some 46
  · simp only [h, if_true, tail_stop _ (32 :: t) (ne_nil_of_head h), takeWhile_stop digit hd,
      dropWhile_stop digit hd]
    split_ifs <;> rfl
  · simp only [h, if_false]
    split_ifs <;> rfl

theorem scanSign_stop (b t : List Nat) : scanSign (b ++ 32 :: t) = scanSign b := by
  simp only [scanSign, head_stop _ t 45 (by decide), head_stop _ t 43 (by decide)]

theorem scanExponent_stop (marker : Nat) (hm : marker ≠ 32) (b t : List Nat) :
    scanExponent marker (b ++ 32 :: t) = scanExponent marker b := by
  simp only [scanExponent, head_lower_stop _ t marker hm]
  by_cases h : b.head?.map tolower = some marker
  · have hb : b ≠ [] := by
      intro hb; rw [hb] at h; simp at h
    have hle := scanSign_le b.tail
    simp only [h, if_true, tail_stop _ (32 :: t) hb, scanSign_stop,
      List.drop_append_of_le_length hle, takeWhile_stop isdigit (by decide)]
  · simp only [h, if_false]

theorem scanHex_stop (neg : Bool) (b t : List Nat) :
    scanHex neg (b ++ 32 :: t) = scanHex neg b := by
  simp only [scanHex, head_stop _ t 48 (by decide)]
  by_cases h : b.head? = some 48
  · have hb := ne_nil_of_head h
    simp only [tail_stop _ (32 :: t) hb, head_lower_stop _ t 120 (by decide)]
    by_cases h2 : b.tail.head?.map tolower = some 120
    · have hb2 : b.tail ≠ [] := by
        intro hb2; rw [hb2] at h2; simp at h2
      have hlen : 2 ≤ b.length := by
        cases b with
        | nil => exact absurd rfl hb
        | cons x b =>
          cases b with
          | nil => exact absurd rfl hb2
          | cons y b => simp
      simp only [h, h2, and_self, if_true, List.drop_append_of_le_length hlen,
        scanMantissa_stop isxdigit (by decide)]
      cases scanMantissa isxdigit (b.drop 2) with
      | none => rfl
      | some r =>
        simp only [Option.map_some', scanExponent_stop 112 (by decide)]
    · simp only [h2, and_false, if_false]
  · simp only [h, false_and, if_false]

theorem scanDecimal_stop (neg : Bool) (b t : List Nat) :
    scanDecimal neg (b ++ 32 :: t) = scanDecimal neg b := by
  simp only [scanDecimal, scanMantissa_stop isdigit (by decide)]
  cases scanMantissa isdigit b with
  | none => rfl
  | some r =>
    simp only [Option.map_some', scanExponent_stop 101 (by decide)]

/-- Whether a text starts with a pattern that has no space in it is not changed by a space
and more text after it. -/
theorem take_stop (l t pat : List Nat) (k : Nat) (hk : pat.length = k) (hp : 32 ∉ pat) :
    ((l ++ 32 :: t).take k = pat) = (l.take k = pat) := by
  by_cases h : k ≤ l.length
  · rw [List.take_append_of_le_length h]
  · have h1 : ¬ l.take k = pat := by
      intro he
      have := congrArg List.length he
      simp only [List.length_take] at this
      omega
    have h2 : ¬ (l ++ 32 :: t).take k = pat := by
      intro he
      apply hp
      rw [← he, List.take_append_eq_append_take, List.mem_append]
      right
      obtain ⟨m, hm⟩ : ∃ m, k - l.length = m + 1 := ⟨k - l.length - 1, by omega⟩
      rw [hm]
      simp
    simp only [h1, h2]

theorem scanSpecial_stop (neg : Bool) (b t : List Nat) :
    scanSpecial neg (b ++ 32 :: t) = scanSpecial neg b := by
  have hl : tolower 32 = 32 := by decide
  simp only [scanSpecial, List.map_append, List.map_cons, hl,
    take_stop _ _ [105, 110, 102] 3 rfl (by decide),
    take_stop _ _ [110, 97, 110] 3 rfl (by decide)]
  by_cases h1 : (b.map tolower).take 3 = [105, 110, 102]
  · have hlen : 3 ≤ (b.map tolower).length := by
      have := congrArg List.length h1
      simp only [List.length_take, List.length_cons, List.length_nil] at this
      omega
    simp only [h1, if_true, List.drop_append_of_le_length hlen,
      take_stop _ _ [105, 110, 105, 116, 121] 5 rfl (by decide)]
  · simp only [h1, if_false]
    by_cases h2 : (b.map tolower).take 3 = [110, 97, 110]
    · have hlen : 3 ≤ b.length := by
        have := congrArg List.length h2
        simp only [List.length_take, List.length_cons, List.length_nil, List.length_map] at this
        omega
      simp only [h2, if_true, List.drop_append_of_le_length hlen, head_stop _ t 40 (by decide)]
      by_cases h3 : (b.drop 3).head? = some 40
      · have hlen4 : 4 ≤ b.length := by
          have := length_of_head h3
          simp only [List.length_tail, List.length_drop] at this
          omega
        simp only [h3, true_and, List.drop_append_of_le_length hlen4,
          dropWhile_stop isnchar (by decide), takeWhile_stop isnchar (by decide),
          head_stop _ t 41 (by decide)]
      · simp only [h3, false_and, if_false]
    · simp only [h2, if_false]

theorem scanNumber_stop (neg : Bool) (b t : List Nat) :
    scanNumber neg (b ++ 32 :: t) = scanNumber neg b := by
  simp only [scanNumber, scanHex_stop, scanDecimal_stop, scanSpecial_stop]

/-- On a text that does not start with white space, `strtod` gives the same value and the
same end pointer when a space and more text follow. -/
theorem strtod_stop (a t : List Nat) (c : Nat) (hc : a.head? = some c)
    (hs : isspace c = false) : strtod (a ++ 32 :: t) = strtod a := by
  obtain ⟨a2, rfl⟩ : ∃ a2, a = c :: a2 := by
    cases a with
    | nil => simp at hc
    | cons x a2 => simp at hc; exact ⟨a2, by rw [hc]⟩
  have h1 : (c :: a2).takeWhile isspace = [] := by simp [List.takeWhile_cons, hs]
  have h2 : (c :: a2).dropWhile isspace = c :: a2 := by simp [List.dropWhile_cons, hs]
  have h3 : (c :: a2 ++ 32 :: t).takeWhile isspace = [] := by
    simp [List.takeWhile_cons, hs]
  have h4 : (c :: a2 ++ 32 :: t).dropWhile isspace = c :: a2 ++ 32 :: t := by
    simp [List.dropWhile_cons, hs]
  have hle := scanSign_le (c :: a2)
  simp only [strtod, h1, h2, h3, h4, scanSign_stop, List.drop_append_of_le_length hle,
    scanNumber_stop]
/-! ## A parse does not look behind a space that follows the value -/

theorem Sim.byteAt {s t : List Nat} {p p2 : Parser} (h : Sim s t p p2) {i : Nat}
    (hi : i < s.length) : p2.byteAt i = p.byteAt i := by
  rw [byteAt_eq h.ptr, byteAt_eq h.ptr2, List.getD_append _ _ _ _ hi]

theorem Sim.lt {s t : List Nat} {p p2 : Parser} (h : Sim s t p p2)
    (hlt : p.offset_ < p.size_) : p2.offset_ < p2.size_ := by
  rw [h.offset, h.size2]
  have := h.size
  simp only [List.length_append, List.length_cons]
  omega

theorem Sim.advance {s t : List Nat} {p p2 : Parser} (h : Sim s t p p2) :
    Sim s t p.advance p2.advance :=
  ⟨h.ptr, h.ptr2, h.size, h.size2, congrArg (· + 1) h.offset, h.strs, h.nums, h.arrays,
    h.objects, h.spans⟩

theorem NextNonSpaceCharLoop_sim (s t : List Nat) :
    ∀ (n n2 : Nat) (p p2 : Parser), Sim s t p p2 → n ≤ n2 →
      (NextNonSpaceCharLoop n p).1 ≠ 0 →
      (NextNonSpaceCharLoop n2 p2).1 = (NextNonSpaceCharLoop n p).1 ∧
        Sim s t (NextNonSpaceCharLoop n p).2 (NextNonSpaceCharLoop n2 p2).2 := by
  intro n
  induction n with
  | zero => intro n2 p p2 _ _ h; exact absurd rfl h
  | succ n ih =>
    intro n2 p p2 hs hn h
    obtain ⟨m, rfl⟩ : ∃ m, n2 = m + 1 := ⟨n2 - 1, by omega⟩
    by_cases hlt : p.offset_ < p.size_
    · have hlt2 := hs.lt hlt
      have hb : p2.byteAt p2.offset_ = p.byteAt p.offset_ := by
        rw [hs.offset]; exact hs.byteAt (by rw [← hs.size]; exact hlt)
      by_cases hsp : isspace (p.byteAt p.offset_) = true
      · by_cases h10 : p.byteAt p.offset_ = 10
        · simp only [NextNonSpaceCharLoop, hlt, hlt2, hb, hsp, h10, if_true] at h ⊢
          exact ih m _ _ ⟨hs.ptr, hs.ptr2, hs.size, hs.size2, congrArg (· + 1) hs.offset,
            hs.strs, hs.nums, hs.arrays, hs.objects, hs.spans⟩ (by omega) h
        · simp only [NextNonSpaceCharLoop, hlt, hlt2, hb, hsp, h10, if_true, if_false] at h ⊢
          exact ih m _ _ ⟨hs.ptr, hs.ptr2, hs.size, hs.size2, congrArg (· + 1) hs.offset,
            hs.strs, hs.nums, hs.arrays, hs.objects, hs.spans⟩ (by omega) h
      · simp only [NextNonSpaceCharLoop, hlt, hlt2, hb, hsp, if_true, if_false,
          Bool.false_eq_true]
        exact ⟨trivial, hs⟩
    · simp only [NextNonSpaceCharLoop, hlt, if_false] at h
      exact absurd rfl h

theorem NextNonSpaceChar_sim {s t : List Nat} {p p2 : Parser} (hs : Sim s t p p2)
    (h : p.NextNonSpaceChar.1 ≠ 0) :
    p2.NextNonSpaceChar.1 = p.NextNonSpaceChar.1 ∧
      Sim s t p.NextNonSpaceChar.2 p2.NextNonSpaceChar.2 := by
  unfold NextNonSpaceChar at h ⊢
  refine NextNonSpaceCharLoop_sim s t _ _ p p2 hs ?_ h
  rw [hs.size, hs.size2, hs.offset]
  simp only [List.length_append, List.length_cons]
  omega

/-- After `NextNonSpaceChar` gave a byte other than `0`, that byte is under the cursor and
is not white space. -/
theorem NextNonSpaceChar_byte (p : Parser) (h : p.NextNonSpaceChar.1 ≠ 0) :
    p.NextNonSpaceChar.2.offset_ < p.NextNonSpaceChar.2.size_ ∧
      p.NextNonSpaceChar.2.byteAt p.NextNonSpaceChar.2.offset_ = p.NextNonSpaceChar.1 ∧
      isspace p.NextNonSpaceChar.1 = false := by
  obtain ⟨o, l, c, heq, -, -, -, h4⟩ := NextNonSpaceChar_spec p
  rcases h4 with ⟨h5, h6, h7⟩ | ⟨-, h6⟩
  · rw [heq]
    exact ⟨h5, h6.symm, h7⟩
  · exact absurd h6 h
theorem ParseStringLoop_sim (s t : List Nat) :
    ∀ (n n2 : Nat) (esc : Bool) (i : Nat) (p p2 : Parser), Sim s t p p2 → n ≤ n2 →
      p.offset_ ≤ i → ∀ (span : StringSpan) (q : Parser),
      ParseStringLoop n esc i p = .ok (span, q) → span.1 < p.size_ →
      ∃ q2, ParseStringLoop n2 esc i p2 = .ok (span, q2) ∧ Sim s t q q2 ∧
        span.1 + span.2 < s.length := by
  intro n
  induction n with
  | zero =>
    intro n2 esc i p p2 _ _ _ span q h hv
    simp only [ParseStringLoop, Except.ok.injEq, Prod.mk.injEq] at h
    obtain ⟨rfl, -⟩ := h
    exact absurd hv (Nat.lt_irrefl _)
  | succ n ih =>
    intro n2 esc i p p2 hs hn hi span q h hv
    obtain ⟨m, rfl⟩ : ∃ m, n2 = m + 1 := ⟨n2 - 1, by omega⟩
    have hnm : n ≤ m := by omega
    rw [ParseStringLoop] at h ⊢
    by_cases hlt : i < p.size_
    · have hlt2 : i < p2.size_ := by
        rw [hs.size2]
        have := hs.size
        simp only [List.length_append, List.length_cons]
        omega
      have hb : p2.byteAt i = p.byteAt i := hs.byteAt (by rw [← hs.size]; exact hlt)
      simp only [hlt, hlt2, hb, if_true] at h ⊢
      cases esc with
      | true =>
        simp only [if_true] at h ⊢
        by_cases h1 : i + 1 < INT_LIMIT
        · simp only [h1, if_true] at h ⊢
          exact ih m false (i + 1) p p2 hs hnm (by omega) span q h hv
        · simp only [h1, if_false] at h
          exact absurd h (by simp)
      | false =>
        simp only [Bool.false_eq_true, if_false] at h ⊢
        by_cases h0 : INT_LIMIT ≤ i
        · simp only [h0, if_true] at h
          exact absurd h (by simp)
        · simp only [h0, if_false] at h ⊢
          by_cases h92 : p.byteAt i = 92
          · simp only [h92, if_true] at h ⊢
            by_cases h1 : i + 1 < INT_LIMIT
            · simp only [h1, if_true] at h ⊢
              exact ih m true (i + 1) p p2 hs hnm (by omega) span q h hv
            · simp only [h1, if_false] at h
              exact absurd h (by simp)
          · simp only [h92, if_false] at h ⊢
            by_cases h34 : p.byteAt i = 34
            · simp only [h34, if_true, Except.ok.injEq, Prod.mk.injEq] at h ⊢
              obtain ⟨rfl, rfl⟩ := h
              refine ⟨_, ⟨by rw [hs.offset], rfl⟩, ?_, ?_⟩
              · exact ⟨hs.ptr, hs.ptr2, hs.size, hs.size2, rfl, hs.strs, hs.nums, hs.arrays,
                  hs.objects, hs.spans⟩
              · have := hs.size
                show p.offset_ + (i - p.offset_) < s.length
                omega
            · simp only [h34, if_false] at h ⊢
              by_cases h1 : i + 1 < INT_LIMIT
              · simp only [h1, if_true] at h ⊢
                exact ih m false (i + 1) p p2 hs hnm (by omega) span q h hv
              · simp only [h1, if_false] at h
                exact absurd h (by simp)
    · simp only [hlt, if_false, Except.ok.injEq, Prod.mk.injEq] at h
      obtain ⟨rfl, -⟩ := h
      exact absurd hv (Nat.lt_irrefl _)

theorem ParseString_sim {s t : List Nat} {p p2 : Parser} (hs : Sim s t p p2)
    {span : StringSpan} {q : Parser} (h : p.ParseString = .ok (span, q))
    (hv : span.1 < p.size_) :
    ∃ q2, p2.ParseString = .ok (span, q2) ∧ Sim s t q q2 ∧ span.1 + span.2 < s.length := by
  unfold ParseString at h ⊢
  rw [hs.offset]
  refine ParseStringLoop_sim s t _ _ false p.offset_ p p2 hs ?_ (Nat.le_refl _) span q h hv
  rw [hs.size, hs.size2]
  simp only [List.length_append, List.length_cons]
  omega

theorem ParseStringLoop_frame :
    ∀ (n : Nat) (esc : Bool) (i : Nat) (p : Parser) (span : StringSpan) (q : Parser),
      ParseStringLoop n esc i p = .ok (span, q) → q.size_ = p.size_ := by
  intro n
  induction n with
  | zero =>
    intro esc i p span q h
    simp only [ParseStringLoop, Except.ok.injEq, Prod.mk.injEq] at h
    obtain ⟨-, rfl⟩ := h
    rfl
  | succ n ih =>
    intro esc i p span q h
    rw [ParseStringLoop] at h
    split_ifs at h
    all_goals first
      | exact ih _ _ _ _ _ h
      | (simp only [Except.ok.injEq, Prod.mk.injEq] at h
         obtain ⟨-, rfl⟩ := h
         rfl)

theorem strncmpEq_sim {s t : List Nat} {p p2 : Parser} (hs : Sim s t p p2) :
    ∀ (lit : List Nat) (i : Nat), (∀ c ∈ lit, c ≠ 0 ∧ c ≠ 32) → i ≤ s.length →
      strncmpEq p2 lit i = strncmpEq p lit i := by
  intro lit
  induction lit with
  | nil => intro i _ _; rfl
  | cons c cs ih =>
    intro i hl hi
    simp only [strncmpEq]
    by_cases hlt : i < s.length
    · rw [hs.byteAt hlt, ih (i + 1) (fun x hx => hl x (by simp [hx])) (by omega)]
    · have hi2 : i = s.length := by omega
      have h1 : p.byteAt i = 0 := by
        rw [byteAt_eq hs.ptr, hi2]
        simp [List.getD_eq_default]
      have h2 : p2.byteAt i = 32 := by
        rw [byteAt_eq hs.ptr2, hi2, List.getD_append_right _ _ _ _ (Nat.le_refl _)]
        simp
      have hc := hl c (by simp)
      have e1 : (p.byteAt i == c) = false := by
        rw [h1]; simp; exact fun h => hc.1 h.symm
      have e2 : (p2.byteAt i == c) = false := by
        rw [h2]; simp; exact fun h => hc.2 h.symm
      rw [e1, e2]
      rfl

theorem Arena.Add_overflow {α : Type} (a : Arena α) (v : α)
    (h : ¬ a.mem_.length ≤ VALUE_INDEX_MASK) : a.Add v = .error .assertion := by
  unfold Arena.Add
  simp only [h, if_false]

theorem bytesFrom_sim {s t : List Nat} {p p2 : Parser} (hs : Sim s t p p2)
    (hlt : p.offset_ < s.length) :
    p2.bytesFrom p2.offset_ = p.bytesFrom p.offset_ ++ 32 :: t := by
  rw [bytesFrom_eq hs.ptr, bytesFrom_eq hs.ptr2, hs.offset,
    List.drop_append_of_le_length (Nat.le_of_lt hlt)]
theorem head_drop_getD {s : List Nat} {o : Nat} (h : o < s.length) :
    (s.drop o).head? = some (s.getD o 0) := by
  rw [List.head?_drop, List.getD_eq_getElem _ _ h, List.getElem?_eq_getElem h]

theorem ParseBoolOrNumber_sim {s t : List Nat} {p p2 : Parser} (hs : Sim s t p p2)
    (hlt : p.offset_ < s.length) (hsp : isspace (p.byteAt p.offset_) = false)
    {v : Value} {q : Parser} (h : p.ParseBoolOrNumber = .ok (v, q)) (hv : v.valid = true) :
    ∃ q2, p2.ParseBoolOrNumber = .ok (v, q2) ∧ Sim s t q q2 := by
  have e1 : strncmpEq p2 TRUE_VALUE p2.offset_ = strncmpEq p TRUE_VALUE p.offset_ := by
    rw [hs.offset]; exact strncmpEq_sim hs _ _ (by decide) (Nat.le_of_lt hlt)
  have e2 : strncmpEq p2 FALSE_VALUE p2.offset_ = strncmpEq p FALSE_VALUE p.offset_ := by
    rw [hs.offset]; exact strncmpEq_sim hs _ _ (by decide) (Nat.le_of_lt hlt)
  have e3 : strtod (p2.bytesFrom p.offset_) = strtod (p.bytesFrom p.offset_) := by
    have hb := bytesFrom_sim hs hlt
    rw [hs.offset] at hb
    rw [hb]
    refine strtod_stop _ t (p.byteAt p.offset_) ?_ hsp
    rw [bytesFrom_eq hs.ptr, byteAt_eq hs.ptr]
    exact head_drop_getD hlt
  have h1 : (1 : Nat) ≤ VALUE_INDEX_MASK := by decide
  have h0 : (0 : Nat) ≤ VALUE_INDEX_MASK := by decide
  unfold ParseBoolOrNumber at h ⊢
  rw [e1, e2]
  by_cases ht : strncmpEq p TRUE_VALUE p.offset_ = true
  · simp only [ht, if_true, Value.make_ok Value.BOOL 1 (by decide) h1, Except.map] at h ⊢
    simp only [Except.ok.injEq, Prod.mk.injEq] at h
    obtain ⟨rfl, rfl⟩ := h
    exact ⟨p2, rfl, hs⟩
  · simp only [ht, if_false, Bool.false_eq_true] at h ⊢
    by_cases hf : strncmpEq p FALSE_VALUE p.offset_ = true
    · simp only [hf, if_true, Value.make_ok Value.BOOL 0 (by decide) h0, Except.map] at h ⊢
      simp only [Except.ok.injEq, Prod.mk.injEq] at h
      obtain ⟨rfl, rfl⟩ := h
      exact ⟨p2, rfl, hs⟩
    · simp only [hf, if_false, Bool.false_eq_true, hs.offset, e3, hs.nums] at h ⊢
      by_cases hend : p.offset_ + (strtod (p.bytesFrom p.offset_)).2 = 0
      · simp only [hend, if_true, Except.ok.injEq, Prod.mk.injEq] at h
        obtain ⟨rfl, -⟩ := h
        exact absurd hv invalid_zero
      · simp only [hend, if_false] at h ⊢
        by_cases hcap : p.nums_.mem_.length ≤ VALUE_INDEX_MASK
        · simp only [Arena.Add_ok _ _ hcap, Value.make_ok Value.NUMBER _ (by decide) hcap,
            Except.map] at h ⊢
          simp only [Except.ok.injEq, Prod.mk.injEq] at h
          obtain ⟨rfl, rfl⟩ := h
          exact ⟨_, rfl, ⟨hs.ptr, hs.ptr2, hs.size, hs.size2, rfl, hs.strs, rfl,
            hs.arrays, hs.objects, hs.spans⟩⟩
        · simp only [Arena.Add_overflow _ _ hcap] at h
          exact absurd h (by simp)

theorem AddString_sim {s t : List Nat} {p p2 : Parser} (hs : Sim s t p p2)
    {span : StringSpan} (hspan : span.1 + span.2 < s.length)
    {v : Value} {q : Parser} (h : p.AddString span = .ok (v, q)) (hv : v.valid = true) :
    ∃ q2, p2.AddString span = .ok (v, q2) ∧ Sim s t q q2 := by
  have hval : p.IsValidString span = true := by
    unfold IsValidString; rw [hs.size]; simp only [decide_eq_true_eq]; omega
  have hval2 : p2.IsValidString span = true := by
    unfold IsValidString; rw [hs.size2]
    simp only [decide_eq_true_eq, List.length_append, List.length_cons]; omega
  unfold AddString at h ⊢
  simp only [hval, hval2, Bool.not_true, Bool.false_eq_true, if_false, hs.strs] at h ⊢
  by_cases hcap : p.strs_.mem_.length ≤ VALUE_INDEX_MASK
  · simp only [Arena.Add_ok _ _ hcap, Value.make_ok Value.STRING _ (by decide) hcap,
      Except.map] at h ⊢
    simp only [Except.ok.injEq, Prod.mk.injEq] at h
    obtain ⟨rfl, rfl⟩ := h
    refine ⟨_, rfl, ⟨hs.ptr, hs.ptr2, hs.size, hs.size2, hs.offset, rfl, hs.nums,
      hs.arrays, hs.objects, ?_⟩⟩
    intro sp hsp
    simp only [List.mem_append, List.mem_singleton] at hsp
    rcases hsp with hsp | rfl
    · exact hs.spans sp hsp
    · omega
  · simp only [Arena.Add_overflow _ _ hcap] at h
    exact absurd h (by simp)

theorem spanBytes_sim {s t : List Nat} {p p2 : Parser} (hs : Sim s t p p2)
    {span : StringSpan} (hspan : span.1 + span.2 ≤ s.length) :
    p2.spanBytes span = p.spanBytes span := by
  unfold spanBytes
  apply List.map_congr_left
  intro i hi
  simp only [List.mem_range] at hi
  exact hs.byteAt (by omega)

theorem AsStringSpan_sim {s t : List Nat} {p p2 : Parser} (hs : Sim s t p p2)
    {span : StringSpan} (hspan : span.1 + span.2 ≤ s.length) :
    p2.AsStringSpan span = p.AsStringSpan span := by
  unfold AsStringSpan
  rw [spanBytes_sim hs hspan]

theorem AsStringPiece_sim {s t : List Nat} {p p2 : Parser} (hs : Sim s t p p2)
    (str : List Nat) : Sim s t (p.AsStringPiece str).2 (p2.AsStringPiece str).2 := by
  have h1 := (AsStringPiece_step p str).2
  have h2 := (AsStringPiece_step p2 str).2
  have e1 : (p.AsStringPiece str).2.strs_ = p.strs_ := by
    unfold AsStringPiece; split_ifs <;> rfl
  have e2 : (p2.AsStringPiece str).2.strs_ = p2.strs_ := by
    unfold AsStringPiece; split_ifs <;> rfl
  have e3 : (p.AsStringPiece str).2.nums_ = p.nums_ := by
    unfold AsStringPiece; split_ifs <;> rfl
  have e4 : (p2.AsStringPiece str).2.nums_ = p2.nums_ := by
    unfold AsStringPiece; split_ifs <;> rfl
  have e5 : (p.AsStringPiece str).2.arrays_ = p.arrays_ := by
    unfold AsStringPiece; split_ifs <;> rfl
  have e6 : (p2.AsStringPiece str).2.arrays_ = p2.arrays_ := by
    unfold AsStringPiece; split_ifs <;> rfl
  have e7 : (p.AsStringPiece str).2.objects_ = p.objects_ := by
    unfold AsStringPiece; split_ifs <;> rfl
  have e8 : (p2.AsStringPiece str).2.objects_ = p2.objects_ := by
    unfold AsStringPiece; split_ifs <;> rfl
  refine ⟨h1.ptr.trans hs.ptr, h2.ptr.trans hs.ptr2, h1.size.trans hs.size,
    h2.size.trans hs.size2, ?_, ?_, ?_, ?_, ?_, ?_⟩
  · rw [h1.offset, h2.offset, hs.offset]
  · rw [e1, e2, hs.strs]
  · rw [e3, e4, hs.nums]
  · rw [e5, e6, hs.arrays]
  · rw [e7, e8, hs.objects]
  · rw [e1]; exact hs.spans
theorem ArrayLoop_overflow (pv : Parser → Except Fault (Value × Parser)) (f : Nat)
    (p q1 q2 : Parser) (acc : ValueArray) (v : Value) (hpv : pv p = .ok (v, q1))
    (hv : v.valid = true) (hnn : q1.NextNonSpaceChar = (93, q2))
    (hcap : ¬ q2.advance.arrays_.mem_.length ≤ VALUE_INDEX_MASK) :
    ArrayLoop pv (f + 1) p acc = .error .assertion := by
  rw [ArrayLoop]
  simp only [hpv, hv, hnn]
  refine Eq.trans (b := (match q2.advance.arrays_.Add (acc ++ [v]) with
        | .error e => .error e
        | .ok (index, arrays) =>
          (Value.make Value.ARRAY index).map
            (fun v => (v, { q2.advance with arrays_ := arrays }))))  rfl ?_
  rw [Arena.Add_overflow _ _ hcap]

theorem ObjectLoop_overflow (pv : Parser → Except Fault (Value × Parser)) (f : Nat)
    (p q1 q2 q3 q4 q5 : Parser) (acc : Object) (key : StringSpan) (v : Value) (str : List Nat)
    (h1 : p.NextNonSpaceChar = (34, q1)) (h2 : q1.advance.ParseString = .ok (key, q2))
    (h3 : q2.IsValidString key = true) (h4 : q2.NextNonSpaceChar = (58, q3))
    (h5 : pv q3.advance = .ok (v, q4)) (hv : v.valid = true)
    (h6 : q4.AsStringSpan key = .ok str)
    (h7 : (q4.AsStringPiece str).2.NextNonSpaceChar = (125, q5))
    (hcap : ¬ q5.advance.objects_.mem_.length ≤ VALUE_INDEX_MASK) :
    ObjectLoop pv (f + 1) p acc = .error .assertion := by
  have hk := (AsStringPiece_step q4 str).1
  rw [ObjectLoop]
  simp only [h1, h2, h3, h4, h5, hv, h6, h7, hk]
  refine Eq.trans (b := (match q5.advance.objects_.Add (acc ++ [(str, v)]) with
        | .error e => .error e
        | .ok (index, objects) =>
          (Value.make Value.OBJECT index).map
            (fun v => (v, { q5.advance with objects_ := objects }))))  rfl ?_
  rw [Arena.Add_overflow _ _ hcap]

theorem ok_inj {v v2 : Value} {q q2 : Parser}
    (h : (Except.ok (v, q) : Except Fault (Value × Parser)) = .ok (v2, q2)) :
    v = v2 ∧ q = q2 := by
  simp only [Except.ok.injEq, Prod.mk.injEq] at h
  exact h

theorem ArrayLoop_sim (s t : List Nat) (pv pv2 : Parser → Except Fault (Value × Parser))
    (hpv : ∀ p p2 v q, Sim s t p p2 → pv p = .ok (v, q) → v.valid = true →
      ∃ q2, pv2 p2 = .ok (v, q2) ∧ Sim s t q q2) :
    ∀ (k k2 : Nat) (p p2 : Parser) (acc : ValueArray) (v : Value) (q : Parser),
      Sim s t p p2 → k ≤ k2 → ArrayLoop pv k p acc = .ok (v, q) → v.valid = true →
      ∃ q2, ArrayLoop pv2 k2 p2 acc = .ok (v, q2) ∧ Sim s t q q2 := by
  intro k
  induction k with
  | zero =>
    intro k2 p p2 acc v q _ _ h
    simp [ArrayLoop] at h
  | succ k ih =>
    intro k2 p p2 acc v q hs hk h hv
    obtain ⟨m, rfl⟩ : ∃ m, k2 = m + 1 := ⟨k2 - 1, by omega⟩
    cases hp : pv p with
    | error e =>
      rw [ArrayLoop_error pv k p acc e hp] at h
      exact absurd h (by simp)
    | ok r =>
      obtain ⟨v1, q1⟩ := r
      by_cases hv1 : v1.valid = true
      swap
      · rw [ArrayLoop_invalid pv k p q1 acc v1 hp (by simpa using hv1)] at h
        obtain ⟨rfl, -⟩ := ok_inj h
        exact absurd hv hv1
      obtain ⟨r1, hp2, hs1⟩ := hpv p p2 v1 q1 hs hp hv1
      have hnn := pair_eta q1.NextNonSpaceChar
      have hnn2 := pair_eta r1.NextNonSpaceChar
      by_cases h0 : q1.NextNonSpaceChar.1 = 0
      · rw [h0] at hnn
        rw [ArrayLoop_other pv k p q1 _ acc v1 0 hp hv1 hnn (by decide) (by decide)] at h
        obtain ⟨rfl, -⟩ := ok_inj h
        exact absurd hv invalid_zero
      obtain ⟨hc, hs2⟩ := NextNonSpaceChar_sim hs1 h0
      rw [hc] at hnn2
      by_cases h44 : q1.NextNonSpaceChar.1 = 44
      · rw [h44] at hnn hnn2
        rw [ArrayLoop_cons pv k p q1 _ acc v1 hp hv1 hnn] at h
        rw [ArrayLoop_cons pv2 m p2 r1 _ acc v1 hp2 hv1 hnn2]
        exact ih m _ _ (acc ++ [v1]) v q hs2.advance (by omega) h hv
      by_cases h93 : q1.NextNonSpaceChar.1 = 93
      · rw [h93] at hnn hnn2
        by_cases hcap : q1.NextNonSpaceChar.2.advance.arrays_.mem_.length ≤ VALUE_INDEX_MASK
        · have hs3 := hs2.advance
          have hcap2 : r1.NextNonSpaceChar.2.advance.arrays_.mem_.length ≤ VALUE_INDEX_MASK := by
            rw [hs3.arrays]; exact hcap
          rw [ArrayLoop_last pv k p q1 _ acc v1 hp hv1 hnn hcap] at h
          rw [ArrayLoop_last pv2 m p2 r1 _ acc v1 hp2 hv1 hnn2 hcap2]
          obtain ⟨rfl, rfl⟩ := ok_inj h
          refine ⟨_, by rw [hs3.arrays], ?_⟩
          exact ⟨hs3.ptr, hs3.ptr2, hs3.size, hs3.size2, hs3.offset, hs3.strs, hs3.nums,
            rfl, hs3.objects, hs3.spans⟩
        · rw [ArrayLoop_overflow pv k p q1 _ acc v1 hp hv1 hnn hcap] at h
          exact absurd h (by simp)
      · rw [ArrayLoop_other pv k p q1 _ acc v1 _ hp hv1 hnn h44 h93] at h
        obtain ⟨rfl, -⟩ := ok_inj h
        exact absurd hv invalid_zero
theorem ObjectLoop_sim (s t : List Nat) (pv pv2 : Parser → Except Fault (Value × Parser))
    (hpv : ∀ p p2 v q, Sim s t p p2 → pv p = .ok (v, q) → v.valid = true →
      ∃ q2, pv2 p2 = .ok (v, q2) ∧ Sim s t q q2) :
    ∀ (k k2 : Nat) (p p2 : Parser) (acc : Object) (v : Value) (q : Parser),
      Sim s t p p2 → k ≤ k2 → ObjectLoop pv k p acc = .ok (v, q) → v.valid = true →
      ∃ q2, ObjectLoop pv2 k2 p2 acc = .ok (v, q2) ∧ Sim s t q q2 := by
  intro k
  induction k with
  | zero =>
    intro k2 p p2 acc v q _ _ h
    simp [ObjectLoop] at h
  | succ k ih =>
    intro k2 p p2 acc v q hs hk h hv
    obtain ⟨m, rfl⟩ : ∃ m, k2 = m + 1 := ⟨k2 - 1, by omega⟩
    -- the key
    have hnn1 := pair_eta p.NextNonSpaceChar
    have hnn1b := pair_eta p2.NextNonSpaceChar
    by_cases h34 : p.NextNonSpaceChar.1 = 34
    swap
    · rw [ObjectLoop_nokey pv k p _ acc _ hnn1 h34] at h
      obtain ⟨rfl, -⟩ := ok_inj h
      exact absurd hv invalid_zero
    obtain ⟨hc1, hs1⟩ := NextNonSpaceChar_sim hs (by rw [h34]; decide)
    rw [hc1] at hnn1b
    rw [h34] at hnn1 hnn1b
    have hs1a := hs1.advance
    cases hps : p.NextNonSpaceChar.2.advance.ParseString with
    | error e =>
      rw [ObjectLoop_keyfault pv k p _ acc e hnn1 hps] at h
      exact absurd h (by simp)
    | ok r =>
      obtain ⟨key, q2⟩ := r
      by_cases h3 : q2.IsValidString key = true
      swap
      · rw [ObjectLoop_badkey pv k p _ q2 acc key hnn1 hps (by simpa using h3)] at h
        obtain ⟨rfl, -⟩ := ok_inj h
        exact absurd hv invalid_zero
      have hkey : key.1 < p.NextNonSpaceChar.2.advance.size_ := by
        have hf := ParseStringLoop_frame _ _ _ _ _ _ hps
        unfold IsValidString at h3
        simp only [decide_eq_true_eq] at h3
        rw [← hf]; exact h3
      obtain ⟨r2, hps2, hs2, hbound⟩ := ParseString_sim hs1a hps hkey
      have h3b : r2.IsValidString key = true := by
        unfold IsValidString
        simp only [decide_eq_true_eq]
        rw [hs2.size2]
        simp only [List.length_append, List.length_cons]
        omega
      -- the colon
      have hnn3 := pair_eta q2.NextNonSpaceChar
      have hnn3b := pair_eta r2.NextNonSpaceChar
      by_cases h58 : q2.NextNonSpaceChar.1 = 58
      swap
      · rw [ObjectLoop_nocolon pv k p _ q2 _ acc key _ hnn1 hps h3 hnn3 h58] at h
        obtain ⟨rfl, -⟩ := ok_inj h
        exact absurd hv invalid_zero
      obtain ⟨hc3, hs3⟩ := NextNonSpaceChar_sim hs2 (by rw [h58]; decide)
      rw [hc3] at hnn3b
      rw [h58] at hnn3 hnn3b
      have hs3a := hs3.advance
      -- the value
      cases hp5 : pv q2.NextNonSpaceChar.2.advance with
      | error e =>
        rw [ObjectLoop_error pv k p _ q2 _ acc key e hnn1 hps h3 hnn3 hp5] at h
        exact absurd h (by simp)
      | ok r =>
        obtain ⟨v1, q4⟩ := r
        by_cases hv1 : v1.valid = true
        swap
        · rw [ObjectLoop_invalid pv k p _ q2 _ q4 acc key v1 hnn1 hps h3 hnn3 hp5
            (by simpa using hv1)] at h
          obtain ⟨rfl, -⟩ := ok_inj h
          exact absurd hv hv1
        obtain ⟨r4, hp5b, hs4⟩ := hpv _ _ v1 q4 hs3a hp5 hv1
        cases h6 : q4.AsStringSpan key with
        | error e =>
          rw [ObjectLoop_decodefault pv k p _ q2 _ q4 acc key v1 e hnn1 hps h3 hnn3 hp5 hv1
            h6] at h
          exact absurd h (by simp)
        | ok str =>
          have h6b : r4.AsStringSpan key = .ok str := by
            rw [AsStringSpan_sim hs4 (Nat.le_of_lt hbound)]; exact h6
          have hs4b := AsStringPiece_sim hs4 str
          -- the separator
          have hnn5 := pair_eta (q4.AsStringPiece str).2.NextNonSpaceChar
          have hnn5b := pair_eta (r4.AsStringPiece str).2.NextNonSpaceChar
          by_cases h0 : (q4.AsStringPiece str).2.NextNonSpaceChar.1 = 0
          · rw [h0] at hnn5
            rw [ObjectLoop_other pv k p _ q2 _ q4 _ acc key v1 str 0 hnn1 hps h3 hnn3 hp5 hv1
              h6 hnn5 (by decide) (by decide)] at h
            obtain ⟨rfl, -⟩ := ok_inj h
            exact absurd hv invalid_zero
          obtain ⟨hc5, hs5⟩ := NextNonSpaceChar_sim hs4b h0
          rw [hc5] at hnn5b
          by_cases h44 : (q4.AsStringPiece str).2.NextNonSpaceChar.1 = 44
          · rw [h44] at hnn5 hnn5b
            rw [ObjectLoop_cons pv k p _ q2 _ q4 _ acc key v1 str hnn1 hps h3 hnn3 hp5 hv1 h6
              hnn5] at h
            rw [ObjectLoop_cons pv2 m p2 _ r2 _ r4 _ acc key v1 str hnn1b hps2 h3b hnn3b hp5b
              hv1 h6b hnn5b]
            exact ih m _ _ (acc ++ [(str, v1)]) v q hs5.advance (by omega) h hv
          by_cases h125 : (q4.AsStringPiece str).2.NextNonSpaceChar.1 = 125
          · rw [h125] at hnn5 hnn5b
            have hs6 := hs5.advance
            by_cases hcap : (q4.AsStringPiece str).2.NextNonSpaceChar.2.advance.objects_.mem_.length
                ≤ VALUE_INDEX_MASK
            · have hcap2 :
                  (r4.AsStringPiece str).2.NextNonSpaceChar.2.advance.objects_.mem_.length
                    ≤ VALUE_INDEX_MASK := by
                rw [hs6.objects]; exact hcap
              rw [ObjectLoop_last pv k p _ q2 _ q4 _ acc key v1 str hnn1 hps h3 hnn3 hp5 hv1 h6
                hnn5 hcap] at h
              rw [ObjectLoop_last pv2 m p2 _ r2 _ r4 _ acc key v1 str hnn1b hps2 h3b hnn3b hp5b
                hv1 h6b hnn5b hcap2]
              obtain ⟨rfl, rfl⟩ := ok_inj h
              refine ⟨_, by rw [hs6.objects], ?_⟩
              exact ⟨hs6.ptr, hs6.ptr2, hs6.size, hs6.size2, hs6.offset, hs6.strs, hs6.nums,
                hs6.arrays, rfl, hs6.spans⟩
            · rw [ObjectLoop_overflow pv k p _ q2 _ q4 _ acc key v1 str hnn1 hps h3 hnn3 hp5
                hv1 h6 hnn5 hcap] at h
              exact absurd h (by simp)
          · rw [ObjectLoop_other pv k p _ q2 _ q4 _ acc key v1 str _ hnn1 hps h3 hnn3 hp5 hv1
              h6 hnn5 h44 h125] at h
            obtain ⟨rfl, -⟩ := ok_inj h
            exact absurd hv invalid_zero
theorem Sim.fuel {s t : List Nat} {p p2 : Parser} (hs : Sim s t p p2) :
    p.size_ - p.offset_ + 1 ≤ p2.size_ - p2.offset_ + 1 := by
  rw [hs.size, hs.size2, hs.offset]
  simp only [List.length_append, List.length_cons]
  omega

/-- A parse that ends with a valid value runs the same way when a space and more text
follow the input. -/
theorem ParseValue_sim (s t : List Nat) :
    ∀ (n n2 : Nat) (p p2 : Parser) (v : Value) (q : Parser), Sim s t p p2 → n ≤ n2 →
      ParseValue n p = .ok (v, q) → v.valid = true →
      ∃ q2, ParseValue n2 p2 = .ok (v, q2) ∧ Sim s t q q2 := by
  intro n
  induction n with
  | zero =>
    intro n2 p p2 v q _ _ h
    simp [ParseValue] at h
  | succ n ih =>
    intro n2 p p2 v q hs hn h hv
    obtain ⟨m, rfl⟩ : ∃ m, n2 = m + 1 := ⟨n2 - 1, by omega⟩
    have hpv : ∀ p p2 v q, Sim s t p p2 → ParseValue n p = .ok (v, q) → v.valid = true →
        ∃ q2, ParseValue m p2 = .ok (v, q2) ∧ Sim s t q q2 :=
      fun p p2 v q hs h hv => ih m p p2 v q hs (by omega) h hv
    have hnn := pair_eta p.NextNonSpaceChar
    have hnn2 := pair_eta p2.NextNonSpaceChar
    by_cases h0 : p.NextNonSpaceChar.1 = 0
    · rw [ParseValue_eof n p h0] at h
      obtain ⟨rfl, -⟩ := ok_inj h
      exact absurd hv invalid_zero
    obtain ⟨hc, hs0⟩ := NextNonSpaceChar_sim hs h0
    rw [hc] at hnn2
    by_cases h91 : p.NextNonSpaceChar.1 = 91
    · rw [h91] at hnn hnn2
      rw [ParseValue_array n p _ hnn] at h
      rw [ParseValue_array m p2 _ hnn2]
      exact ArrayLoop_sim s t _ _ hpv _ _ _ _ [] v q hs0.advance hs0.advance.fuel h hv
    by_cases h123 : p.NextNonSpaceChar.1 = 123
    · rw [h123] at hnn hnn2
      rw [ParseValue_object n p _ hnn] at h
      rw [ParseValue_object m p2 _ hnn2]
      exact ObjectLoop_sim s t _ _ hpv _ _ _ _ [] v q hs0.advance hs0.advance.fuel h hv
    by_cases h34 : p.NextNonSpaceChar.1 = 34
    · rw [h34] at hnn hnn2
      rw [ParseValue_quote n p _ hnn] at h
      rw [ParseValue_quote m p2 _ hnn2]
      cases hps : p.NextNonSpaceChar.2.advance.ParseString with
      | error e =>
        rw [hps] at h
        exact absurd h (by simp)
      | ok r =>
        obtain ⟨str, q2⟩ := r
        rw [hps] at h
        simp only [] at h
        by_cases h3 : q2.IsValidString str = true
        swap
        · rw [AddString_invalid q2 str (by simpa using h3)] at h
          obtain ⟨rfl, -⟩ := ok_inj h
          exact absurd hv invalid_zero
        have hkey : str.1 < p.NextNonSpaceChar.2.advance.size_ := by
          have hf := ParseStringLoop_frame _ _ _ _ _ _ hps
          unfold IsValidString at h3
          simp only [decide_eq_true_eq] at h3
          rw [← hf]; exact h3
        obtain ⟨r2, hps2, hs2, hbound⟩ := ParseString_sim hs0.advance hps hkey
        rw [hps2]
        exact AddString_sim hs2 hbound h hv
    · rw [ParseValue_other n p _ _ hnn h0 h91 h123 h34] at h
      rw [ParseValue_other m p2 _ _ hnn2 h0 h91 h123 h34]
      obtain ⟨hlt, hb, hsp⟩ := NextNonSpaceChar_byte p h0
      rw [hs0.size] at hlt
      rw [← hb] at hsp
      exact ParseBoolOrNumber_sim hs0 hlt hsp h hv
theorem ParseFromString_inv (str : List Nat) (v : Value) (q : Parser)
    (h : init.ParseFromString str = .ok (v, q)) :
    ∃ q0, ParseValue (str.length + 1) (init.setBuffer str str.length) = .ok (v, q0) ∧
      q = q0.reportSuperfluous v := by
  unfold ParseFromString ParseFromArray at h
  by_cases hsize : str.length ≤ MAX_DATA_SIZE
  · rw [if_pos hsize, if_neg (by simp [init])] at h
    cases hpv : ParseValue (str.length + 1) (init.setBuffer str str.length) with
    | error e =>
      rw [hpv] at h
      exact absurd h (by simp)
    | ok r =>
      obtain ⟨v0, q0⟩ := r
      rw [hpv] at h
      obtain ⟨rfl, rfl⟩ := ok_inj h
      exact ⟨q0, rfl, rfl⟩
  · rw [if_neg hsize] at h
    exact absurd h (by simp)

theorem init_sim (s t : List Nat) :
    Sim s t (init.setBuffer s s.length)
      (init.setBuffer (s ++ 32 :: t) (s ++ 32 :: t).length) :=
  ⟨rfl, rfl, rfl, rfl, rfl, rfl, rfl, rfl, rfl, fun sp h => by simp [init, setBuffer] at h⟩

theorem Arena.Get_mem {α : Type} {a : Arena α} {i : Nat} {x : α} (h : a.Get i = .ok x) :
    x ∈ a.mem_ := by
  unfold Arena.Get at h
  cases hg : a.mem_.get? i with
  | none => rw [hg] at h; exact absurd h (by simp)
  | some y =>
    rw [hg] at h
    simp only [Except.ok.injEq] at h
    subst h
    exact List.get?_mem hg

/-- C10: when `ParseFromString` of `s` returns a valid value, `ParseFromString` of `s`
followed by a space and any further bytes `t` (at most `MAX_DATA_SIZE` bytes in all, as
`ParseFromString` asserts) returns the same handle, the four arenas hold the same entries
and every accessor gives the same result. -/
theorem C10_trailing_data (s t : List Nat) (v : Value) (q : Parser)
    (hparse : init.ParseFromString s = .ok (v, q)) (hv : v.valid = true)
    (hsize : (s ++ 32 :: t).length ≤ MAX_DATA_SIZE) :
    ∃ q2, init.ParseFromString (s ++ 32 :: t) = .ok (v, q2) ∧
      q2.strs_ = q.strs_ ∧ q2.nums_ = q.nums_ ∧ q2.arrays_ = q.arrays_ ∧
      q2.objects_ = q.objects_ ∧
      (∀ x, q2.AsString x = q.AsString x) ∧ (∀ x, q2.AsNumber x = q.AsNumber x) ∧
      (∀ x, q2.ArraySize x = q.ArraySize x) ∧ (∀ x i, q2.ArrayElem x i = q.ArrayElem x i) ∧
      (∀ x, q2.ObjectSize x = q.ObjectSize x) ∧
      (∀ x name, q2.ObjectProp x name = q.ObjectProp x name) := by
  obtain ⟨q0, hpv, rfl⟩ := ParseFromString_inv s v q hparse
  obtain ⟨r0, hpv2, hs⟩ := ParseValue_sim s t _ ((s ++ 32 :: t).length + 1) _ _ v q0
    (init_sim s t) (by simp only [List.length_append, List.length_cons]; omega) hpv hv
  have e1 : (r0.reportSuperfluous v).strs_ = (q0.reportSuperfluous v).strs_ := by
    rw [reportSuperfluous_strs_, reportSuperfluous_strs_, hs.strs]
  have e2 : (r0.reportSuperfluous v).nums_ = (q0.reportSuperfluous v).nums_ := by
    rw [reportSuperfluous_nums_, reportSuperfluous_nums_, hs.nums]
  have e3 : (r0.reportSuperfluous v).arrays_ = (q0.reportSuperfluous v).arrays_ := by
    rw [reportSuperfluous_arrays_, reportSuperfluous_arrays_, hs.arrays]
  have e4 : (r0.reportSuperfluous v).objects_ = (q0.reportSuperfluous v).objects_ := by
    rw [reportSuperfluous_objects_, reportSuperfluous_objects_, hs.objects]
  refine ⟨_, ParseFromString_eq _ hsize v r0 hpv2, e1, e2, e3, e4, ?_, ?_, ?_, ?_, ?_, ?_⟩
  · intro x
    unfold AsString
    rw [e1]
    split_ifs with ht
    · rfl
    · cases hg : (q0.reportSuperfluous v).strs_.Get x.index with
      | error e => rfl
      | ok sp =>
        have hmem := Arena.Get_mem hg
        rw [reportSuperfluous_strs_] at hmem
        show (r0.reportSuperfluous v).AsStringSpan sp = (q0.reportSuperfluous v).AsStringSpan sp
        rw [AsStringSpan_ptr (reportSuperfluous_ptr_ r0 v),
          AsStringSpan_ptr (reportSuperfluous_ptr_ q0 v)]
        exact AsStringSpan_sim hs (hs.spans sp hmem)
  · intro x; unfold AsNumber; rw [e2]
  · intro x; unfold ArraySize; rw [e3]
  · intro x i; unfold ArrayElem; rw [e3]
  · intro x; unfold ObjectSize; rw [e4]
  · intro x name; unfold ObjectProp; rw [e4]

/-- C10 at `123` and `garbage`: `123 garbage` gives the valid `NUMBER` that `123` gives, and its
`AsNumber` is `123.0`. -/
theorem C10_trailing_data_witness :
    init.ParseFromString (ascii "123") = .ok (Value.pack Value.NUMBER 0, parsed123) ∧
    (Value.pack Value.NUMBER 0).valid = true ∧
    (ascii "123" ++ 32 :: ascii "garbage").length ≤ MAX_DATA_SIZE ∧
    ascii "123" ++ 32 :: ascii "garbage" = ascii "123 garbage" ∧
    (∃ q2, init.ParseFromString (ascii "123" ++ 32 :: ascii "garbage")
        = .ok (Value.pack Value.NUMBER 0, q2) ∧
      q2.strs_ = parsed123.strs_ ∧ q2.nums_ = parsed123.nums_ ∧
      q2.arrays_ = parsed123.arrays_ ∧ q2.objects_ = parsed123.objects_ ∧
      (∀ x, q2.AsString x = parsed123.AsString x) ∧
      (∀ x, q2.AsNumber x = parsed123.AsNumber x) ∧
      (∀ x, q2.ArraySize x = parsed123.ArraySize x) ∧
      (∀ x i, q2.ArrayElem x i = parsed123.ArrayElem x i) ∧
      (∀ x, q2.ObjectSize x = parsed123.ObjectSize x) ∧
      (∀ x name, q2.ObjectProp x name = parsed123.ObjectProp x name)) ∧
    (init.ParseFromString (ascii "123 garbage")).map
        (fun r => (r.1.valid, r.1.type, r.2.AsNumber r.1, r.2.printed))
      = .ok (true, Value.NUMBER, .ok (Double.ofNatExact 123), [.superfluous 8]) :=
  ⟨by decide!, by decide, by decide, by decide,
    C10_trailing_data (ascii "123") (ascii "garbage") (Value.pack Value.NUMBER 0) parsed123
      (by decide!) (by decide) (by decide),
    by decide!⟩

/-! ## The string decoder -/

theorem AsStringLoop_not_wellEscaped (raw : List Nat) :
    ∀ acc, wellEscaped raw = false → AsStringLoop false raw acc = .error .assertion := by
  induction raw using wellEscaped.induct with
  | case1 => intro acc h; simp [wellEscaped] at h
  | case2 => intro acc _; simp [AsStringLoop]
  | case3 c rest2 ih =>
    intro acc h
    simp only [wellEscaped, if_true] at h
    simp only [AsStringLoop, if_true]
    exact ih _ h
  | case4 rest hc =>
    intro acc _
    simp only [AsStringLoop, hc, if_false, if_true]
  | case5 c rest hc hq ih =>
    intro acc h
    unfold wellEscaped at h
    simp only [hc, hq, if_false] at h
    simp only [AsStringLoop, hc, hq, if_false]
    exact ih _ h

/-- C11: the decoder on a span of fewer than `2 ^ 31` bytes gives the reference decoding
`unescape` of the bytes of the span (a backslash and `t`, `r` or `n` give tab, CR or LF, a
backslash and any other byte give that byte, every other byte is copied) when the span is
well escaped, as every span of the scanner is, and fails its assertion otherwise; the
result depends on the buffer and the span only, so decoding again gives the same text; and
`AsString` on a `STRING` handle is the decoder on the stored span. -/
theorem C11_decoder_is_reference (p : Parser) (s : StringSpan) (hlen : s.2 < INT_LIMIT) :
    (wellEscaped (p.spanBytes s) = true →
      p.AsStringSpan s = .ok (unescape (p.spanBytes s))) ∧
    (wellEscaped (p.spanBytes s) = false → p.AsStringSpan s = .error .assertion) ∧
    (∀ q : Parser, q.ptr_ = p.ptr_ → q.AsStringSpan s = p.AsStringSpan s) ∧
    (∀ v : Value, v.type = Value.STRING → p.strs_.Get v.index = .ok s →
      p.AsString v = p.AsStringSpan s) := by
  have hlt : ¬ INT_LIMIT ≤ s.2 := by omega
  refine ⟨?_, ?_, ?_, ?_⟩
  · intro h
    simp only [AsStringSpan, hlt, if_false]
    rw [AsStringLoop_wellEscaped _ [] h]
    simp
  · intro h
    simp only [AsStringSpan, hlt, if_false]
    exact AsStringLoop_not_wellEscaped _ [] h
  · intro q hq
    exact AsStringSpan_ptr hq s
  · intro v hv hg
    unfold AsString
    rw [if_neg (by rw [hv]; simp), hg]

/-- C11 at the source text `a\tb\n\"c\\d`: it decodes to `a`, tab, `b`, LF, `"c\d`. -/
theorem C11_decoder_is_reference_witness :
    (12 : Nat) < INT_LIMIT ∧
    escapedSample.spanBytes (0, 12) = ascii "a\\tb\\n\\\"c\\\\d" ∧
    wellEscaped (escapedSample.spanBytes (0, 12)) = true ∧
    unescape (escapedSample.spanBytes (0, 12)) = ascii "a\tb\n\"c\\d" ∧
    escapedSample.AsStringSpan (0, 12) = .ok (ascii "a\tb\n\"c\\d") ∧
    ((wellEscaped (escapedSample.spanBytes (0, 12)) = true →
      escapedSample.AsStringSpan (0, 12) = .ok (unescape (escapedSample.spanBytes (0, 12)))) ∧
    (wellEscaped (escapedSample.spanBytes (0, 12)) = false →
      escapedSample.AsStringSpan (0, 12) = .error .assertion) ∧
    (∀ q : Parser, q.ptr_ = escapedSample.ptr_ →
      q.AsStringSpan (0, 12) = escapedSample.AsStringSpan (0, 12)) ∧
    (∀ v : Value, v.type = Value.STRING → escapedSample.strs_.Get v.index = .ok (0, 12) →
      escapedSample.AsString v = escapedSample.AsStringSpan (0, 12))) :=
  ⟨by decide, by decide, by decide, by decide, by decide,
    C11_decoder_is_reference escapedSample (0, 12) (by decide)⟩

/-! ## Handles -/

theorem Value.valid_iff (v : Value) : v.valid = true ↔ v.value_ >>> 29 ≠ 0 := by
  simp only [Value.valid, Value.type, VALUE_INDEX_BITS, decide_eq_true_eq]
  omega

/-- C13: for a type tag `t` from `STRING = 1` to `OBJECT = 5` and an index `i < 2 ^ 29`
the constructor gives the handle `(t << 29) | i`, which is below `2 ^ 32`, and its `type()`
is `t`, its `index()` is `i` and it is valid; the default handle is `0`, has type tag `0`
and is invalid; and a handle is valid exactly when the bits above the index are not zero. -/
theorem C13_handle_packing (t i : Nat) (ht : 1 ≤ t ∧ t ≤ 5) (hi : i < 2 ^ 29) :
    (Value.make t i = .ok ⟨(t <<< 29 ||| i) % 2 ^ 32⟩ ∧
      (t <<< 29 ||| i) % 2 ^ 32 = t <<< 29 ||| i ∧
      (⟨(t <<< 29 ||| i) % 2 ^ 32⟩ : Value).type = t ∧
      (⟨(t <<< 29 ||| i) % 2 ^ 32⟩ : Value).index = i ∧
      (⟨(t <<< 29 ||| i) % 2 ^ 32⟩ : Value).valid = true) ∧
    (({} : Value).value_ = 0 ∧ ({} : Value).type = 0 ∧ ({} : Value).valid = false) ∧
    (∀ v : Value, v.valid = true ↔ v.value_ >>> 29 ≠ 0) := by
  have hm : i ≤ VALUE_INDEX_MASK := by rw [VALUE_INDEX_MASK_eq]; omega
  have hmk := Value.make_ok t i (by omega) hm
  have hor : t <<< 29 ||| i = t * 2 ^ 29 + i := by
    rw [Nat.shiftLeft_eq, Nat.mul_comm t, ← Nat.mul_add_lt_is_or hi]
  have hlt : t * 2 ^ 29 + i < 2 ^ 32 := by omega
  have hv : (⟨(t <<< 29 ||| i) % 2 ^ 32⟩ : Value) = Value.pack t i := by
    rw [hor, Nat.mod_eq_of_lt hlt]; rfl
  refine ⟨⟨?_, ?_, ?_, ?_, ?_⟩, ⟨rfl, by decide, by decide⟩, Value.valid_iff⟩
  · rw [hv]; exact hmk
  · rw [hor, Nat.mod_eq_of_lt hlt]
  · rw [hv]; exact Value.type_pack t i hm
  · rw [hv]; exact Value.index_pack t i hm
  · rw [hv]; exact Value.valid_pack t i (by omega) hm

/-- C13 at the largest handle of the parser, `OBJECT` with index `2 ^ 29 - 1`: it is
`3221225471`, that is `0xBFFFFFFF`. -/
theorem C13_handle_packing_witness :
    ((1 : Nat) ≤ 5 ∧ (5 : Nat) ≤ 5) ∧ (2 ^ 29 - 1 : Nat) < 2 ^ 29 ∧
    (5 <<< 29 ||| (2 ^ 29 - 1)) % 2 ^ 32 = 3221225471 ∧
    ((Value.make 5 (2 ^ 29 - 1) = .ok ⟨(5 <<< 29 ||| (2 ^ 29 - 1)) % 2 ^ 32⟩ ∧
      (5 <<< 29 ||| (2 ^ 29 - 1)) % 2 ^ 32 = 5 <<< 29 ||| (2 ^ 29 - 1) ∧
      (⟨(5 <<< 29 ||| (2 ^ 29 - 1)) % 2 ^ 32⟩ : Value).type = 5 ∧
      (⟨(5 <<< 29 ||| (2 ^ 29 - 1)) % 2 ^ 32⟩ : Value).index = 2 ^ 29 - 1 ∧
      (⟨(5 <<< 29 ||| (2 ^ 29 - 1)) % 2 ^ 32⟩ : Value).valid = true) ∧
    (({} : Value).value_ = 0 ∧ ({} : Value).type = 0 ∧ ({} : Value).valid = false) ∧
    (∀ v : Value, v.valid = true ↔ v.value_ >>> 29 ≠ 0)) :=
  ⟨by decide, by decide, by decide,
    C13_handle_packing 5 (2 ^ 29 - 1) (by decide) (by decide)⟩

/-! ## The position in diagnostics -/

/-- C17 (the code differs): on `["ab" x]` the byte `x` is at offset 6, that is line 1,
column 7, and the diagnostic says line 1, column 4: `ParseString` moves `offset_` over the
string without moving `col_`.  On `[12 x]` the byte `x` is at column 5 and the diagnostic
says column 3: `ParseBoolOrNumber` moves `offset_` over the number without moving `col_`.
Where only white space and single bytes come before, as for the `x` at line 2, column 4 of
the third text, the position is right. -/
theorem C17_column_skips_tokens :
    ((init.ParseFromString (ascii "[\"ab\" x]")).map
        (fun r => (r.1.valid, r.2.offset_, r.2.line_, r.2.col_)) = .ok (false, 6, 1, 4) ∧
      (init.ParseFromString (ascii "[\"ab\" x]")).map (fun r => r.2.printed)
        = .ok [.unexpectedCh .arraySeparator 120 1 4]) ∧
    ((init.ParseFromString (ascii "[12 x]")).map
        (fun r => (r.1.valid, r.2.offset_, r.2.line_, r.2.col_)) = .ok (false, 4, 1, 3) ∧
      (init.ParseFromString (ascii "[12 x]")).map (fun r => r.2.printed)
        = .ok [.unexpectedCh .arraySeparator 120 1 3]) ∧
    ((init.ParseFromString (ascii "\n \x7b x")).map
        (fun r => (r.1.valid, r.2.offset_, r.2.line_, r.2.col_)) = .ok (false, 4, 2, 4) ∧
      (init.ParseFromString (ascii "\n \x7b x")).map (fun r => r.2.printed)
        = .ok [.unexpectedCh .objectKey 120 2 4]) :=
  ⟨⟨by decide!, by decide!⟩, ⟨by decide!, by decide!⟩, ⟨by decide!, by decide!⟩⟩

/-! ## The buffer pointer is set once -/

theorem NextNonSpaceChar_ptr (p : Parser) : p.NextNonSpaceChar.2.ptr_ = p.ptr_ := by
  obtain ⟨o, l, c, heq, -⟩ := NextNonSpaceChar_spec p
  rw [heq]

theorem ParseStringLoop_ptr :
    ∀ (n : Nat) (esc : Bool) (i : Nat) (p : Parser) (span : StringSpan) (q : Parser),
      ParseStringLoop n esc i p = .ok (span, q) → q.ptr_ = p.ptr_ := by
  intro n
  induction n with
  | zero =>
    intro esc i p span q h
    simp only [ParseStringLoop, Except.ok.injEq, Prod.mk.injEq] at h
    obtain ⟨-, rfl⟩ := h
    rfl
  | succ n ih =>
    intro esc i p span q h
    rw [ParseStringLoop] at h
    split_ifs at h
    all_goals first
      | exact ih _ _ _ _ _ h
      | (simp only [Except.ok.injEq, Prod.mk.injEq] at h
         obtain ⟨-, rfl⟩ := h
         rfl)

theorem AddString_ptr (p : Parser) (str : StringSpan) (v : Value) (q : Parser)
    (h : p.AddString str = .ok (v, q)) : q.ptr_ = p.ptr_ := by
  unfold AddString at h
  split_ifs at h with hv
  · obtain ⟨-, rfl⟩ := ok_inj h
    rfl
  · by_cases hcap : p.strs_.mem_.length ≤ VALUE_INDEX_MASK
    · simp only [Arena.Add_ok _ _ hcap, Value.make_ok Value.STRING _ (by decide) hcap,
        Except.map] at h
      obtain ⟨-, rfl⟩ := ok_inj h
      rfl
    · simp only [Arena.Add_overflow _ _ hcap] at h
      exact absurd h (by simp)

theorem ParseBoolOrNumber_ptr (p : Parser) (v : Value) (q : Parser)
    (h : p.ParseBoolOrNumber = .ok (v, q)) : q.ptr_ = p.ptr_ := by
  have h1 : (1 : Nat) ≤ VALUE_INDEX_MASK := by decide
  have h0 : (0 : Nat) ≤ VALUE_INDEX_MASK := by decide
  unfold ParseBoolOrNumber at h
  split_ifs at h with ht hf
  · simp only [Value.make_ok Value.BOOL 1 (by decide) h1, Except.map] at h
    obtain ⟨-, rfl⟩ := ok_inj h
    rfl
  · simp only [Value.make_ok Value.BOOL 0 (by decide) h0, Except.map] at h
    obtain ⟨-, rfl⟩ := ok_inj h
    rfl
  · simp only [] at h
    split_ifs at h with hend
    · obtain ⟨-, rfl⟩ := ok_inj h
      simp
    · by_cases hcap : p.nums_.mem_.length ≤ VALUE_INDEX_MASK
      · simp only [Arena.Add_ok _ _ hcap, Value.make_ok Value.NUMBER _ (by decide) hcap,
          Except.map] at h
        obtain ⟨-, rfl⟩ := ok_inj h
        rfl
      · simp only [Arena.Add_overflow _ _ hcap] at h
        exact absurd h (by simp)

theorem ArrayLoop_ptr (pv : Parser → Except Fault (Value × Parser))
    (hpv : ∀ p v q, pv p = .ok (v, q) → q.ptr_ = p.ptr_) :
    ∀ (k : Nat) (p : Parser) (acc : ValueArray) (v : Value) (q : Parser),
      ArrayLoop pv k p acc = .ok (v, q) → q.ptr_ = p.ptr_ := by
  intro k
  induction k with
  | zero =>
    intro p acc v q h
    simp [ArrayLoop] at h
  | succ k ih =>
    intro p acc v q h
    cases hp : pv p with
    | error e =>
      rw [ArrayLoop_error pv k p acc e hp] at h
      exact absurd h (by simp)
    | ok r =>
      obtain ⟨v1, q1⟩ := r
      have e1 := hpv p v1 q1 hp
      by_cases hv1 : v1.valid = true
      swap
      · rw [ArrayLoop_invalid pv k p q1 acc v1 hp (by simpa using hv1)] at h
        obtain ⟨-, rfl⟩ := ok_inj h
        exact e1
      have hnn := pair_eta q1.NextNonSpaceChar
      have e2 := NextNonSpaceChar_ptr q1
      by_cases h44 : q1.NextNonSpaceChar.1 = 44
      · rw [h44] at hnn
        rw [ArrayLoop_cons pv k p q1 _ acc v1 hp hv1 hnn] at h
        rw [ih _ _ _ _ h, advance_ptr_, e2, e1]
      by_cases h93 : q1.NextNonSpaceChar.1 = 93
      · rw [h93] at hnn
        by_cases hcap : q1.NextNonSpaceChar.2.advance.arrays_.mem_.length ≤ VALUE_INDEX_MASK
        · rw [ArrayLoop_last pv k p q1 _ acc v1 hp hv1 hnn hcap] at h
          obtain ⟨-, rfl⟩ := ok_inj h
          show q1.NextNonSpaceChar.2.advance.ptr_ = p.ptr_
          rw [advance_ptr_, e2, e1]
        · rw [ArrayLoop_overflow pv k p q1 _ acc v1 hp hv1 hnn hcap] at h
          exact absurd h (by simp)
      · rw [ArrayLoop_other pv k p q1 _ acc v1 _ hp hv1 hnn h44 h93] at h
        obtain ⟨-, rfl⟩ := ok_inj h
        rw [PrintUnexpectedCh_ptr_, e2, e1]

theorem AsStringPiece_ptr (p : Parser) (str : List Nat) :
    (p.AsStringPiece str).2.ptr_ = p.ptr_ := (AsStringPiece_step p str).2.ptr

theorem ObjectLoop_ptr (pv : Parser → Except Fault (Value × Parser))
    (hpv : ∀ p v q, pv p = .ok (v, q) → q.ptr_ = p.ptr_) :
    ∀ (k : Nat) (p : Parser) (acc : Object) (v : Value) (q : Parser),
      ObjectLoop pv k p acc = .ok (v, q) → q.ptr_ = p.ptr_ := by
  intro k
  induction k with
  | zero =>
    intro p acc v q h
    simp [ObjectLoop] at h
  | succ k ih =>
    intro p acc v q h
    have hnn1 := pair_eta p.NextNonSpaceChar
    have e1 := NextNonSpaceChar_ptr p
    by_cases h34 : p.NextNonSpaceChar.1 = 34
    swap
    · rw [ObjectLoop_nokey pv k p _ acc _ hnn1 h34] at h
      obtain ⟨-, rfl⟩ := ok_inj h
      rw [PrintUnexpectedCh_ptr_, e1]
    rw [h34] at hnn1
    cases hps : p.NextNonSpaceChar.2.advance.ParseString with
    | error e =>
      rw [ObjectLoop_keyfault pv k p _ acc e hnn1 hps] at h
      exact absurd h (by simp)
    | ok r =>
      obtain ⟨key, q2⟩ := r
      have e2 : q2.ptr_ = p.ptr_ := by
        rw [ParseStringLoop_ptr _ _ _ _ _ _ hps, advance_ptr_, e1]
      by_cases h3 : q2.IsValidString key = true
      swap
      · rw [ObjectLoop_badkey pv k p _ q2 acc key hnn1 hps (by simpa using h3)] at h
        obtain ⟨-, rfl⟩ := ok_inj h
        exact e2
      have hnn3 := pair_eta q2.NextNonSpaceChar
      have e3 := NextNonSpaceChar_ptr q2
      by_cases h58 : q2.NextNonSpaceChar.1 = 58
      swap
      · rw [ObjectLoop_nocolon pv k p _ q2 _ acc key _ hnn1 hps h3 hnn3 h58] at h
        obtain ⟨-, rfl⟩ := ok_inj h
        rw [PrintUnexpectedCh_ptr_, e3, e2]
      rw [h58] at hnn3
      cases hp5 : pv q2.NextNonSpaceChar.2.advance with
      | error e =>
        rw [ObjectLoop_error pv k p _ q2 _ acc key e hnn1 hps h3 hnn3 hp5] at h
        exact absurd h (by simp)
      | ok r =>
        obtain ⟨v1, q4⟩ := r
        have e4 : q4.ptr_ = p.ptr_ := by
          rw [hpv _ _ _ hp5, advance_ptr_, e3, e2]
        by_cases hv1 : v1.valid = true
        swap
        · rw [ObjectLoop_invalid pv k p _ q2 _ q4 acc key v1 hnn1 hps h3 hnn3 hp5
            (by simpa using hv1)] at h
          obtain ⟨-, rfl⟩ := ok_inj h
          exact e4
        cases h6 : q4.AsStringSpan key with
        | error e =>
          rw [ObjectLoop_decodefault pv k p _ q2 _ q4 acc key v1 e hnn1 hps h3 hnn3 hp5 hv1
            h6] at h
          exact absurd h (by simp)
        | ok str =>
          have hnn5 := pair_eta (q4.AsStringPiece str).2.NextNonSpaceChar
          have e5 : (q4.AsStringPiece str).2.NextNonSpaceChar.2.ptr_ = p.ptr_ := by
            rw [NextNonSpaceChar_ptr, AsStringPiece_ptr, e4]
          by_cases h44 : (q4.AsStringPiece str).2.NextNonSpaceChar.1 = 44
          · rw [h44] at hnn5
            rw [ObjectLoop_cons pv k p _ q2 _ q4 _ acc key v1 str hnn1 hps h3 hnn3 hp5 hv1 h6
              hnn5] at h
            rw [ih _ _ _ _ h, advance_ptr_, e5]
          by_cases h125 : (q4.AsStringPiece str).2.NextNonSpaceChar.1 = 125
          · rw [h125] at hnn5
            by_cases hcap : (q4.AsStringPiece str).2.NextNonSpaceChar.2.advance.objects_.mem_.length
                ≤ VALUE_INDEX_MASK
            · rw [ObjectLoop_last pv k p _ q2 _ q4 _ acc key v1 str hnn1 hps h3 hnn3 hp5 hv1 h6
                hnn5 hcap] at h
              obtain ⟨-, rfl⟩ := ok_inj h
              show (q4.AsStringPiece str).2.NextNonSpaceChar.2.advance.ptr_ = p.ptr_
              rw [advance_ptr_, e5]
            · rw [ObjectLoop_overflow pv k p _ q2 _ q4 _ acc key v1 str hnn1 hps h3 hnn3 hp5
                hv1 h6 hnn5 hcap] at h
              exact absurd h (by simp)
          · rw [ObjectLoop_other pv k p _ q2 _ q4 _ acc key v1 str _ hnn1 hps h3 hnn3 hp5 hv1
              h6 hnn5 h44 h125] at h
            obtain ⟨-, rfl⟩ := ok_inj h
            rw [PrintUnexpectedCh_ptr_, e5]

/-- `ParseValue` never changes `ptr_`. -/
theorem ParseValue_ptr :
    ∀ (n : Nat) (p : Parser) (v : Value) (q : Parser),
      ParseValue n p = .ok (v, q) → q.ptr_ = p.ptr_ := by
  intro n
  induction n with
  | zero =>
    intro p v q h
    simp [ParseValue] at h
  | succ n ih =>
    intro p v q h
    have hnn := pair_eta p.NextNonSpaceChar
    have e0 := NextNonSpaceChar_ptr p
    by_cases h0 : p.NextNonSpaceChar.1 = 0
    · rw [ParseValue_eof n p h0] at h
      obtain ⟨-, rfl⟩ := ok_inj h
      rw [print_ptr_, e0]
    by_cases h91 : p.NextNonSpaceChar.1 = 91
    · rw [h91] at hnn
      rw [ParseValue_array n p _ hnn] at h
      rw [ArrayLoop_ptr _ ih _ _ _ _ _ h, advance_ptr_, e0]
    by_cases h123 : p.NextNonSpaceChar.1 = 123
    · rw [h123] at hnn
      rw [ParseValue_object n p _ hnn] at h
      rw [ObjectLoop_ptr _ ih _ _ _ _ _ h, advance_ptr_, e0]
    by_cases h34 : p.NextNonSpaceChar.1 = 34
    · rw [h34] at hnn
      rw [ParseValue_quote n p _ hnn] at h
      cases hps : p.NextNonSpaceChar.2.advance.ParseString with
      | error e =>
        rw [hps] at h
        exact absurd h (by simp)
      | ok r =>
        obtain ⟨str, q2⟩ := r
        rw [hps] at h
        simp only [] at h
        rw [AddString_ptr _ _ _ _ h, ParseStringLoop_ptr _ _ _ _ _ _ hps, advance_ptr_, e0]
    · rw [ParseValue_other n p _ _ hnn h0 h91 h123 h34] at h
      rw [ParseBoolOrNumber_ptr _ _ _ h, e0]

/-- C15: a parser is used for one parse.  When `ParseFromArray` (or `ParseFromString`)
has returned, with a valid value or with the invalid one, `ptr_` is the buffer of that
call, and every further call of `ParseFromArray` and of `ParseFromString` on that parser
fails the assertion `ptr_ == nullptr`, which comes before any assignment. -/
theorem C15_single_use (p : Parser) (ptr : List Nat) (size : Nat) (v : Value) (q : Parser)
    (h : p.ParseFromArray ptr size = .ok (v, q)) :
    q.ptr_ = some ptr ∧
    (∀ ptr2 size2, q.ParseFromArray ptr2 size2 = .error .assertion) ∧
    (∀ str, q.ParseFromString str = .error .assertion) ∧
    (size = ptr.length → size ≤ MAX_DATA_SIZE → p.ParseFromString ptr = .ok (v, q)) := by
  have hq : q.ptr_ = some ptr := by
    unfold ParseFromArray at h
    split_ifs at h with hnull
    cases hpv : ParseValue (size + 1) (p.setBuffer ptr size) with
    | error e =>
      rw [hpv] at h
      exact absurd h (by simp)
    | ok r =>
      obtain ⟨v0, q0⟩ := r
      rw [hpv] at h
      obtain ⟨-, rfl⟩ := ok_inj h
      rw [reportSuperfluous_ptr_, ParseValue_ptr _ _ _ _ hpv]
      rfl
  have hguard : ∀ ptr2 size2, q.ParseFromArray ptr2 size2 = .error .assertion := by
    intro ptr2 size2
    unfold ParseFromArray
    rw [if_pos (by rw [hq]; simp)]
  refine ⟨hq, hguard, ?_, ?_⟩
  · intro str
    unfold ParseFromString
    split_ifs
    · exact hguard _ _
    · rfl
  · intro hs hmax
    unfold ParseFromString
    rw [if_pos (by rw [← hs]; exact hmax), ← hs]
    exact h

/-- C15 after the parse of `[1]`, a success, and after the parse of `[1`, a failure. -/
theorem C15_single_use_witness :
    (∃ v q, init.ParseFromArray (ascii "[1]") 3 = .ok (v, q) ∧ v.valid = true ∧
      q.ptr_ = some (ascii "[1]") ∧
      (∀ ptr2 size2, q.ParseFromArray ptr2 size2 = .error .assertion) ∧
      (∀ str, q.ParseFromString str = .error .assertion)) ∧
    (∃ v q, init.ParseFromArray (ascii "[1") 2 = .ok (v, q) ∧ v.valid = false ∧
      q.ptr_ = some (ascii "[1") ∧
      (∀ ptr2 size2, q.ParseFromArray ptr2 size2 = .error .assertion) ∧
      (∀ str, q.ParseFromString str = .error .assertion)) :=
  ⟨match hr : init.ParseFromArray (ascii "[1]") 3 with
    | .ok (v, q) =>
      ⟨v, q, rfl, by
          have : (init.ParseFromArray (ascii "[1]") 3).map (fun r => r.1.valid) = .ok true := by
            decide!
          rw [hr] at this
          simpa [Except.map] using this,
        (C15_single_use init (ascii "[1]") 3 v q hr).1,
        (C15_single_use init (ascii "[1]") 3 v q hr).2.1,
        (C15_single_use init (ascii "[1]") 3 v q hr).2.2.1⟩
    | .error e => by
      have : (init.ParseFromArray (ascii "[1]") 3).map (fun r => r.1.valid) = .ok true := by
        decide!
      rw [hr] at this
      simp [Except.map] at this,
   match hr : init.ParseFromArray (ascii "[1") 2 with
    | .ok (v, q) =>
      ⟨v, q, rfl, by
          have : (init.ParseFromArray (ascii "[1") 2).map (fun r => r.1.valid) = .ok false := by
            decide!
          rw [hr] at this
          simpa [Except.map] using this,
        (C15_single_use init (ascii "[1") 2 v q hr).1,
        (C15_single_use init (ascii "[1") 2 v q hr).2.1,
        (C15_single_use init (ascii "[1") 2 v q hr).2.2.1⟩
    | .error e => by
      have : (init.ParseFromArray (ascii "[1") 2).map (fun r => r.1.valid) = .ok false := by
        decide!
      rw [hr] at this
      simp [Except.map] at this⟩

theorem ok_inj2 {α β : Type} {a a2 : α} {b b2 : β}
    (h : (Except.ok (a, b) : Except Fault (α × β)) = .ok (a2, b2)) : a = a2 ∧ b = b2 := by
  simp only [Except.ok.injEq, Prod.mk.injEq] at h
  exact h

/-! ## What `ParseString` returns can be decoded -/

theorem spanBytes_succ (p : Parser) (i m : Nat) :
    p.spanBytes (i, m + 1) = p.byteAt i :: p.spanBytes (i + 1, m) := by
  simp only [spanBytes, List.range_succ_eq_map, List.map_cons, List.map_map, Nat.add_zero]
  congr 1
  apply List.map_congr_left
  intro x _
  simp only [Function.comp]
  congr 1
  omega

theorem wellEscaped_escape (c : Nat) (rest : List Nat) :
    wellEscaped (92 :: c :: rest) = wellEscaped rest := by
  simp [wellEscaped]

theorem wellEscaped_plain (c : Nat) (rest : List Nat) (h92 : c ≠ 92) (h34 : c ≠ 34) :
    wellEscaped (c :: rest) = wellEscaped rest := by
  conv_lhs => unfold wellEscaped
  simp only [h92, h34, if_false]

/-- A valid span that `ParseString` returns: it starts at the cursor and ends in front of
a quote at an index `j` below `size_` and below `2 ^ 31`, the cursor is moved behind that
quote, and the bytes of the span are well escaped. -/
theorem ParseStringLoop_scan :
    ∀ (n : Nat) (esc : Bool) (i : Nat) (p : Parser) (span : StringSpan) (q : Parser),
      ParseStringLoop n esc i p = .ok (span, q) → span.1 < p.size_ → p.offset_ ≤ i →
      ∃ j, i ≤ j ∧ j < p.size_ ∧ j < INT_LIMIT ∧ span = (p.offset_, j - p.offset_) ∧
        p.byteAt j = 34 ∧ q.offset_ = j + 1 ∧ q.ptr_ = p.ptr_ ∧ q.size_ = p.size_ ∧
        q.strs_ = p.strs_ ∧ q.nums_ = p.nums_ ∧ q.arrays_ = p.arrays_ ∧
        q.objects_ = p.objects_ ∧
        wellEscaped ((if esc then [92] else []) ++ p.spanBytes (i, j - i)) = true := by
  intro n
  induction n with
  | zero =>
    intro esc i p span q h hv
    simp only [ParseStringLoop, Except.ok.injEq, Prod.mk.injEq] at h
    obtain ⟨rfl, -⟩ := h
    exact absurd hv (Nat.lt_irrefl _)
  | succ n ih =>
    intro esc i p span q h hv hi
    rw [ParseStringLoop] at h
    by_cases hlt : i < p.size_
    · simp only [hlt, if_true] at h
      cases esc with
      | true =>
        simp only [if_true] at h
        by_cases h1 : i + 1 < INT_LIMIT
        · simp only [h1, if_true] at h
          obtain ⟨j, hj, hjs, hjl, hsp, hb, ho, e1, e2, e3, e4, e5, e6, hw⟩ :=
            ih false (i + 1) p span q h hv (by omega)
          refine ⟨j, by omega, hjs, hjl, hsp, hb, ho, e1, e2, e3, e4, e5, e6, ?_⟩
          obtain ⟨m, hm⟩ : ∃ m, j - i = m + 1 := ⟨j - i - 1, by omega⟩
          have hm2 : j - (i + 1) = m := by omega
          rw [hm2] at hw
          simp only [Bool.false_eq_true, if_false, List.nil_append] at hw
          simp only [if_true, hm, spanBytes_succ, List.singleton_append, wellEscaped_escape]
          exact hw
        · simp only [h1, if_false] at h
          exact absurd h (by simp)
      | false =>
        simp only [Bool.false_eq_true, if_false] at h
        by_cases h0 : INT_LIMIT ≤ i
        · simp only [h0, if_true] at h
          exact absurd h (by simp)
        · simp only [h0, if_false] at h
          by_cases h92 : p.byteAt i = 92
          · simp only [h92, if_true] at h
            by_cases h1 : i + 1 < INT_LIMIT
            · simp only [h1, if_true] at h
              obtain ⟨j, hj, hjs, hjl, hsp, hb, ho, e1, e2, e3, e4, e5, e6, hw⟩ :=
                ih true (i + 1) p span q h hv (by omega)
              refine ⟨j, by omega, hjs, hjl, hsp, hb, ho, e1, e2, e3, e4, e5, e6, ?_⟩
              obtain ⟨m, hm⟩ : ∃ m, j - i = m + 1 := ⟨j - i - 1, by omega⟩
              have hm2 : j - (i + 1) = m := by omega
              rw [hm2] at hw
              simp only [if_true, List.singleton_append] at hw
              simp only [Bool.false_eq_true, if_false, List.nil_append, hm, spanBytes_succ, h92]
              exact hw
            · simp only [h1, if_false] at h
              exact absurd h (by simp)
          · simp only [h92, if_false] at h
            by_cases h34 : p.byteAt i = 34
            · simp only [h34, if_true] at h
              obtain ⟨rfl, rfl⟩ := ok_inj2 h
              refine ⟨i, Nat.le_refl _, hlt, by omega, rfl, h34, rfl, rfl, rfl, rfl, rfl, rfl,
                rfl, ?_⟩
              simp [spanBytes, wellEscaped]
            · simp only [h34, if_false] at h
              by_cases h1 : i + 1 < INT_LIMIT
              · simp only [h1, if_true] at h
                obtain ⟨j, hj, hjs, hjl, hsp, hb, ho, e1, e2, e3, e4, e5, e6, hw⟩ :=
                  ih false (i + 1) p span q h hv (by omega)
                refine ⟨j, by omega, hjs, hjl, hsp, hb, ho, e1, e2, e3, e4, e5, e6, ?_⟩
                obtain ⟨m, hm⟩ : ∃ m, j - i = m + 1 := ⟨j - i - 1, by omega⟩
                have hm2 : j - (i + 1) = m := by omega
                rw [hm2] at hw
                simp only [Bool.false_eq_true, if_false, List.nil_append] at hw
                simp only [Bool.false_eq_true, if_false, List.nil_append, hm, spanBytes_succ,
                  wellEscaped_plain _ _ h92 h34]
                exact hw
              · simp only [h1, if_false] at h
                exact absurd h (by simp)
    · simp only [hlt, if_false, Except.ok.injEq, Prod.mk.injEq] at h
      obtain ⟨rfl, -⟩ := h
      exact absurd hv (Nat.lt_irrefl _)

/-- C16: when `ParseString`, on any buffer and from any offset, returns a span that
`IsValidString` accepts, the bytes of the span are well escaped (no quote without a
backslash before it, no backslash left without a byte after it) and the span has fewer
than `2 ^ 31` bytes, so the decoder reaches none of its assertions on it and returns the
decoded text, in this parser state and in every later one (same `ptr_`). -/
theorem C16_valid_span_decodes (p : Parser) (span : StringSpan) (q : Parser)
    (h : p.ParseString = .ok (span, q)) (hv : q.IsValidString span = true) :
    wellEscaped (q.spanBytes span) = true ∧ span.2 < INT_LIMIT ∧
    q.AsStringSpan span = .ok (unescape (q.spanBytes span)) ∧
    (∀ r : Parser, r.ptr_ = q.ptr_ → r.AsStringSpan span = .ok (unescape (q.spanBytes span))) := by
  have hsz := ParseStringLoop_frame _ _ _ _ _ _ h
  have hv2 : span.1 < p.size_ := by
    unfold IsValidString at hv
    simp only [decide_eq_true_eq] at hv
    rw [← hsz]; exact hv
  obtain ⟨j, hj, hjs, hjl, hsp, hb, ho, e1, -, -, -, -, -, hw⟩ :=
    ParseStringLoop_scan _ false p.offset_ p span q h hv2 (Nat.le_refl _)
  simp only [Bool.false_eq_true, if_false, List.nil_append] at hw
  have hbytes : q.spanBytes span = p.spanBytes (p.offset_, j - p.offset_) := by
    rw [hsp]
    unfold spanBytes byteAt
    rw [e1]
  have hlen : span.2 < INT_LIMIT := by rw [hsp]; show j - p.offset_ < INT_LIMIT; omega
  have hdec : q.AsStringSpan span = .ok (unescape (q.spanBytes span)) := by
    have hlt : ¬ INT_LIMIT ≤ span.2 := by omega
    simp only [AsStringSpan, hlt, if_false]
    rw [AsStringLoop_wellEscaped _ [] (by rw [hbytes]; exact hw)]
    simp
  refine ⟨by rw [hbytes]; exact hw, hlen, hdec, ?_⟩
  intro r hr
  rw [AsStringSpan_ptr hr]
  exact hdec

/-- C16 at the text `"a\"b"`: the span is the four bytes `a\"b`, which decode to `a"b`. -/
theorem C16_valid_span_decodes_witness :
    stringSample.ParseString = .ok ((1, 4), { stringSample with offset_ := 6 }) ∧
    ({ stringSample with offset_ := 6 } : Parser).IsValidString (1, 4) = true ∧
    ({ stringSample with offset_ := 6 } : Parser).spanBytes (1, 4) = ascii "a\\\"b" ∧
    unescape (({ stringSample with offset_ := 6 } : Parser).spanBytes (1, 4)) = ascii "a\"b" ∧
    (wellEscaped (({ stringSample with offset_ := 6 } : Parser).spanBytes (1, 4)) = true ∧
      (4 : Nat) < INT_LIMIT ∧
      ({ stringSample with offset_ := 6 } : Parser).AsStringSpan (1, 4) =
        .ok (unescape (({ stringSample with offset_ := 6 } : Parser).spanBytes (1, 4))) ∧
      (∀ r : Parser, r.ptr_ = ({ stringSample with offset_ := 6 } : Parser).ptr_ →
        r.AsStringSpan (1, 4) =
          .ok (unescape (({ stringSample with offset_ := 6 } : Parser).spanBytes (1, 4))))) :=
  ⟨by decide, by decide, by decide, by decide,
    C16_valid_span_decodes stringSample (1, 4) { stringSample with offset_ := 6 }
      (by decide) (by decide)⟩

/-! ## String tokens -/

theorem closing_of_wellEscaped (raw : List Nat) :
    ∀ r, wellEscaped raw = true → closing (raw ++ 34 :: r) = some raw.length := by
  induction raw using wellEscaped.induct with
  | case1 => intro r _; unfold closing; simp
  | case2 => intro r h; simp [wellEscaped] at h
  | case3 c rest2 ih =>
    intro r h
    simp only [wellEscaped, if_true] at h
    simp [closing, ih r h]
  | case4 rest hc =>
    intro r h
    unfold wellEscaped at h
    simp [hc] at h
  | case5 c rest hc hq ih =>
    intro r h
    unfold wellEscaped at h
    simp only [hc, hq, if_false] at h
    simp only [List.cons_append, List.length_cons]
    unfold closing
    simp only [hc, hq, if_false, ih r h, Option.map_some']

theorem Value.Ok.mono {v : Value} {p q : Parser} {k : Nat} (h : v.Ok p) (hr : Reaches p q k) :
    v.Ok q := by
  obtain ⟨s, n, a, o, hs⟩ := hr
  obtain ⟨h1, h2, h3, h4, h5, h6⟩ := h
  refine ⟨h1, h2, ?_, ?_, ?_, ?_⟩
  · intro ht; have := h3 ht; rw [hs.strs, List.length_append]; omega
  · intro ht; have := h4 ht; rw [hs.nums, List.length_append]; omega
  · intro ht; have := h5 ht; rw [hs.arrays, List.length_append]; omega
  · intro ht; have := h6 ht; rw [hs.objects, List.length_append]; omega

theorem spanBytes_ptr {p q : Parser} (h : q.ptr_ = p.ptr_) (s : StringSpan) :
    q.spanBytes s = p.spanBytes s := by
  unfold spanBytes byteAt
  rw [h]

theorem getElem?_append_cases {α : Type} (l l2 : List α) (k : Nat) (x : α)
    (h : (l ++ l2)[k]? = some x) :
    l[k]? = some x ∨ (l.length ≤ k ∧ l2[k - l.length]? = some x) := by
  by_cases hk : k < l.length
  · left
    rw [List.getElem?_append_left hk] at h
    exact h
  · right
    rw [List.getElem?_append_right (by omega)] at h
    exact ⟨by omega, h⟩

/-- The arenas stay well formed when entries are appended that are well formed
themselves. -/
theorem Good.step_good {p q : Parser} {k : Nat} {s : List StringSpan} {n : List Double}
    {a : List ValueArray} {o : List Object} (hg : Good p) (hs : Step p q k s n a o)
    (h1 : ∀ sp ∈ s, wellEscaped (q.spanBytes sp) = true ∧ sp.2 < INT_LIMIT)
    (h2 : ∀ (j : Nat) (arr : ValueArray), a[j]? = some arr → arr ≠ [] ∧ ∀ v ∈ arr, v.Ok q ∧
      (v.type = Value.ARRAY → v.index < p.arrays_.mem_.length + j))
    (h3 : ∀ (j : Nat) (obj : Object), o[j]? = some obj → obj ≠ [] ∧ ∀ kv ∈ obj, kv.2.Ok q ∧
      (kv.2.type = Value.OBJECT → kv.2.index < p.objects_.mem_.length + j)) : Good q := by
  have hr : Reaches p q k := hs.reaches
  refine ⟨?_, ?_, ?_⟩
  · intro sp hsp
    rw [hs.strs, List.mem_append] at hsp
    rcases hsp with hsp | hsp
    · rw [spanBytes_ptr hs.ptr]; exact hg.strs sp hsp
    · exact h1 sp hsp
  · intro j arr hj
    rw [hs.arrays] at hj
    rcases getElem?_append_cases _ _ _ _ hj with hj | ⟨hle, hj⟩
    · obtain ⟨hne, hall⟩ := hg.arrays j arr hj
      exact ⟨hne, fun v hv => ⟨(hall v hv).1.mono hr, (hall v hv).2⟩⟩
    · obtain ⟨hne, hall⟩ := h2 _ arr hj
      refine ⟨hne, fun v hv => ⟨(hall v hv).1, fun ht => ?_⟩⟩
      have := (hall v hv).2 ht
      omega
  · intro j obj hj
    rw [hs.objects] at hj
    rcases getElem?_append_cases _ _ _ _ hj with hj | ⟨hle, hj⟩
    · obtain ⟨hne, hall⟩ := hg.objects j obj hj
      exact ⟨hne, fun kv hv => ⟨(hall kv hv).1.mono hr, (hall kv hv).2⟩⟩
    · obtain ⟨hne, hall⟩ := h3 _ obj hj
      refine ⟨hne, fun kv hv => ⟨(hall kv hv).1, fun ht => ?_⟩⟩
      have := (hall kv hv).2 ht
      omega

theorem Good.frame_good {p q : Parser} {k : Nat} (hg : Good p) (hs : Step p q k [] [] [] []) :
    Good q :=
  hg.step_good hs (fun _ h => by simp at h) (fun _ _ h => by simp at h)
    (fun _ _ h => by simp at h)

theorem InBuf.step_in {buf : List Nat} {p q : Parser} {k : Nat} (hi : InBuf buf p)
    (hr : Reaches p q k) (hk : p.offset_ + k ≤ buf.length) : InBuf buf q := by
  obtain ⟨s, n, a, o, hs⟩ := hr
  exact ⟨hs.ptr.trans hi.ptr, hs.size.trans hi.size, by rw [hs.offset]; exact hk⟩

theorem Reaches.offset {p q : Parser} {k : Nat} (hr : Reaches p q k) :
    q.offset_ = p.offset_ + k := by
  obtain ⟨s, n, a, o, hs⟩ := hr
  exact hs.offset

theorem Reaches.size {p q : Parser} {k : Nat} (hr : Reaches p q k) : q.size_ = p.size_ := by
  obtain ⟨s, n, a, o, hs⟩ := hr
  exact hs.size

theorem Outcome.ok_iff (p : Parser) (v : Value) (q : Parser) :
    Outcome p (.ok (v, q)) ↔
      ((∃ k, Reaches p q k) ∧ q.offset_ ≤ q.size_ ∧ (v.valid = true → v.Ok q) ∧
        (Good p → Good q)) := Iff.rfl

theorem Outcome.error_iff (p : Parser) (e : Fault) :
    Outcome p (.error e) ↔ e ≠ Fault.fuel := Iff.rfl

theorem Value.Ok_pack (t i : Nat) (p : Parser) (ht1 : 1 ≤ t) (ht5 : t ≤ 5)
    (hi : i ≤ VALUE_INDEX_MASK)
    (h : (t = Value.STRING → i < p.strs_.mem_.length) ∧
      (t = Value.NUMBER → i < p.nums_.mem_.length) ∧
      (t = Value.ARRAY → i < p.arrays_.mem_.length) ∧
      (t = Value.OBJECT → i < p.objects_.mem_.length)) : (Value.pack t i).Ok p := by
  unfold Value.Ok
  rw [Value.type_pack t i hi, Value.index_pack t i hi]
  exact ⟨ht1, ht5, h⟩
theorem Step.of_fields {p q : Parser} (k : Nat) (h1 : q.ptr_ = p.ptr_) (h2 : q.size_ = p.size_)
    (h3 : q.offset_ = p.offset_ + k) (h4 : q.strs_ = p.strs_) (h5 : q.nums_ = p.nums_)
    (h6 : q.arrays_ = p.arrays_) (h7 : q.objects_ = p.objects_) : Step p q k [] [] [] [] :=
  ⟨h1, h2, h3, by rw [h4]; simp, by rw [h5]; simp, by rw [h6]; simp, by rw [h7]; simp⟩

theorem Outcome.invalid {p q : Parser} {k : Nat} (hs : Step p q k [] [] [] [])
    (hle : q.offset_ ≤ q.size_) : Outcome p (.ok (⟨0⟩, q)) :=
  ⟨⟨k, hs.reaches⟩, hle, fun h => absurd h invalid_zero, fun hg => hg.frame_good hs⟩

/-- `ParseBoolOrNumber` ends well. -/
theorem ParseBoolOrNumber_outcome {buf : List Nat} {p : Parser} (hi : InBuf buf p) :
    Outcome p p.ParseBoolOrNumber := by
  have h1 : (1 : Nat) ≤ VALUE_INDEX_MASK := by decide
  have h0 : (0 : Nat) ≤ VALUE_INDEX_MASK := by decide
  have hle : p.offset_ ≤ p.size_ := by rw [hi.size]; exact hi.le
  unfold ParseBoolOrNumber
  split_ifs with ht hf
  · rw [Value.make_ok Value.BOOL 1 (by decide) h1]
    exact ⟨⟨0, (Step.refl p).reaches⟩, hle,
      fun _ => Value.Ok_pack _ _ _ (by decide) (by decide) h1
        ⟨fun h => absurd h (by decide), fun h => absurd h (by decide),
          fun h => absurd h (by decide), fun h => absurd h (by decide)⟩, id⟩
  · rw [Value.make_ok Value.BOOL 0 (by decide) h0]
    exact ⟨⟨0, (Step.refl p).reaches⟩, hle,
      fun _ => Value.Ok_pack _ _ _ (by decide) (by decide) h0
        ⟨fun h => absurd h (by decide), fun h => absurd h (by decide),
          fun h => absurd h (by decide), fun h => absurd h (by decide)⟩, id⟩
  · have hsl := strtod_le (p.bytesFrom p.offset_)
    rw [bytesFrom_eq hi.ptr, List.length_drop] at hsl
    simp only []
    split_ifs with hend
    · exact Outcome.invalid (PrintUnexpectedCh_step _ _ _) (by simpa using hle)
    · by_cases hcap : p.nums_.mem_.length ≤ VALUE_INDEX_MASK
      · simp only [Arena.Add_ok _ _ hcap, Value.make_ok Value.NUMBER _ (by decide) hcap,
          Except.map]
        rw [bytesFrom_eq hi.ptr] at hend ⊢
        have hile := hi.le
        have hs : Step p { p with offset_ := p.offset_ + (strtod (buf.drop p.offset_)).2, nums_ := ⟨p.nums_.mem_ ++ [(strtod (buf.drop p.offset_)).1]⟩ } (strtod (buf.drop p.offset_)).2 [] [(strtod (buf.drop p.offset_)).1] [] [] :=
          ⟨rfl, rfl, rfl, by simp, rfl, by simp, by simp⟩
        refine ⟨⟨_, hs.reaches⟩, ?_, fun _ => ?_, fun hg => ?_⟩
        · show p.offset_ + _ ≤ p.size_
          rw [hi.size]; omega
        · refine Value.Ok_pack _ _ _ (by decide) (by decide) hcap
            ⟨fun h => absurd h (by decide), fun _ => ?_, fun h => absurd h (by decide),
              fun h => absurd h (by decide)⟩
          show p.nums_.mem_.length < (p.nums_.mem_ ++ [_]).length
          simp
        · exact hg.step_good hs (fun _ h => by simp at h) (fun _ _ h => by simp at h)
            (fun _ _ h => by simp at h)
      · simp only [Arena.Add_overflow _ _ hcap]
        exact fun h => by cases h

/-- The three ways `ParseString` ends: the undefined overflow of its index, the span that
`IsValidString` rejects, or a span that starts below `size_`. -/
theorem ParseStringLoop_cases :
    ∀ (n : Nat) (esc : Bool) (i : Nat) (p : Parser), p.offset_ ≤ i →
      ParseStringLoop n esc i p = .error .undefined ∨
      ParseStringLoop n esc i p = .ok ((p.size_, 0), p.print .eofInString) ∨
      ∃ span q, ParseStringLoop n esc i p = .ok (span, q) ∧ span.1 < p.size_ := by
  intro n
  induction n with
  | zero => intro esc i p _; right; left; rfl
  | succ n ih =>
    intro esc i p hi
    rw [ParseStringLoop]
    by_cases hlt : i < p.size_
    · simp only [hlt, if_true]
      cases esc with
      | true =>
        simp only [if_true]
        by_cases h1 : i + 1 < INT_LIMIT
        · simp only [h1, if_true]; exact ih false (i + 1) p (by omega)
        · simp only [h1, if_false]; left; trivial
      | false =>
        simp only [Bool.false_eq_true, if_false]
        by_cases h0 : INT_LIMIT ≤ i
        · simp only [h0, if_true]; left; trivial
        · simp only [h0, if_false]
          by_cases h92 : p.byteAt i = 92
          · simp only [h92, if_true]
            by_cases h1 : i + 1 < INT_LIMIT
            · simp only [h1, if_true]; exact ih true (i + 1) p (by omega)
            · simp only [h1, if_false]; left; trivial
          · simp only [h92, if_false]
            by_cases h34 : p.byteAt i = 34
            · simp only [h34, if_true]
              right; right
              exact ⟨_, _, rfl, by show p.offset_ < p.size_; omega⟩
            · simp only [h34, if_false]
              by_cases h1 : i + 1 < INT_LIMIT
              · simp only [h1, if_true]; exact ih false (i + 1) p (by omega)
              · simp only [h1, if_false]; left; trivial
    · simp only [hlt, if_false]; right; left; trivial

/-- `ParseString` in terms of steps: a fault that is not the exhaustion of a bound, the
rejected span with the cursor unmoved, or a well escaped span with the cursor behind the
closing quote, which is inside the buffer. -/
theorem ParseString_outcome (p : Parser) :
    p.ParseString = .error .undefined ∨
    p.ParseString = .ok ((p.size_, 0), p.print .eofInString) ∨
    ∃ span q k, p.ParseString = .ok (span, q) ∧ span.1 < p.size_ ∧
      Step p q k [] [] [] [] ∧ q.offset_ ≤ q.size_ ∧ 0 < k ∧
      wellEscaped (q.spanBytes span) = true ∧ span.2 < INT_LIMIT := by
  rcases ParseStringLoop_cases (p.size_ - p.offset_) false p.offset_ p (Nat.le_refl _) with
    h | h | ⟨span, q, h, hv⟩
  · left; exact h
  · right; left; exact h
  · right; right
    obtain ⟨j, hj, hjs, hjl, hsp, hb, ho, e1, e2, e3, e4, e5, e6, hw⟩ :=
      ParseStringLoop_scan _ false p.offset_ p span q h hv (Nat.le_refl _)
    simp only [Bool.false_eq_true, if_false, List.nil_append] at hw
    refine ⟨span, q, j + 1 - p.offset_, h, hv,
      Step.of_fields _ e1 e2 (by rw [ho]; omega) e3 e4 e5 e6, by rw [ho, e2]; omega, by omega,
      ?_, by rw [hsp]; show j - p.offset_ < INT_LIMIT; omega⟩
    rw [spanBytes_ptr e1, hsp]
    exact hw
theorem Outcome.trans_outcome {p p2 : Parser} {k : Nat} {r : Except Fault (Value × Parser)}
    (hr : Reaches p p2 k) (hg : Good p → Good p2) (h : Outcome p2 r) : Outcome p r := by
  cases r with
  | error e => exact h
  | ok x =>
    obtain ⟨v, q⟩ := x
    obtain ⟨⟨k2, hr2⟩, hle, hok, hg2⟩ := h
    exact ⟨⟨k + k2, hr.trans_reaches hr2⟩, hle, hok, fun g => hg2 (hg g)⟩

theorem InBuf.of_reaches {buf : List Nat} {p q : Parser} {k : Nat} (hi : InBuf buf p)
    (hr : Reaches p q k) (hle : q.offset_ ≤ q.size_) : InBuf buf q := by
  refine hi.step_in hr ?_
  rw [← hr.offset, ← hi.size, ← hr.size]
  exact hle

/-- The array loop ends well when the calls of `ParseValue` in it do. -/
theorem ArrayLoop_outcome (buf : List Nat) (pv : Parser → Except Fault (Value × Parser))
    (o0 : Nat) (hpv : ∀ p, InBuf buf p → o0 ≤ p.offset_ → Outcome p (pv p)) :
    ∀ (k : Nat) (p : Parser) (acc : ValueArray), InBuf buf p → o0 ≤ p.offset_ →
      buf.length - p.offset_ < k → (∀ v ∈ acc, v.Ok p) →
      Outcome p (ArrayLoop pv k p acc) := by
  intro k
  induction k with
  | zero => intro p acc _ _ hk; omega
  | succ k ih =>
    intro p acc hi ho hk hacc
    have hO := hpv p hi ho
    cases hp : pv p with
    | error e =>
      rw [hp] at hO
      rw [ArrayLoop_error pv k p acc e hp]
      exact hO
    | ok r =>
      obtain ⟨v1, q1⟩ := r
      rw [hp] at hO
      obtain ⟨⟨k1, hr1⟩, hle1, hok1, hg1⟩ := hO
      by_cases hv1 : v1.valid = true
      swap
      · rw [ArrayLoop_invalid pv k p q1 acc v1 hp (by simpa using hv1)]
        exact ⟨⟨k1, hr1⟩, hle1, fun h => absurd h hv1, hg1⟩
      have hi1 := hi.of_reaches hr1 hle1
      obtain ⟨k2, hs2, hcase⟩ := NextNonSpaceChar_cases hi1.ptr hi1.size hi1.le
      have hnn := pair_eta q1.NextNonSpaceChar
      have hoff1 := hr1.offset
      have hs2a := hs2.trans (advance_step q1.NextNonSpaceChar.2)
      have hoff2a : q1.NextNonSpaceChar.2.advance.offset_ = q1.offset_ + (k2 + 1) := hs2a.offset
      by_cases h44 : q1.NextNonSpaceChar.1 = 44
      · have hlt : q1.offset_ + k2 < buf.length := by
          rcases hcase with ⟨h, -, -⟩ | ⟨-, h⟩
          · exact h
          · rw [h44] at h; omega
        rw [h44] at hnn
        rw [ArrayLoop_cons pv k p q1 _ acc v1 hp hv1 hnn]
        have hr2 : Reaches p q1.NextNonSpaceChar.2.advance (k1 + (k2 + 1)) :=
          hr1.trans_reaches hs2a.reaches
        have hi2 : InBuf buf q1.NextNonSpaceChar.2.advance :=
          hi1.step_in hs2a.reaches (by omega)
        refine Outcome.trans_outcome hr2 (fun g => (hg1 g).frame_good hs2a) ?_
        refine ih _ (acc ++ [v1]) hi2 (by omega) (by omega) ?_
        intro v hv
        rcases List.mem_append.1 hv with hv | hv
        · exact (hacc v hv).mono hr2
        · rw [List.mem_singleton.1 hv]
          exact (hok1 hv1).mono hs2a.reaches
      by_cases h93 : q1.NextNonSpaceChar.1 = 93
      · rw [h93] at hnn
        by_cases hcap : q1.NextNonSpaceChar.2.advance.arrays_.mem_.length ≤ VALUE_INDEX_MASK
        · rw [ArrayLoop_last pv k p q1 _ acc v1 hp hv1 hnn hcap]
          have hlt : q1.offset_ + k2 < buf.length := by
            rcases hcase with ⟨h, -, -⟩ | ⟨-, h⟩
            · exact h
            · rw [h93] at h; omega
          have hs3 := (holds_array (a := acc ++ [v1]) hcap).1
          have hs4 := hs2a.trans hs3
          have hr4 := hr1.trans_reaches hs4.reaches
          refine ⟨⟨_, hr4⟩, ?_, fun _ => ?_, fun g => ?_⟩
          · rw [hs4.offset, hs4.size, hi1.size]; omega
          · refine Value.Ok_pack _ _ _ (by decide) (by decide) hcap
              ⟨fun h => absurd h (by decide), fun h => absurd h (by decide), fun _ => ?_,
                fun h => absurd h (by decide)⟩
            rw [hs3.arrays]; simp
          · refine ((hg1 g).frame_good hs2a).step_good hs3 (fun _ h => by simp at h) ?_
              (fun _ _ h => by simp at h)
            intro j arr hj
            have hj0 : j = 0 := by
              cases j with
              | zero => rfl
              | succ j => simp at hj
            subst hj0
            simp only [List.getElem?_cons_zero, Option.some.injEq] at hj
            subst hj
            refine ⟨by simp, fun v hv => ?_⟩
            have hvq : v.Ok q1.NextNonSpaceChar.2.advance := by
              rcases List.mem_append.1 hv with hv | hv
              · exact (hacc v hv).mono (hr1.trans_reaches hs2a.reaches)
              · rw [List.mem_singleton.1 hv]
                exact (hok1 hv1).mono hs2a.reaches
            exact ⟨hvq.mono hs3.reaches, fun ht => by have := hvq.2.2.2.2.1 ht; omega⟩
        · rw [ArrayLoop_overflow pv k p q1 _ acc v1 hp hv1 hnn hcap]
          exact fun h => by cases h
      · rw [ArrayLoop_other pv k p q1 _ acc v1 _ hp hv1 hnn h44 h93]
        have hle2 : q1.offset_ + k2 ≤ buf.length := by
          rcases hcase with ⟨h, -, -⟩ | ⟨h, -⟩ <;> omega
        refine Outcome.trans_outcome (hr1.trans_reaches hs2.reaches)
          (fun g => (hg1 g).frame_good hs2) ?_
        refine Outcome.invalid (PrintUnexpectedCh_step _ _ _) ?_
        rw [PrintUnexpectedCh_offset_, PrintUnexpectedCh_size_, hs2.offset, hs2.size, hi1.size]
        exact hle2
theorem AsStringSpan_wellEscaped (p : Parser) (s : StringSpan)
    (hw : wellEscaped (p.spanBytes s) = true) (hlen : s.2 < INT_LIMIT) :
    p.AsStringSpan s = .ok (unescape (p.spanBytes s)) := by
  have hlt : ¬ INT_LIMIT ≤ s.2 := by omega
  simp only [AsStringSpan, hlt, if_false]
  rw [AsStringLoop_wellEscaped _ [] hw]
  simp

/-- The object loop ends well when the calls of `ParseValue` in it do. -/
theorem ObjectLoop_outcome (buf : List Nat) (pv : Parser → Except Fault (Value × Parser))
    (o0 : Nat) (hpv : ∀ p, InBuf buf p → o0 ≤ p.offset_ → Outcome p (pv p)) :
    ∀ (k : Nat) (p : Parser) (acc : Object), InBuf buf p → o0 ≤ p.offset_ →
      buf.length - p.offset_ < k → (∀ kv ∈ acc, kv.2.Ok p) →
      Outcome p (ObjectLoop pv k p acc) := by
  intro k
  induction k with
  | zero => intro p acc _ _ hk; omega
  | succ k ih =>
    intro p acc hi ho hk hacc
    -- the key
    obtain ⟨k1, hs1, hcase1⟩ := NextNonSpaceChar_cases hi.ptr hi.size hi.le
    have hnn1 := pair_eta p.NextNonSpaceChar
    have hle1 : p.offset_ + k1 ≤ buf.length := by
      rcases hcase1 with ⟨h, -, -⟩ | ⟨h, -⟩ <;> omega
    by_cases h34 : p.NextNonSpaceChar.1 = 34
    swap
    · rw [ObjectLoop_nokey pv k p _ acc _ hnn1 h34]
      refine Outcome.trans_outcome hs1.reaches (fun g => g.frame_good hs1) ?_
      refine Outcome.invalid (PrintUnexpectedCh_step _ _ _) ?_
      rw [PrintUnexpectedCh_offset_, PrintUnexpectedCh_size_, hs1.offset, hs1.size, hi.size]
      exact hle1
    have hlt1 : p.offset_ + k1 < buf.length := by
      rcases hcase1 with ⟨h, -, -⟩ | ⟨-, h⟩
      · exact h
      · rw [h34] at h; omega
    rw [h34] at hnn1
    have hs1a := hs1.trans (advance_step p.NextNonSpaceChar.2)
    have hi1a : InBuf buf p.NextNonSpaceChar.2.advance := hi.step_in hs1a.reaches (by omega)
    rcases ParseString_outcome p.NextNonSpaceChar.2.advance with
      h2 | h2 | ⟨key, q2, kk, h2, hkey, hs2, hle2, hkk, hwe, hlen⟩
    · rw [ObjectLoop_keyfault pv k p _ acc _ hnn1 h2]
      exact fun h => by cases h
    · rw [ObjectLoop_badkey pv k p _ _ acc _ hnn1 h2 (by simp [IsValidString])]
      refine Outcome.trans_outcome hs1a.reaches (fun g => g.frame_good hs1a) ?_
      refine Outcome.invalid (print_step _ _) ?_
      rw [print_offset_, print_size_, hi1a.size]
      exact hi1a.le
    have hs12 := hs1a.trans hs2
    have hi2 : InBuf buf q2 := hi.of_reaches hs12.reaches hle2
    have h3 : q2.IsValidString key = true := by
      unfold IsValidString
      simp only [decide_eq_true_eq]
      rw [hs2.size]
      exact hkey
    -- the colon
    obtain ⟨k3, hs3, hcase3⟩ := NextNonSpaceChar_cases hi2.ptr hi2.size hi2.le
    have hnn3 := pair_eta q2.NextNonSpaceChar
    have hle3 : q2.offset_ + k3 ≤ buf.length := by
      rcases hcase3 with ⟨h, -, -⟩ | ⟨h, -⟩ <;> omega
    have hs13 := hs12.trans hs3
    by_cases h58 : q2.NextNonSpaceChar.1 = 58
    swap
    · rw [ObjectLoop_nocolon pv k p _ _ _ acc _ _ hnn1 h2 h3 hnn3 h58]
      refine Outcome.trans_outcome hs13.reaches (fun g => g.frame_good hs13) ?_
      refine Outcome.invalid (PrintUnexpectedCh_step _ _ _) ?_
      rw [PrintUnexpectedCh_offset_, PrintUnexpectedCh_size_, hs3.offset, hs3.size, hi2.size]
      exact hle3
    have hlt3 : q2.offset_ + k3 < buf.length := by
      rcases hcase3 with ⟨h, -, -⟩ | ⟨-, h⟩
      · exact h
      · rw [h58] at h; omega
    rw [h58] at hnn3
    have hs3a := hs3.trans (advance_step q2.NextNonSpaceChar.2)
    have hs13a := hs12.trans hs3a
    have hi3a : InBuf buf q2.NextNonSpaceChar.2.advance := hi2.step_in hs3a.reaches (by omega)
    have hoff2 : q2.offset_ = p.offset_ + (k1 + 1 + kk) := hs12.offset
    have hoff3a : q2.NextNonSpaceChar.2.advance.offset_ = q2.offset_ + (k3 + 1) := hs3a.offset
    -- the value
    have hO := hpv q2.NextNonSpaceChar.2.advance hi3a (by omega)
    cases hp5 : pv q2.NextNonSpaceChar.2.advance with
    | error e =>
      rw [hp5] at hO
      rw [ObjectLoop_error pv k p _ q2 _ acc key e hnn1 h2 h3 hnn3 hp5]
      exact hO
    | ok r =>
      obtain ⟨v1, q4⟩ := r
      rw [hp5] at hO
      obtain ⟨⟨k4, hr4⟩, hle4, hok4, hg4⟩ := hO
      have hr14 : Reaches p q4 (k1 + 1 + kk + (k3 + 1) + k4) := hs13a.reaches.trans_reaches hr4
      have hg14 : Good p → Good q4 := fun g => hg4 (g.frame_good hs13a)
      by_cases hv1 : v1.valid = true
      swap
      · rw [ObjectLoop_invalid pv k p _ q2 _ q4 acc key v1 hnn1 h2 h3 hnn3 hp5
          (by simpa using hv1)]
        exact ⟨⟨_, hr14⟩, hle4, fun h => absurd h hv1, hg14⟩
      have hi4 : InBuf buf q4 := hi.of_reaches hr14 hle4
      have hptr4 : q4.ptr_ = q2.ptr_ := by rw [hi4.ptr, hi2.ptr]
      have h6 : q4.AsStringSpan key = .ok (unescape (q4.spanBytes key)) :=
        AsStringSpan_wellEscaped q4 key (by rw [spanBytes_ptr hptr4]; exact hwe) hlen
      have hs4 := (AsStringPiece_step q4 (unescape (q4.spanBytes key))).2
      have hi4b : InBuf buf (q4.AsStringPiece (unescape (q4.spanBytes key))).2 :=
        hi4.step_in hs4.reaches (by have := hi4.le; omega)
      -- the separator
      obtain ⟨k5, hs5, hcase5⟩ := NextNonSpaceChar_cases hi4b.ptr hi4b.size hi4b.le
      have hnn5 := pair_eta (q4.AsStringPiece (unescape (q4.spanBytes key))).2.NextNonSpaceChar
      have hoff4b : (q4.AsStringPiece (unescape (q4.spanBytes key))).2.offset_ = q4.offset_ + 0 :=
        hs4.offset
      have hoff4 := hr14.offset
      have hle5 : (q4.AsStringPiece (unescape (q4.spanBytes key))).2.offset_ + k5 ≤ buf.length := by
        rcases hcase5 with ⟨h, -, -⟩ | ⟨h, -⟩ <;> omega
      have hs45 := hs4.trans hs5
      have hs45a := hs45.trans
        (advance_step (q4.AsStringPiece (unescape (q4.spanBytes key))).2.NextNonSpaceChar.2)
      have hr15a := hr14.trans_reaches hs45a.reaches
      have hacc2 : ∀ kv ∈ acc ++ [(unescape (q4.spanBytes key), v1)],
          kv.2.Ok (q4.AsStringPiece (unescape (q4.spanBytes key))).2.NextNonSpaceChar.2.advance := by
        intro kv hkv
        rcases List.mem_append.1 hkv with hkv | hkv
        · exact (hacc kv hkv).mono hr15a
        · rw [List.mem_singleton.1 hkv]
          exact (hok4 hv1).mono hs45a.reaches
      by_cases h44 : (q4.AsStringPiece (unescape (q4.spanBytes key))).2.NextNonSpaceChar.1 = 44
      · have hlt5 : (q4.AsStringPiece (unescape (q4.spanBytes key))).2.offset_ + k5
            < buf.length := by
          rcases hcase5 with ⟨h, -, -⟩ | ⟨-, h⟩
          · exact h
          · rw [h44] at h; omega
        rw [h44] at hnn5
        rw [ObjectLoop_cons pv k p _ q2 _ q4 _ acc key v1 _ hnn1 h2 h3 hnn3 hp5 hv1 h6 hnn5]
        have hoff5a := hs45a.offset
        have hi5a := hi4.step_in hs45a.reaches (by omega)
        refine Outcome.trans_outcome hr15a (fun g => (hg14 g).frame_good hs45a) ?_
        exact ih _ _ hi5a (by omega) (by omega) hacc2
      by_cases h125 : (q4.AsStringPiece (unescape (q4.spanBytes key))).2.NextNonSpaceChar.1 = 125
      · rw [h125] at hnn5
        by_cases hcap :
            (q4.AsStringPiece (unescape (q4.spanBytes key))).2.NextNonSpaceChar.2.advance.objects_.mem_.length
              ≤ VALUE_INDEX_MASK
        · rw [ObjectLoop_last pv k p _ q2 _ q4 _ acc key v1 _ hnn1 h2 h3 hnn3 hp5 hv1 h6 hnn5
            hcap]
          have hlt5 : (q4.AsStringPiece (unescape (q4.spanBytes key))).2.offset_ + k5
              < buf.length := by
            rcases hcase5 with ⟨h, -, -⟩ | ⟨-, h⟩
            · exact h
            · rw [h125] at h; omega
          have hs6 := (holds_object (o := acc ++ [(unescape (q4.spanBytes key), v1)]) hcap).1
          have hs46 := hs45a.trans hs6
          refine ⟨⟨_, hr14.trans_reaches hs46.reaches⟩, ?_, fun _ => ?_, fun g => ?_⟩
          · rw [hs46.offset, hs46.size, hi4.size]; omega
          · refine Value.Ok_pack _ _ _ (by decide) (by decide) hcap
              ⟨fun h => absurd h (by decide), fun h => absurd h (by decide),
                fun h => absurd h (by decide), fun _ => ?_⟩
            rw [hs6.objects]; simp
          · refine ((hg14 g).frame_good hs45a).step_good hs6 (fun _ h => by simp at h)
              (fun _ _ h => by simp at h) ?_
            intro j obj hj
            have hj0 : j = 0 := by
              cases j with
              | zero => rfl
              | succ j => simp at hj
            subst hj0
            simp only [List.getElem?_cons_zero, Option.some.injEq] at hj
            subst hj
            refine ⟨by simp, fun kv hkv => ?_⟩
            have hvq := hacc2 kv hkv
            exact ⟨hvq.mono hs6.reaches, fun ht => by have := hvq.2.2.2.2.2 ht; omega⟩
        · rw [ObjectLoop_overflow pv k p _ q2 _ q4 _ acc key v1 _ hnn1 h2 h3 hnn3 hp5 hv1 h6
            hnn5 hcap]
          exact fun h => by cases h
      · rw [ObjectLoop_other pv k p _ q2 _ q4 _ acc key v1 _ _ hnn1 h2 h3 hnn3 hp5 hv1 h6 hnn5
          h44 h125]
        refine Outcome.trans_outcome (hr14.trans_reaches hs45.reaches)
          (fun g => (hg14 g).frame_good hs45) ?_
        refine Outcome.invalid (PrintUnexpectedCh_step _ _ _) ?_
        rw [PrintUnexpectedCh_offset_, PrintUnexpectedCh_size_, hs5.offset, hs5.size,
          hi4b.size]
        exact hle5
theorem AddString_overflow (p : Parser) (str : StringSpan) (h : p.IsValidString str = true)
    (hcap : ¬ p.strs_.mem_.length ≤ VALUE_INDEX_MASK) :
    p.AddString str = .error .assertion := by
  unfold AddString
  simp only [h, Bool.not_true, Bool.false_eq_true, if_false, Arena.Add_overflow _ _ hcap]

/-- `ParseValue` ends well on every buffer: with a value and a state as `Outcome` says, or
with a fault that is not the exhaustion of the recursion bound, when that bound is at
least the number of bytes left. -/
theorem ParseValue_outcome (buf : List Nat) :
    ∀ (n : Nat) (p : Parser), InBuf buf p → buf.length - p.offset_ ≤ n →
      Outcome p (ParseValue (n + 1) p) := by
  intro n
  induction n with
  | zero =>
    intro p hi hn
    obtain ⟨k0, hs0, hcase⟩ := NextNonSpaceChar_cases hi.ptr hi.size hi.le
    have hle := hi.le
    rcases hcase with ⟨h, -, -⟩ | ⟨h, h0⟩
    · omega
    · rw [ParseValue_eof 0 p h0]
      refine Outcome.trans_outcome hs0.reaches (fun g => g.frame_good hs0) ?_
      refine Outcome.invalid (print_step _ _) ?_
      rw [print_offset_, print_size_, hs0.offset, hs0.size, hi.size]
      omega
  | succ n ih =>
    intro p hi hn
    obtain ⟨k0, hs0, hcase⟩ := NextNonSpaceChar_cases hi.ptr hi.size hi.le
    have hnn := pair_eta p.NextNonSpaceChar
    have hle0 : p.offset_ + k0 ≤ buf.length := by
      rcases hcase with ⟨h, -, -⟩ | ⟨h, -⟩ <;> omega
    have hi0 : InBuf buf p.NextNonSpaceChar.2 := hi.step_in hs0.reaches hle0
    by_cases h0 : p.NextNonSpaceChar.1 = 0
    · rw [ParseValue_eof (n + 1) p h0]
      refine Outcome.trans_outcome hs0.reaches (fun g => g.frame_good hs0) ?_
      refine Outcome.invalid (print_step _ _) ?_
      rw [print_offset_, print_size_, hi0.size]
      exact hi0.le
    have hlt : p.offset_ + k0 < buf.length := by
      rcases hcase with ⟨h, -, -⟩ | ⟨-, h⟩
      · exact h
      · exact absurd h h0
    have hs0a := hs0.trans (advance_step p.NextNonSpaceChar.2)
    have hi0a : InBuf buf p.NextNonSpaceChar.2.advance := hi.step_in hs0a.reaches (by omega)
    have hoff0a : p.NextNonSpaceChar.2.advance.offset_ = p.offset_ + (k0 + 1) := hs0a.offset
    have hpv : ∀ p2, InBuf buf p2 → p.NextNonSpaceChar.2.advance.offset_ ≤ p2.offset_ →
        Outcome p2 (ParseValue (n + 1) p2) :=
      fun p2 h1 h2 => ih p2 h1 (by omega)
    by_cases h91 : p.NextNonSpaceChar.1 = 91
    · rw [h91] at hnn
      rw [ParseValue_array (n + 1) p _ hnn]
      refine Outcome.trans_outcome hs0a.reaches (fun g => g.frame_good hs0a) ?_
      exact ArrayLoop_outcome buf _ _ hpv _ _ [] hi0a (Nat.le_refl _)
        (by rw [hi0a.size]; omega) (fun _ h => by simp at h)
    by_cases h123 : p.NextNonSpaceChar.1 = 123
    · rw [h123] at hnn
      rw [ParseValue_object (n + 1) p _ hnn]
      refine Outcome.trans_outcome hs0a.reaches (fun g => g.frame_good hs0a) ?_
      exact ObjectLoop_outcome buf _ _ hpv _ _ [] hi0a (Nat.le_refl _)
        (by rw [hi0a.size]; omega) (fun _ h => by simp at h)
    by_cases h34 : p.NextNonSpaceChar.1 = 34
    · rw [h34] at hnn
      rw [ParseValue_quote (n + 1) p _ hnn]
      rcases ParseString_outcome p.NextNonSpaceChar.2.advance with
        h2 | h2 | ⟨span, q2, kk, h2, hkey, hs2, hle2, hkk, hwe, hlen⟩
      · rw [h2]
        exact fun h => by cases h
      · rw [h2]
        simp only []
        rw [AddString_invalid _ _ (by simp [IsValidString])]
        refine Outcome.trans_outcome hs0a.reaches (fun g => g.frame_good hs0a) ?_
        refine Outcome.invalid (print_step _ _) ?_
        rw [print_offset_, print_size_, hi0a.size]
        exact hi0a.le
      · rw [h2]
        simp only []
        have h3 : q2.IsValidString span = true := by
          unfold IsValidString
          simp only [decide_eq_true_eq]
          rw [hs2.size]
          exact hkey
        have hs02 := hs0a.trans hs2
        by_cases hcap : q2.strs_.mem_.length ≤ VALUE_INDEX_MASK
        · obtain ⟨q3, h4, hs3⟩ := AddString_ok q2 _ h3 hcap
          rw [h4]
          refine Outcome.trans_outcome hs02.reaches (fun g => g.frame_good hs02) ?_
          refine ⟨⟨0, hs3.reaches⟩, ?_, fun _ => ?_, fun g => ?_⟩
          · rw [hs3.offset, hs3.size]; exact hle2
          · refine Value.Ok_pack _ _ _ (by decide) (by decide) hcap
              ⟨fun _ => ?_, fun h => absurd h (by decide), fun h => absurd h (by decide),
                fun h => absurd h (by decide)⟩
            rw [hs3.strs]; simp
          · refine g.step_good hs3 ?_ (fun _ _ h => by simp at h) (fun _ _ h => by simp at h)
            intro sp hsp
            rw [List.mem_singleton.1 hsp, spanBytes_ptr hs3.ptr]
            exact ⟨hwe, hlen⟩
        · rw [AddString_overflow q2 _ h3 hcap]
          exact fun h => by cases h
    · rw [ParseValue_other (n + 1) p _ _ hnn h0 h91 h123 h34]
      refine Outcome.trans_outcome hs0.reaches (fun g => g.frame_good hs0) ?_
      exact ParseBoolOrNumber_outcome hi0

/-! ## After a parse -/

theorem init_good (buf : List Nat) : Good (init.setBuffer buf buf.length) :=
  ⟨fun _ h => by simp [init, setBuffer] at h, fun _ _ h => by simp [init, setBuffer] at h,
    fun _ _ h => by simp [init, setBuffer] at h⟩

theorem init_inBuf (buf : List Nat) : InBuf buf (init.setBuffer buf buf.length) :=
  ⟨rfl, rfl, Nat.zero_le _⟩

/-- What holds of the value and the state that `ParseFromString` returns. -/
theorem ParseFromString_good (buf : List Nat) (v : Value) (q : Parser)
    (h : init.ParseFromString buf = .ok (v, q)) :
    InBuf buf q ∧ Good q ∧ (v.valid = true → v.Ok q) := by
  obtain ⟨q0, hpv, rfl⟩ := ParseFromString_inv buf v q h
  have hO := ParseValue_outcome buf buf.length _ (init_inBuf buf) (by simp [init, setBuffer])
  rw [hpv] at hO
  obtain ⟨⟨k, hr⟩, hle, hok, hg⟩ := hO
  have hs := reportSuperfluous_step q0 v
  have hi0 := (init_inBuf buf).of_reaches hr hle
  refine ⟨hi0.step_in hs.reaches (by have := hi0.le; omega),
    (hg (init_good buf)).frame_good hs, fun hv => (hok hv).mono hs.reaches⟩

theorem Arena.Get_lt {α : Type} (a : Arena α) (i : Nat) (h : i < a.mem_.length) :
    a.Get i = .ok (a.mem_.get ⟨i, h⟩) := by
  unfold Arena.Get
  rw [List.get?_eq_get h]

theorem Arena.Get_getElem? {α : Type} (a : Arena α) (i : Nat) (x : α)
    (h : a.Get i = .ok x) : a.mem_[i]? = some x := by
  unfold Arena.Get at h
  cases hg : a.mem_.get? i with
  | none => rw [hg] at h; exact absurd h (by simp)
  | some y =>
    rw [hg] at h
    simp only [Except.ok.injEq] at h
    subst h
    simpa using hg

/-- The handles a parse produced: the root, the elements of the stored arrays and the
values of the properties of the stored objects. -/
theorem produced_ok {p : Parser} {root : Value} (hg : Good p)
    (hroot : root.valid = true → root.Ok p) (a : Value)
    (ha : (a = root ∧ root.valid = true) ∨ (∃ arr ∈ p.arrays_.mem_, a ∈ arr) ∨
      (∃ obj ∈ p.objects_.mem_, ∃ kv ∈ obj, kv.2 = a)) : a.Ok p := by
  rcases ha with ⟨rfl, hv⟩ | ⟨arr, harr, ha⟩ | ⟨obj, hobj, kv, hkv, rfl⟩
  · exact hroot hv
  · obtain ⟨k, hk⟩ := List.getElem?_of_mem harr
    exact ((hg.arrays k arr hk).2 a ha).1
  · obtain ⟨k, hk⟩ := List.getElem?_of_mem hobj
    exact ((hg.objects k obj hk).2 kv hkv).1

/-- C14: after a parse, for every `ARRAY` handle that the parse produced (the root, an
element of a stored array, the value of a property of a stored object): the handle has a
stored array `elems`; `ArraySize` is its length; `ArrayElem` at an index below that length
returns the element at that index, in the order of appending, and it is a valid value;
at any other index `ArrayElem` fails with the exception of `at()`. -/
theorem C14_array_elem_bounds (buf : List Nat) (root : Value) (p : Parser)
    (h : init.ParseFromString buf = .ok (root, p)) (a : Value)
    (ha : a.type = Value.ARRAY)
    (hprod : (a = root ∧ root.valid = true) ∨ (∃ arr ∈ p.arrays_.mem_, a ∈ arr) ∨
      (∃ obj ∈ p.objects_.mem_, ∃ kv ∈ obj, kv.2 = a)) :
    ∃ elems, p.arrays_.Get a.index = .ok elems ∧ p.ArraySize a = .ok elems.length ∧
      ∀ i, (i < elems.length →
          ∃ e, elems[i]? = some e ∧ p.ArrayElem a i = .ok e ∧ e.valid = true) ∧
        (elems.length ≤ i → p.ArrayElem a i = .error .outOfRange) := by
  obtain ⟨-, hg, hroot⟩ := ParseFromString_good buf root p h
  have hok := produced_ok hg hroot a hprod
  have hlt := hok.2.2.2.2.1 ha
  have hget := Arena.Get_lt p.arrays_ a.index hlt
  refine ⟨_, hget, ?_, ?_⟩
  · unfold ArraySize
    rw [if_neg (by rw [ha]; simp), hget]
    rfl
  · intro i
    have hk := Arena.Get_getElem? _ _ _ hget
    obtain ⟨-, hall⟩ := hg.arrays _ _ hk
    refine ⟨fun hi => ?_, fun hi => ?_⟩
    · have he : (p.arrays_.mem_.get ⟨a.index, hlt⟩)[i]? =
          some ((p.arrays_.mem_.get ⟨a.index, hlt⟩)[i]) := List.getElem?_eq_getElem hi
      refine ⟨_, he, ?_, ?_⟩
      · unfold ArrayElem
        rw [if_neg (by rw [ha]; simp), hget]
        simp only [List.get?_eq_getElem?, he]
      · have := (hall _ (List.getElem_mem hi)).1.1
        simp only [Value.valid, decide_eq_true_eq]
        omega
    · unfold ArrayElem
      rw [if_neg (by rw [ha]; simp), hget]
      simp only [List.get?_eq_getElem?, List.getElem?_eq_none hi]

/-- C14 at the text `[7, 8]` and its root: the size is 2, the elements at 0 and 1 are the
numbers, and index 2 is out of range. -/
theorem C14_array_elem_bounds_witness :
    init.ParseFromString (ascii "[7, 8]") = .ok (Value.pack Value.ARRAY 0, parsed78) ∧
    (Value.pack Value.ARRAY 0).type = Value.ARRAY ∧
    (Value.pack Value.ARRAY 0).valid = true ∧
    (∃ elems, parsed78.arrays_.Get (Value.pack Value.ARRAY 0).index = .ok elems ∧
      parsed78.ArraySize (Value.pack Value.ARRAY 0) = .ok elems.length ∧
      ∀ i, (i < elems.length →
          ∃ e, elems[i]? = some e ∧ parsed78.ArrayElem (Value.pack Value.ARRAY 0) i = .ok e ∧
            e.valid = true) ∧
        (elems.length ≤ i →
          parsed78.ArrayElem (Value.pack Value.ARRAY 0) i = .error .outOfRange)) ∧
    parsed78.ArraySize (Value.pack Value.ARRAY 0) = .ok 2 ∧
    parsed78.ArrayElem (Value.pack Value.ARRAY 0) 1 = .ok (Value.pack Value.NUMBER 1) ∧
    parsed78.ArrayElem (Value.pack Value.ARRAY 0) 2 = .error .outOfRange :=
  ⟨by decide!, by decide, by decide,
    C14_array_elem_bounds (ascii "[7, 8]") (Value.pack Value.ARRAY 0) parsed78 (by decide!)
      _ (by decide) (Or.inl ⟨rfl, by decide⟩),
    by decide, by decide, by decide⟩

theorem accessors_ok {p : Parser} (hg : Good p) (v : Value) (hv : v.Ok p) :
    (v.type = Value.STRING → ∃ s, p.AsString v = .ok s) ∧
    (v.type = Value.NUMBER → ∃ x, p.AsNumber v = .ok x) ∧
    (v.type = Value.ARRAY → ∃ n, p.ArraySize v = .ok n ∧ 1 ≤ n) ∧
    (v.type = Value.OBJECT → ∃ n, p.ObjectSize v = .ok n ∧ 1 ≤ n) := by
  obtain ⟨-, -, h3, h4, h5, h6⟩ := hv
  refine ⟨fun ht => ?_, fun ht => ?_, fun ht => ?_, fun ht => ?_⟩
  · have hget := Arena.Get_lt p.strs_ v.index (h3 ht)
    obtain ⟨hw, hl⟩ := hg.strs _ (Arena.Get_mem hget)
    refine ⟨unescape (p.spanBytes (p.strs_.mem_.get ⟨v.index, h3 ht⟩)), ?_⟩
    unfold AsString
    rw [if_neg (by rw [ht]; simp), hget]
    exact AsStringSpan_wellEscaped p _ hw hl
  · have hget := Arena.Get_lt p.nums_ v.index (h4 ht)
    refine ⟨p.nums_.mem_.get ⟨v.index, h4 ht⟩, ?_⟩
    unfold AsNumber
    rw [if_neg (by rw [ht]; simp), hget]
  · have hget := Arena.Get_lt p.arrays_ v.index (h5 ht)
    have hne := (hg.arrays _ _ (Arena.Get_getElem? _ _ _ hget)).1
    refine ⟨(p.arrays_.mem_.get ⟨v.index, h5 ht⟩).length, ?_, List.length_pos.2 hne⟩
    unfold ArraySize
    rw [if_neg (by rw [ht]; simp), hget]
    rfl
  · have hget := Arena.Get_lt p.objects_ v.index (h6 ht)
    have hne := (hg.objects _ _ (Arena.Get_getElem? _ _ _ hget)).1
    refine ⟨(p.objects_.mem_.get ⟨v.index, h6 ht⟩).length, ?_, List.length_pos.2 hne⟩
    unfold ObjectSize
    rw [if_neg (by rw [ht]; simp), hget]
    rfl

/-- C18: after `ParseFromString` has returned, with a valid root or not: a valid root is a
handle the arenas can serve (`Value.Ok`: type tag from 1 to 5 and, unless it is a `BOOL`,
an index below the number of entries of the arena of its type); the arenas are well formed
(`Good`: every value stored in an array or as a property of an object is such a handle,
and an array in an array, or an object in an object, has a smaller index than its parent);
and on every such handle `AsString`, `AsNumber`, `ArraySize` and `ObjectSize` return. -/
theorem C18_handles_well_formed (buf : List Nat) (root : Value) (p : Parser)
    (h : init.ParseFromString buf = .ok (root, p)) :
    (root.valid = true → root.Ok p) ∧ Good p ∧
    (∀ arr ∈ p.arrays_.mem_, ∀ v ∈ arr, v.valid = true ∧ v.Ok p) ∧
    (∀ obj ∈ p.objects_.mem_, ∀ kv ∈ obj, kv.2.valid = true ∧ kv.2.Ok p) ∧
    (∀ v : Value, v.Ok p →
      (v.type = Value.STRING → ∃ s, p.AsString v = .ok s) ∧
      (v.type = Value.NUMBER → ∃ x, p.AsNumber v = .ok x) ∧
      (v.type = Value.ARRAY → ∃ n, p.ArraySize v = .ok n) ∧
      (v.type = Value.OBJECT → ∃ n, p.ObjectSize v = .ok n)) := by
  obtain ⟨-, hg, hroot⟩ := ParseFromString_good buf root p h
  have hvalid : ∀ v : Value, v.Ok p → v.valid = true := by
    intro v hv
    have := hv.1
    simp only [Value.valid, decide_eq_true_eq]
    omega
  refine ⟨hroot, hg, ?_, ?_, ?_⟩
  · intro arr harr v hv
    have hok := produced_ok hg hroot v (Or.inr (Or.inl ⟨arr, harr, hv⟩))
    exact ⟨hvalid v hok, hok⟩
  · intro obj hobj kv hkv
    have hok := produced_ok hg hroot kv.2 (Or.inr (Or.inr ⟨obj, hobj, kv, hkv, rfl⟩))
    exact ⟨hvalid _ hok, hok⟩
  · intro v hv
    obtain ⟨h1, h2, h3, h4⟩ := accessors_ok hg v hv
    exact ⟨h1, h2, fun ht => (h3 ht).imp fun _ hn => hn.1,
      fun ht => (h4 ht).imp fun _ hn => hn.1⟩

/-- C20: after `ParseFromString` has returned, every stored array and every stored object
has at least one entry, so `ArraySize` and `ObjectSize` are at least 1 on every handle the
arenas can serve.  The text `{}` gives the invalid value and stores no object; the text
`[]` gives an array, of one element (the number of a conversion that failed, see C7), not
of none. -/
theorem C20_no_empty_container (buf : List Nat) (root : Value) (p : Parser)
    (h : init.ParseFromString buf = .ok (root, p)) :
    (∀ arr ∈ p.arrays_.mem_, 1 ≤ arr.length) ∧ (∀ obj ∈ p.objects_.mem_, 1 ≤ obj.length) ∧
    (∀ v : Value, v.Ok p →
      (v.type = Value.ARRAY → ∃ n, p.ArraySize v = .ok n ∧ 1 ≤ n) ∧
      (v.type = Value.OBJECT → ∃ n, p.ObjectSize v = .ok n ∧ 1 ≤ n)) ∧
    (init.ParseFromString (ascii "\x7b\x7d")).map
        (fun r => (r.1.valid, r.2.objects_.mem_.length)) = .ok (false, 0) ∧
    (init.ParseFromString (ascii "[]")).map
        (fun r => (r.1.valid, r.1.type, r.2.arrays_.mem_.map List.length)) =
      .ok (true, Value.ARRAY, [1]) := by
  obtain ⟨-, hg, hroot⟩ := ParseFromString_good buf root p h
  refine ⟨?_, ?_, ?_, by decide!, by decide!⟩
  · intro arr harr
    obtain ⟨k, hk⟩ := List.getElem?_of_mem harr
    exact List.length_pos.2 (hg.arrays k arr hk).1
  · intro obj hobj
    obtain ⟨k, hk⟩ := List.getElem?_of_mem hobj
    exact List.length_pos.2 (hg.objects k obj hk).1
  · intro v hv
    obtain ⟨-, -, h3, h4⟩ := accessors_ok hg v hv
    exact ⟨h3, h4⟩

/-- C18 at the text `[[1],{"a":[2,3]}]`: the root is the array with index 2, whose
elements are the array with index 0 and the object with index 0. -/
theorem C18_handles_well_formed_witness :
    (init.ParseFromString (ascii "[[1],\x7b\"a\":[2,3]\x7d]")).map
        (fun r => (r.1.value_, r.2.arrays_.mem_.map (fun a => a.map (·.value_)))) =
      .ok (2147483650,
        [[1073741824], [1073741825, 1073741826], [2147483648, 2684354560]]) ∧
    ∃ root p, init.ParseFromString (ascii "[[1],\x7b\"a\":[2,3]\x7d]") = .ok (root, p) ∧
      (root.valid = true → root.Ok p) ∧ Good p ∧
      (∀ arr ∈ p.arrays_.mem_, ∀ v ∈ arr, v.valid = true ∧ v.Ok p) ∧
      (∀ obj ∈ p.objects_.mem_, ∀ kv ∈ obj, kv.2.valid = true ∧ kv.2.Ok p) ∧
      (∀ v : Value, v.Ok p →
        (v.type = Value.STRING → ∃ s, p.AsString v = .ok s) ∧
        (v.type = Value.NUMBER → ∃ x, p.AsNumber v = .ok x) ∧
        (v.type = Value.ARRAY → ∃ n, p.ArraySize v = .ok n) ∧
        (v.type = Value.OBJECT → ∃ n, p.ObjectSize v = .ok n)) :=
  ⟨by decide!,
    match hr : init.ParseFromString (ascii "[[1],\x7b\"a\":[2,3]\x7d]") with
    | .ok (root, p) => ⟨root, p, rfl, C18_handles_well_formed _ root p hr⟩
    | .error e => by
      have h2 : (init.ParseFromString (ascii "[[1],\x7b\"a\":[2,3]\x7d]")).toBool = true := by
        decide!
      rw [hr] at h2
      exact absurd h2 (by simp [Except.toBool])⟩

/-- C20 at the text `[[1],{"a":[2,3]}]`: three arrays, of 1, 2 and 2 entries, and one
object, of 1 entry. -/
theorem C20_no_empty_container_witness :
    (init.ParseFromString (ascii "[[1],\x7b\"a\":[2,3]\x7d]")).map
        (fun r => (r.2.arrays_.mem_.map List.length, r.2.objects_.mem_.map List.length)) =
      .ok ([1, 2, 2], [1]) ∧
    ∃ root p, init.ParseFromString (ascii "[[1],\x7b\"a\":[2,3]\x7d]") = .ok (root, p) ∧
      (∀ arr ∈ p.arrays_.mem_, 1 ≤ arr.length) ∧ (∀ obj ∈ p.objects_.mem_, 1 ≤ obj.length) ∧
      (∀ v : Value, v.Ok p →
        (v.type = Value.ARRAY → ∃ n, p.ArraySize v = .ok n ∧ 1 ≤ n) ∧
        (v.type = Value.OBJECT → ∃ n, p.ObjectSize v = .ok n ∧ 1 ≤ n)) ∧
      (init.ParseFromString (ascii "\x7b\x7d")).map
          (fun r => (r.1.valid, r.2.objects_.mem_.length)) = .ok (false, 0) ∧
      (init.ParseFromString (ascii "[]")).map
          (fun r => (r.1.valid, r.1.type, r.2.arrays_.mem_.map List.length)) =
        .ok (true, Value.ARRAY, [1]) :=
  ⟨by decide!,
    match hr : init.ParseFromString (ascii "[[1],\x7b\"a\":[2,3]\x7d]") with
    | .ok (root, p) => ⟨root, p, rfl, C20_no_empty_container _ root p hr⟩
    | .error e => by
      have h2 : (init.ParseFromString (ascii "[[1],\x7b\"a\":[2,3]\x7d]")).toBool = true := by
        decide!
      rw [hr] at h2
      exact absurd h2 (by simp [Except.toBool])⟩

/-- C19: on every buffer, every call of `ParseValue` whose recursion bound is at least the
number of bytes left (the cursor inside the buffer, `size_` its length) ends: either with
a value and a state whose cursor is not before the cursor at the call and not beyond
`size_`, on the same buffer, or with a fault of the source (an assertion, an index that
overflowed), never because a bound of the embedding ran out.  The bounds are those of the
code's measure: the loops get one iteration per byte left and one more, and each nested
call one level per byte left.  So `ParseFromString` never runs out of them, and on at most
`2 ^ 29` bytes it returns a value, with the cursor at most `size_`. -/
theorem C19_parse_terminates (buf : List Nat) :
    (∀ (p : Parser) (n : Nat), InBuf buf p → buf.length - p.offset_ ≤ n →
      (∃ v q, ParseValue (n + 1) p = .ok (v, q) ∧ p.offset_ ≤ q.offset_ ∧
        q.offset_ ≤ q.size_ ∧ q.size_ = p.size_ ∧ q.ptr_ = p.ptr_) ∨
      (∃ e, ParseValue (n + 1) p = .error e ∧ e ≠ Fault.fuel)) ∧
    init.ParseFromString buf ≠ .error .fuel ∧
    (buf.length ≤ 2 ^ 29 →
      ∃ v q, init.ParseFromString buf = .ok (v, q) ∧ q.offset_ ≤ q.size_) := by
  have hgen : ∀ (p : Parser) (n : Nat), InBuf buf p → buf.length - p.offset_ ≤ n →
      (∃ v q, ParseValue (n + 1) p = .ok (v, q) ∧ p.offset_ ≤ q.offset_ ∧
        q.offset_ ≤ q.size_ ∧ q.size_ = p.size_ ∧ q.ptr_ = p.ptr_) ∨
      (∃ e, ParseValue (n + 1) p = .error e ∧ e ≠ Fault.fuel) := by
    intro p n hi hn
    have hO := ParseValue_outcome buf n p hi hn
    cases hr : ParseValue (n + 1) p with
    | error e =>
      rw [hr] at hO
      exact Or.inr ⟨e, rfl, hO⟩
    | ok r =>
      obtain ⟨v, q⟩ := r
      rw [hr] at hO
      obtain ⟨⟨k, hk⟩, hle, -, -⟩ := hO
      obtain ⟨s, m, a, o, hs⟩ := hk
      exact Or.inl ⟨v, q, rfl, by rw [hs.offset]; omega, hle, hs.size, hs.ptr⟩
  refine ⟨hgen, ?_, ?_⟩
  · intro hf
    unfold ParseFromString ParseFromArray at hf
    by_cases hsize : buf.length ≤ MAX_DATA_SIZE
    · rw [if_pos hsize, if_neg (by simp [init])] at hf
      rcases hgen _ buf.length (init_inBuf buf) (by simp [init, setBuffer]) with
        ⟨v, q, hr, -⟩ | ⟨e, hr, he⟩
      · rw [hr] at hf
        exact absurd hf (by simp)
      · rw [hr] at hf
        simp only [Except.error.injEq] at hf
        exact he hf
    · rw [if_neg hsize] at hf
      exact absurd hf (by simp)
  · intro hsize
    have hinv : Inv buf (init.setBuffer buf buf.length) :=
      ⟨rfl, rfl, Nat.zero_le _, init_cap buf⟩
    obtain ⟨v, q, hr, hiq, -⟩ := ParseValue_total buf hsize buf.length _ hinv (Or.inr rfl)
      (by simp [init, setBuffer])
    refine ⟨v, _, ParseFromString_eq buf (le_trans hsize (by decide)) v q hr, ?_⟩
    rw [reportSuperfluous_offset_, reportSuperfluous_size_, hiq.size]
    exact hiq.le

/-- C19 at the text `[1,[2]]` from the start: `ParseValue` returns with the cursor at 7,
the size. -/
theorem C19_parse_terminates_witness :
    InBuf (ascii "[1,[2]]") (init.setBuffer (ascii "[1,[2]]") (ascii "[1,[2]]").length) ∧
    (ascii "[1,[2]]").length -
      (init.setBuffer (ascii "[1,[2]]") (ascii "[1,[2]]").length).offset_ ≤ 7 ∧
    ((∃ v q, ParseValue (7 + 1) (init.setBuffer (ascii "[1,[2]]") (ascii "[1,[2]]").length)
          = .ok (v, q) ∧
        (init.setBuffer (ascii "[1,[2]]") (ascii "[1,[2]]").length).offset_ ≤ q.offset_ ∧
        q.offset_ ≤ q.size_ ∧
        q.size_ = (init.setBuffer (ascii "[1,[2]]") (ascii "[1,[2]]").length).size_ ∧
        q.ptr_ = (init.setBuffer (ascii "[1,[2]]") (ascii "[1,[2]]").length).ptr_) ∨
      (∃ e, ParseValue (7 + 1) (init.setBuffer (ascii "[1,[2]]") (ascii "[1,[2]]").length)
          = .error e ∧ e ≠ Fault.fuel)) ∧
    (ParseValue (7 + 1) (init.setBuffer (ascii "[1,[2]]") (ascii "[1,[2]]").length)).map
        (fun r => (r.1.valid, r.2.offset_, r.2.size_)) = .ok (true, 7, 7) :=
  ⟨init_inBuf _, by decide,
    (C19_parse_terminates (ascii "[1,[2]]")).1 _ 7 (init_inBuf _) (by decide), by decide!⟩

end json
